import Mathlib

/-!
Verification of the mutation-testing engine (`mutate.py`) and the batch
aggregation of the test harness (`driver.py`).

The engine works on Python abstract syntax trees.  We shallowly embed the
fragment of the Python AST that the engine inspects and rewrites:
names (with store/load context), constants, binary operations, (chained)
comparisons, calls, tuples; assignment statements (plain, annotated,
augmented), expression statements, `if`/`while`/`for`, `return`, `pass`
and function definitions.  Expressions never contain statements in this
fragment, so the statement types are defined after the expression types.

Python's `id(node)` identity for `Compare` nodes (used by the eligibility
key set `_cmp_keys`) is modelled by numbering `Compare` nodes in the order
in which both traversals reach them: each traversal carries a counter
`nid` that is incremented exactly when a `Compare` node is visited, so the
number a node receives is the same in pass 1 and pass 2.
-/

namespace MutTest

inductive CmpOp where
  | eq | notEq | lt | ltE | gt | gtE | isOp | inOp
  deriving DecidableEq, Repr, BEq

inductive BinOperator where
  | add | sub | mult | floorDiv | mod
  deriving DecidableEq, Repr, BEq

inductive Const where
  | intC (n : Int)
  | boolC (b : Bool)
  | strC (s : String)
  | noneC
  deriving DecidableEq, Repr, BEq

mutual

inductive Expr where
  | name (id : String) (store : Bool)
  | const (v : Const)
  | binOp (left : Expr) (op : BinOperator) (right : Expr)
  | compare (left : Expr) (pairs : CmpPairs)
  | call (func : Expr) (args : ExprList)
  | tuple (elts : ExprList) (store : Bool)
  deriving DecidableEq, Repr

/-- The parallel `ops`/`comparators` lists of an `ast.Compare`, fused into
one list of (operator, comparator) pairs; this also records the invariant
that the two lists have equal length. -/
inductive CmpPairs where
  | nil
  | cons (op : CmpOp) (cmp : Expr) (rest : CmpPairs)
  deriving DecidableEq, Repr

inductive ExprList where
  | nil
  | cons (e : Expr) (rest : ExprList)
  deriving DecidableEq, Repr

end

mutual

inductive Stmt where
  | assign (targets : ExprList) (value : Expr)
  | annAssign (target : Expr) (ann : Expr) (value : Option Expr)
  | augAssign (target : Expr) (op : BinOperator) (value : Expr)
  | exprStmt (value : Expr)
  | ifStmt (test : Expr) (body : StmtList) (orelse : StmtList)
  | whileStmt (test : Expr) (body : StmtList) (orelse : StmtList)
  | forStmt (target : Expr) (iter : Expr) (body : StmtList) (orelse : StmtList)
  | ret (value : Option Expr)
  | pass
  | funcDef (nm : String) (args : List String) (body : StmtList)
  deriving DecidableEq, Repr

inductive StmtList where
  | nil
  | cons (s : Stmt) (rest : StmtList)
  deriving DecidableEq, Repr

end

/-- CMP_NEGATION from mutate.py: the relational operators and their
negations; `none` for operator classes absent from the dictionary. -/
def CMP_NEGATION : CmpOp → Option CmpOp
  | .eq => some .notEq
  | .notEq => some .eq
  | .lt => some .gtE
  | .ltE => some .gt
  | .gt => some .ltE
  | .gtE => some .lt
  | _ => none

/-- BIN_SWAP from mutate.py: add and sub swap, mult and floorDiv swap. -/
def BIN_SWAP : BinOperator → Option BinOperator
  | .add => some .sub
  | .sub => some .add
  | .mult => some .floorDiv
  | .floorDiv => some .mult
  | _ => none

/-- CALL_SWAP from mutate.py: the min and max callee names swap. -/
def CALL_SWAP (s : String) : Option String :=
  if s = "min" then some "max" else if s = "max" then some "min" else none

mutual

/-- The inner `collect_targets` of `names_defined_by_assign_stmt`: gathers
names in store context, recursing through tuple (and list) targets. -/
def collect_targets : Expr → List String
  | .name id store => if store then [id] else []
  | .tuple elts _ => collect_targetsList elts
  | _ => []

def collect_targetsList : ExprList → List String
  | .nil => []
  | .cons e rest => collect_targets e ++ collect_targetsList rest

end

/-- The names a statement defines, per `names_defined_by_assign_stmt`:
nonempty only for Assign, AnnAssign and AugAssign. -/
def names_defined_by_assign_stmt : Stmt → List String
  | .assign targets _ => collect_targetsList targets
  | .annAssign target _ _ => collect_targets target
  | .augAssign target _ _ => collect_targets target
  | _ => []

/-- The state accumulated by pass 1 (`CandidateCounter`).  `bin_sites`,
`bool_sites` and `call_sites` are kept as counts since only their lengths
are consumed downstream; `cmp_sites` and `del_sites` keep their contents.
`nid` is the number of Compare nodes visited so far (node identity). -/
structure CandidateCounter where
  cmp_sites : List (Nat × Nat)
  cmp_keys : List (Nat × Nat)
  bin_sites : Nat
  del_sites : List Stmt
  bool_sites : Nat
  call_sites : Nat
  first_def_names : List String
  seen_any_def : List String
  nid : Nat
  deriving DecidableEq, Repr

def initCounter : CandidateCounter :=
  { cmp_sites := [], cmp_keys := [], bin_sites := 0, del_sites := []
    bool_sites := 0, call_sites := 0, first_def_names := []
    seen_any_def := [], nid := 0 }

/-- `_maybe_record_first_defs`: a name is added to `first_def_names` the
first time any definition of it is seen. -/
def recordFirstDefs (names : List String) (c : CandidateCounter) : CandidateCounter :=
  names.foldl
    (fun c nm =>
      if c.seen_any_def.contains nm then c
      else { c with seen_any_def := c.seen_any_def ++ [nm]
                    first_def_names := c.first_def_names ++ [nm] })
    c

/-- The site-recording loop of `CandidateCounter.visit_Compare`: each
operator of the chain whose class is in CMP_NEGATION adds a
(node identity, operator index) pair to `cmp_sites` and `_cmp_keys`. -/
def recordCmpOps (myId : Nat) : Nat → CmpPairs → CandidateCounter → CandidateCounter
  | _, .nil, c => c
  | i, .cons op _ rest, c =>
      let c := if (CMP_NEGATION op).isSome then
        { c with cmp_sites := c.cmp_sites ++ [(myId, i)]
                 cmp_keys := c.cmp_keys ++ [(myId, i)] }
        else c
      recordCmpOps myId (i + 1) rest c

/-- Test used by `visit_If`/`visit_While` of both passes: the node's test
is a literal boolean constant. -/
def isBoolConst : Expr → Bool
  | .const (.boolC _) => true
  | _ => false

mutual

/-- Pass 1 over expressions.  `inLoop` is true when some ancestor of the
node is a `for` or `while` node, which is what `_is_under_loop` computes
from the recorded parent map. -/
def countExpr (inLoop : Bool) (c : CandidateCounter) : Expr → CandidateCounter
  | .name _ _ => c
  | .const _ => c
  | .binOp l op r =>
      let c := if (BIN_SWAP op).isSome then { c with bin_sites := c.bin_sites + 1 } else c
      countExpr inLoop (countExpr inLoop c l) r
  | .compare l pairs =>
      let myId := c.nid
      let c := { c with nid := c.nid + 1 }
      let c := if inLoop then c else recordCmpOps myId 0 pairs c
      countCmpPairs inLoop (countExpr inLoop c l) pairs
  | .call f args =>
      let c := match f with
        | .name id _ => if (CALL_SWAP id).isSome then { c with call_sites := c.call_sites + 1 } else c
        | _ => c
      countExprList inLoop (countExpr inLoop c f) args
  | .tuple elts _ => countExprList inLoop c elts

def countCmpPairs (inLoop : Bool) (c : CandidateCounter) : CmpPairs → CandidateCounter
  | .nil => c
  | .cons _ e rest => countCmpPairs inLoop (countExpr inLoop c e) rest

def countExprList (inLoop : Bool) (c : CandidateCounter) : ExprList → CandidateCounter
  | .nil => c
  | .cons e rest => countExprList inLoop (countExpr inLoop c e) rest

end

mutual

/-- Pass 1 over statements.  Children of `for`/`while` nodes (test, iter,
target, body, orelse) are traversed with `inLoop := true`. -/
def countStmt (inLoop : Bool) (c : CandidateCounter) : Stmt → CandidateCounter
  | .assign targets value =>
      let c := recordFirstDefs (names_defined_by_assign_stmt (.assign targets value)) c
      let c := { c with del_sites := c.del_sites ++ [.assign targets value] }
      countExpr inLoop (countExprList inLoop c targets) value
  | .annAssign target ann value =>
      let c := recordFirstDefs (names_defined_by_assign_stmt (.annAssign target ann value)) c
      let c := { c with del_sites := c.del_sites ++ [.annAssign target ann value] }
      let c := countExpr inLoop (countExpr inLoop c target) ann
      match value with
      | some v => countExpr inLoop c v
      | none => c
  | .augAssign target op value =>
      let c := if (BIN_SWAP op).isSome then { c with bin_sites := c.bin_sites + 1 } else c
      let c := recordFirstDefs (names_defined_by_assign_stmt (.augAssign target op value)) c
      let c := { c with del_sites := c.del_sites ++ [.augAssign target op value] }
      countExpr inLoop (countExpr inLoop c target) value
  | .exprStmt value =>
      let c := match value with
        | .call _ _ => { c with del_sites := c.del_sites ++ [.exprStmt value] }
        | _ => c
      countExpr inLoop c value
  | .ifStmt test body orelse =>
      let c := if isBoolConst test then { c with bool_sites := c.bool_sites + 1 } else c
      countStmtList inLoop (countStmtList inLoop (countExpr inLoop c test) body) orelse
  | .whileStmt test body orelse =>
      let c := if isBoolConst test then { c with bool_sites := c.bool_sites + 1 } else c
      countStmtList true (countStmtList true (countExpr true c test) body) orelse
  | .forStmt target iter body orelse =>
      countStmtList true (countStmtList true (countExpr true (countExpr true c target) iter) body) orelse
  | .ret value =>
      match value with
      | some v => countExpr inLoop c v
      | none => c
  | .pass => c
  | .funcDef _ _ body => countStmtList inLoop c body

def countStmtList (inLoop : Bool) (c : CandidateCounter) : StmtList → CandidateCounter
  | .nil => c
  | .cons s rest => countStmtList inLoop (countStmt inLoop c s) rest

end

/-- Pass 1 on a whole module: the module node itself has no loop ancestor. -/
def runCounter (m : StmtList) : CandidateCounter :=
  countStmtList false initCounter m

/-- The five mutation categories of `_choose_plan`. -/
inductive Cat where
  | cmp | bin | del | bool | call
  deriving DecidableEq, Repr, BEq

/-- A plan maps categories to chosen ordinal indices; `_choose_plan`
produces either the empty plan or one category with one index. -/
abbrev Plan := List (Cat × List Nat)

/-- The test the Mutator performs per category:
`kind in self.plan and self.seen_kind in self.plan[kind]`. -/
def planSelects (p : Plan) (c : Cat) (n : Nat) : Bool :=
  p.any (fun q => q.1 == c && q.2.contains n)

/-- The `avail` dictionary of `_choose_plan`, in its insertion order. -/
def avail (c : CandidateCounter) : List (Cat × Nat) :=
  [(.cmp, c.cmp_sites.length), (.bin, c.bin_sites), (.del, c.del_sites.length),
   (.bool, c.bool_sites), (.call, c.call_sites)]

/-- `_choose_plan`: categories with zero sites are dropped; one remaining
category is drawn (weighted — modelled by an arbitrary draw `kindDraw`
reduced modulo the number of candidates, which reaches exactly the
categories the weighted choice can return since all weights are positive),
then one index uniform in [0, n-1] (modelled by `idxDraw % n`). -/
def choosePlan (c : CandidateCounter) (kindDraw idxDraw : Nat) : Plan :=
  let kinds := (avail c).filter (fun q => 0 < q.2)
  if kinds.isEmpty then []
  else
    let q := kinds.getD (kindDraw % kinds.length) (.cmp, 0)
    [(q.1, [idxDraw % q.2])]

/-- The constant context of pass 2 (`Mutator.__init__`). -/
structure MCtx where
  plan : Plan
  first_def_names : List String
  cmp_keys : List (Nat × Nat)
  deriving Repr

/-- The running counters of pass 2, plus the Compare identity counter. -/
structure MState where
  seen_cmp : Nat
  seen_bin : Nat
  seen_del : Nat
  seen_bool : Nat
  seen_call : Nat
  nid : Nat
  deriving DecidableEq, Repr

def initMState : MState :=
  { seen_cmp := 0, seen_bin := 0, seen_del := 0, seen_bool := 0
    seen_call := 0, nid := 0 }

/-- `Mutator._maybe_delete_stmt`: the counter advances whether or not the
site is selected or vetoed; a selected statement is replaced by `pass`
only when none of its defined names is in `first_def_names`. -/
def maybeDeleteStmt (ctx : MCtx) (node : Stmt) (σ : MState) : Stmt × MState :=
  let selected := planSelects ctx.plan .del σ.seen_del
  let σ := { σ with seen_del := σ.seen_del + 1 }
  if !selected then (node, σ)
  else if (names_defined_by_assign_stmt node).any (fun nm => ctx.first_def_names.contains nm) then
    (node, σ)
  else (.pass, σ)

/-- The operator loop of `Mutator.visit_Compare`: operators whose class is
in CMP_NEGATION are checked against the eligibility keys; only eligible
operators advance `seen_cmp`, and the selected one is negated. -/
def mutCmpOps (ctx : MCtx) (myId : Nat) : Nat → CmpPairs → MState → CmpPairs × MState
  | _, .nil, σ => (.nil, σ)
  | i, .cons op e rest, σ =>
      match CMP_NEGATION op with
      | some negOp =>
          if ctx.cmp_keys.contains (myId, i) then
            let op' := if planSelects ctx.plan .cmp σ.seen_cmp then negOp else op
            let σ := { σ with seen_cmp := σ.seen_cmp + 1 }
            let (rest', σ) := mutCmpOps ctx myId (i + 1) rest σ
            (.cons op' e rest', σ)
          else
            let (rest', σ) := mutCmpOps ctx myId (i + 1) rest σ
            (.cons op e rest', σ)
      | none =>
          let (rest', σ) := mutCmpOps ctx myId (i + 1) rest σ
          (.cons op e rest', σ)

/-- The tail of `Mutator.visit_Call` after `generic_visit`: if the
(transformed) callee is a bare name in CALL_SWAP, maybe rename it and
advance `seen_call`. -/
def callSwapFix (ctx : MCtx) (f' : Expr) (args' : ExprList) (σ : MState) : Expr × MState :=
  match f' with
  | .name id store =>
      match CALL_SWAP id with
      | some other =>
          let id' := if planSelects ctx.plan .call σ.seen_call then other else id
          (.call (.name id' store) args', { σ with seen_call := σ.seen_call + 1 })
      | none => (.call (.name id store) args', σ)
  | _ => (.call f' args', σ)

mutual

/-- Pass 2 over expressions.  As in `ast.NodeTransformer`, children are
transformed first (`generic_visit`), then the node's own rewrite logic
runs; so nested sites are counted before the enclosing node's sites. -/
def mutExpr (ctx : MCtx) : Expr → MState → Expr × MState
  | .name id store, σ => (.name id store, σ)
  | .const v, σ => (.const v, σ)
  | .binOp l op r, σ =>
      let (l', σ) := mutExpr ctx l σ
      let (r', σ) := mutExpr ctx r σ
      match BIN_SWAP op with
      | some swapped =>
          let op' := if planSelects ctx.plan .bin σ.seen_bin then swapped else op
          (.binOp l' op' r', { σ with seen_bin := σ.seen_bin + 1 })
      | none => (.binOp l' op r', σ)
  | .compare l pairs, σ =>
      let myId := σ.nid
      let σ := { σ with nid := σ.nid + 1 }
      let (l', σ) := mutExpr ctx l σ
      let (pairs₁, σ) := mutCmpComparators ctx pairs σ
      let (pairs₂, σ) := mutCmpOps ctx myId 0 pairs₁ σ
      (.compare l' pairs₂, σ)
  | .call f args, σ =>
      let (f', σ) := mutExpr ctx f σ
      let (args', σ) := mutExprList ctx args σ
      callSwapFix ctx f' args' σ
  | .tuple elts store, σ =>
      let (elts', σ) := mutExprList ctx elts σ
      (.tuple elts' store, σ)

/-- The `generic_visit` part of `visit_Compare`: comparator expressions
are transformed (operators untouched). -/
def mutCmpComparators (ctx : MCtx) : CmpPairs → MState → CmpPairs × MState
  | .nil, σ => (.nil, σ)
  | .cons op e rest, σ =>
      let (e', σ) := mutExpr ctx e σ
      let (rest', σ) := mutCmpComparators ctx rest σ
      (.cons op e' rest', σ)

def mutExprList (ctx : MCtx) : ExprList → MState → ExprList × MState
  | .nil, σ => (.nil, σ)
  | .cons e rest, σ =>
      let (e', σ) := mutExpr ctx e σ
      let (rest', σ) := mutExprList ctx rest σ
      (.cons e' rest', σ)

end

/-- The tail of `Mutator.visit_Expr`: only expression statements whose
(transformed) value is a call go through `_maybe_delete_stmt`. -/
def exprStmtFix (ctx : MCtx) (value' : Expr) (σ : MState) : Stmt × MState :=
  match value' with
  | .call f a => maybeDeleteStmt ctx (.exprStmt (.call f a)) σ
  | _ => (.exprStmt value', σ)

/-- The tail of `Mutator.visit_If`: literal boolean tests may be flipped
and advance `seen_bool`. -/
def ifTestFix (ctx : MCtx) (test' : Expr) (body' orelse' : StmtList) (σ : MState) :
    Stmt × MState :=
  match test' with
  | .const (.boolC b) =>
      let b' := if planSelects ctx.plan .bool σ.seen_bool then !b else b
      (.ifStmt (.const (.boolC b')) body' orelse', { σ with seen_bool := σ.seen_bool + 1 })
  | _ => (.ifStmt test' body' orelse', σ)

/-- The tail of `Mutator.visit_While`, identical in logic to `visit_If`. -/
def whileTestFix (ctx : MCtx) (test' : Expr) (body' orelse' : StmtList) (σ : MState) :
    Stmt × MState :=
  match test' with
  | .const (.boolC b) =>
      let b' := if planSelects ctx.plan .bool σ.seen_bool then !b else b
      (.whileStmt (.const (.boolC b')) body' orelse', { σ with seen_bool := σ.seen_bool + 1 })
  | _ => (.whileStmt test' body' orelse', σ)

mutual

/-- Pass 2 over statements.  `visit_Assign`, `visit_AnnAssign` and the
call case of `visit_Expr` route through `_maybe_delete_stmt` after their
children; `visit_AugAssign` first runs the bin-swap logic and goes to the
deletion path only when the bin plan did not change it. -/
def mutStmt (ctx : MCtx) : Stmt → MState → Stmt × MState
  | .assign targets value, σ =>
      let (targets', σ) := mutExprList ctx targets σ
      let (value', σ) := mutExpr ctx value σ
      maybeDeleteStmt ctx (.assign targets' value') σ
  | .annAssign target ann value, σ =>
      let (target', σ) := mutExpr ctx target σ
      let (ann', σ) := mutExpr ctx ann σ
      match value with
      | some v =>
          let (v', σ) := mutExpr ctx v σ
          maybeDeleteStmt ctx (.annAssign target' ann' (some v')) σ
      | none => maybeDeleteStmt ctx (.annAssign target' ann' none) σ
  | .augAssign target op value, σ =>
      let (target', σ) := mutExpr ctx target σ
      let (value', σ) := mutExpr ctx value σ
      match BIN_SWAP op with
      | some swapped =>
          if planSelects ctx.plan .bin σ.seen_bin then
            (.augAssign target' swapped value', { σ with seen_bin := σ.seen_bin + 1 })
          else
            maybeDeleteStmt ctx (.augAssign target' op value') { σ with seen_bin := σ.seen_bin + 1 }
      | none => maybeDeleteStmt ctx (.augAssign target' op value') σ
  | .exprStmt value, σ =>
      let (value', σ) := mutExpr ctx value σ
      exprStmtFix ctx value' σ
  | .ifStmt test body orelse, σ =>
      let (test', σ) := mutExpr ctx test σ
      let (body', σ) := mutStmtList ctx body σ
      let (orelse', σ) := mutStmtList ctx orelse σ
      ifTestFix ctx test' body' orelse' σ
  | .whileStmt test body orelse, σ =>
      let (test', σ) := mutExpr ctx test σ
      let (body', σ) := mutStmtList ctx body σ
      let (orelse', σ) := mutStmtList ctx orelse σ
      whileTestFix ctx test' body' orelse' σ
  | .forStmt target iter body orelse, σ =>
      let (target', σ) := mutExpr ctx target σ
      let (iter', σ) := mutExpr ctx iter σ
      let (body', σ) := mutStmtList ctx body σ
      let (orelse', σ) := mutStmtList ctx orelse σ
      (.forStmt target' iter' body' orelse', σ)
  | .ret value, σ =>
      match value with
      | some v =>
          let (v', σ) := mutExpr ctx v σ
          (.ret (some v'), σ)
      | none => (.ret none, σ)
  | .pass, σ => (.pass, σ)
  | .funcDef nm args body, σ =>
      let (body', σ) := mutStmtList ctx body σ
      (.funcDef nm args body', σ)

def mutStmtList (ctx : MCtx) : StmtList → MState → StmtList × MState
  | .nil, σ => (.nil, σ)
  | .cons s rest, σ =>
      let (s', σ) := mutStmt ctx s σ
      let (rest', σ) := mutStmtList ctx rest σ
      (.cons s' rest', σ)

end

/-- Pass 2 on a whole module with a given plan, using the first-definition
names and eligibility keys computed by pass 1 (as `mutate` wires them). -/
def mutApply (m : StmtList) (p : Plan) : StmtList :=
  let c := runCounter m
  (mutStmtList { plan := p, first_def_names := c.first_def_names, cmp_keys := c.cmp_keys }
    m initMState).1

/-- The `mutate` entry point, with the two random draws of `_choose_plan`
(`random.choices` over the available kinds and `random.randint`) supplied
as arbitrary naturals.  Any pair of draws the library could return is
reached by some pair of naturals, and vice versa. -/
def mutate (m : StmtList) (kindDraw idxDraw : Nat) : StmtList :=
  let c := runCounter m
  let plan := choosePlan c kindDraw idxDraw
  if plan.isEmpty then m else mutApply m plan

/-! Random-number state.  The global `random` state is modelled as a
natural number; a draw returns a value derived from the state and steps
the state.  `random.seed(s)` replaces the whole state by a function of `s`
alone, discarding whatever the state was before. -/

def randNext (g : Nat) : Nat × Nat := (g, g * 1103515245 + 12345)

def randSeed (s : Nat) : Nat := s

/-- Seeding as the driver performs it before each invocation: the previous
generator state `g` is discarded. -/
def reseed (s : Nat) (_g : Nat) : Nat := randSeed s

/-- `mutate` threading the random state: when at least one category is
available, `_choose_plan` consumes the `random.choices` draw and the
`random.randint` draw; otherwise it returns the empty plan without
drawing.  `mutate` itself never seeds the state. -/
def mutateRng (m : StmtList) (g : Nat) : StmtList × Nat :=
  let c := runCounter m
  let kinds := (avail c).filter (fun q => 0 < q.2)
  if kinds.isEmpty then (m, g)
  else
    let (kd, g) := randNext g
    let (ix, g) := randNext g
    (mutate m kd ix, g)

/-- One iteration of the driver's mutant loop: `random.seed(i)` followed
by `mutate` on (a deep copy of) the subject tree. -/
def driverMutant (m : StmtList) (s : Nat) (g : Nat) : StmtList :=
  (mutateRng m (reseed s g)).1

/-! The batch aggregation of driver.py.  Test execution itself (dynamic
loading, timeouts) is an external collaborator; a test's two runs are
summarised by the outcome the original computes and the outcome the
mutant computes, where an outcome is a normal value or one of the two
sentinels the driver substitutes on exception / timeout. -/

inductive Outcome where
  | value (n : Int)
  | exceptional
  | timedOut
  deriving DecidableEq, Repr, BEq

/-- A test is killed when the mutant's outcome differs from the
original's outcome (`mutant_result != original_result`). -/
def killed (orig : String → Outcome) (mt : String → Outcome) (t : String) : Bool :=
  mt t != orig t

/-- The `tests_killed` keys collected by `run_tests_on_python_file` for
one mutant. -/
def killedTests (tests : List String) (orig : String → Outcome)
    (mt : String → Outcome) : List String :=
  tests.filter (killed orig mt)

/-- The accumulation of `tests_selectively_killed` over a batch: a
mutant's killed tests are added exactly when that mutant killed exactly
one test. -/
def runBatch (tests : List String) (orig : String → Outcome)
    (muts : List (String → Outcome)) : List String :=
  muts.foldl
    (fun acc mt =>
      if (killedTests tests orig mt).length = 1 then acc ++ killedTests tests orig mt
      else acc)
    []

/-- The number of mutants in the batch that kill test `t`. -/
def killerCount (orig : String → Outcome) (muts : List (String → Outcome))
    (t : String) : Nat :=
  muts.countP (fun mt => killed orig mt t)

/-! A spec-side reference rewriter for the comparison category.  Modelled
from the spec: sites are counted "in pre-order", identically in catalog
and rewrite ("the Nth occurrence of a category during cataloging is the
same node the rewriter mutates as index N"), an operator is eligible when
its class is relational and the comparison is not nested inside a loop,
ineligible chained operators are skipped without incrementing the
counter, and the operator whose count equals the planned index is
replaced by its CMP_NEGATION image. -/

def specOwnOps (inLoop : Bool) (k : Nat) : CmpPairs → Nat → CmpPairs × Nat
  | .nil, seen => (.nil, seen)
  | .cons op e rest, seen =>
      match CMP_NEGATION op with
      | some negOp =>
          if inLoop then
            let (rest', seen) := specOwnOps inLoop k rest seen
            (.cons op e rest', seen)
          else
            let op' := if seen = k then negOp else op
            let (rest', seen) := specOwnOps inLoop k rest (seen + 1)
            (.cons op' e rest', seen)
      | none =>
          let (rest', seen) := specOwnOps inLoop k rest seen
          (.cons op e rest', seen)

mutual

/-- Modelled from the spec: pre-order rewrite of the k-th eligible
comparison operator (a node's own operators before its children). -/
def specExpr (k : Nat) (inLoop : Bool) : Expr → Nat → Expr × Nat
  | .name id store, seen => (.name id store, seen)
  | .const v, seen => (.const v, seen)
  | .binOp l op r, seen =>
      let (l', seen) := specExpr k inLoop l seen
      let (r', seen) := specExpr k inLoop r seen
      (.binOp l' op r', seen)
  | .compare l pairs, seen =>
      let seen₁ := (specOwnOps inLoop k pairs seen).2
      let (l', seen₂) := specExpr k inLoop l seen₁
      let (pairs₂, seen₃) := specComparators k inLoop pairs seen₂
      (.compare l' (specOwnOps inLoop k pairs₂ seen).1, seen₃)
  | .call f args, seen =>
      let (f', seen) := specExpr k inLoop f seen
      let (args', seen) := specExprList k inLoop args seen
      (.call f' args', seen)
  | .tuple elts store, seen =>
      let (elts', seen) := specExprList k inLoop elts seen
      (.tuple elts' store, seen)

def specComparators (k : Nat) (inLoop : Bool) : CmpPairs → Nat → CmpPairs × Nat
  | .nil, seen => (.nil, seen)
  | .cons op e rest, seen =>
      let (e', seen) := specExpr k inLoop e seen
      let (rest', seen) := specComparators k inLoop rest seen
      (.cons op e' rest', seen)

def specExprList (k : Nat) (inLoop : Bool) : ExprList → Nat → ExprList × Nat
  | .nil, seen => (.nil, seen)
  | .cons e rest, seen =>
      let (e', seen) := specExpr k inLoop e seen
      let (rest', seen) := specExprList k inLoop rest seen
      (.cons e' rest', seen)

end

mutual

def specStmt (k : Nat) (inLoop : Bool) : Stmt → Nat → Stmt × Nat
  | .assign targets value, seen =>
      let (targets', seen) := specExprList k inLoop targets seen
      let (value', seen) := specExpr k inLoop value seen
      (.assign targets' value', seen)
  | .annAssign target ann value, seen =>
      let (target', seen) := specExpr k inLoop target seen
      let (ann', seen) := specExpr k inLoop ann seen
      match value with
      | some v =>
          let (v', seen) := specExpr k inLoop v seen
          (.annAssign target' ann' (some v'), seen)
      | none => (.annAssign target' ann' none, seen)
  | .augAssign target op value, seen =>
      let (target', seen) := specExpr k inLoop target seen
      let (value', seen) := specExpr k inLoop value seen
      (.augAssign target' op value', seen)
  | .exprStmt value, seen =>
      let (value', seen) := specExpr k inLoop value seen
      (.exprStmt value', seen)
  | .ifStmt test body orelse, seen =>
      let (test', seen) := specExpr k inLoop test seen
      let (body', seen) := specStmtList k inLoop body seen
      let (orelse', seen) := specStmtList k inLoop orelse seen
      (.ifStmt test' body' orelse', seen)
  | .whileStmt test body orelse, seen =>
      let (test', seen) := specExpr k true test seen
      let (body', seen) := specStmtList k true body seen
      let (orelse', seen) := specStmtList k true orelse seen
      (.whileStmt test' body' orelse', seen)
  | .forStmt target iter body orelse, seen =>
      let (target', seen) := specExpr k true target seen
      let (iter', seen) := specExpr k true iter seen
      let (body', seen) := specStmtList k true body seen
      let (orelse', seen) := specStmtList k true orelse seen
      (.forStmt target' iter' body' orelse', seen)
  | .ret value, seen =>
      match value with
      | some v =>
          let (v', seen) := specExpr k inLoop v seen
          (.ret (some v'), seen)
      | none => (.ret none, seen)
  | .pass, seen => (.pass, seen)
  | .funcDef nm args body, seen =>
      let (body', seen) := specStmtList k inLoop body seen
      (.funcDef nm args body', seen)

def specStmtList (k : Nat) (inLoop : Bool) : StmtList → Nat → StmtList × Nat
  | .nil, seen => (.nil, seen)
  | .cons s rest, seen =>
      let (s', seen) := specStmt k inLoop s seen
      let (rest', seen) := specStmtList k inLoop rest seen
      (.cons s' rest', seen)

end

/-- Modelled from the spec: the tree with the k-th eligible comparison
operator, counted in pre-order over the whole module, negated. -/
def specPreorderCmpRewrite (m : StmtList) (k : Nat) : StmtList :=
  (specStmtList k false m 0).1

/-! Concrete subject material used by the explicit claims. -/

/-- The function f05 of subject.py, as a one-function module. -/
def f05mod : StmtList :=
  .cons (.funcDef "f05" ["i", "j"]
    (.cons (.augAssign (.name "i" true) .add (.name "j" false))
    (.cons (.augAssign (.name "j" true) .add (.name "i" false))
    (.cons (.ret (some (.call (.name "min" false)
      (.cons (.name "i" false) (.cons (.name "j" false) .nil)))))
    .nil)))) .nil

/-- The function f06 of subject.py, as a one-function module. -/
def f06mod : StmtList :=
  .cons (.funcDef "f06" ["k", "l"]
    (.cons (.assign (.cons (.name "m" true) .nil) (.const (.intC 0)))
    (.cons (.whileStmt (.compare (.name "l" false) (.cons .gt (.name "k" false) .nil))
      (.cons (.augAssign (.name "k" true) .add (.const (.intC 1)))
      (.cons (.augAssign (.name "m" true) .add (.const (.intC 1)))
      .nil)) .nil)
    (.cons (.ret (some (.name "m" false)))
    .nil)))) .nil

/-- A module whose only statement is a comparison nested inside another
comparison: `(a < b) == c`. -/
def nestedCmpMod : StmtList :=
  .cons (.exprStmt (.compare
    (.compare (.name "a" false) (.cons .lt (.name "b" false) .nil))
    (.cons .eq (.name "c" false) .nil))) .nil

/-- A module that defines `x` and then redefines it: `x = 1` ; `x = 2`. -/
def redefMod : StmtList :=
  .cons (.assign (.cons (.name "x" true) .nil) (.const (.intC 1)))
  (.cons (.assign (.cons (.name "x" true) .nil) (.const (.intC 2))) .nil)

/-- A one-statement module `x = 1` whose single deletable site defines a
first definition. -/
def firstDefMod : StmtList :=
  .cons (.assign (.cons (.name "x" true) .nil) (.const (.intC 1))) .nil

/-- The test expression of the while header of f06 inside a module shaped
like `f06mod`. -/
def f06WhileTest (m : StmtList) : Option Expr :=
  match m with
  | .cons (.funcDef _ _ (.cons _ (.cons (.whileStmt t _ _) _))) _ => some t
  | _ => none

/-- The first statement of the body of the first function of a module. -/
def firstBodyStmt (m : StmtList) : Option Stmt :=
  match m with
  | .cons (.funcDef _ _ (.cons s _)) _ => some s
  | _ => none

/-- The second statement of a module. -/
def secondStmt (m : StmtList) : Option Stmt :=
  match m with
  | .cons _ (.cons s _) => some s
  | _ => none

/-! Node-by-node diff.  Each changed operator, changed literal, changed
name, or replaced statement counts as one differing mutation site;
subtrees replaced wholesale (a statement turned into `pass`) count as one
site. -/

mutual

def dExpr : Expr → Expr → Nat
  | .name a s, .name a' s' => if a = a' ∧ s = s' then 0 else 1
  | .const v, .const v' => if v = v' then 0 else 1
  | .binOp l op r, .binOp l' op' r' => (if op = op' then 0 else 1) + dExpr l l' + dExpr r r'
  | .compare l p, .compare l' p' => dExpr l l' + dPairs p p'
  | .call f a, .call f' a' => dExpr f f' + dExprList a a'
  | .tuple e s, .tuple e' s' => (if s = s' then 0 else 1) + dExprList e e'
  | _, _ => 1

def dPairs : CmpPairs → CmpPairs → Nat
  | .nil, .nil => 0
  | .cons op e r, .cons op' e' r' => (if op = op' then 0 else 1) + dExpr e e' + dPairs r r'
  | _, _ => 1

def dExprList : ExprList → ExprList → Nat
  | .nil, .nil => 0
  | .cons e r, .cons e' r' => dExpr e e' + dExprList r r'
  | _, _ => 1

end

def dOptExpr : Option Expr → Option Expr → Nat
  | some v, some v' => dExpr v v'
  | none, none => 0
  | _, _ => 1

mutual

def dStmt : Stmt → Stmt → Nat
  | .assign t v, .assign t' v' => dExprList t t' + dExpr v v'
  | .annAssign t a v, .annAssign t' a' v' => dExpr t t' + dExpr a a' + dOptExpr v v'
  | .augAssign t op v, .augAssign t' op' v' =>
      (if op = op' then 0 else 1) + dExpr t t' + dExpr v v'
  | .exprStmt v, .exprStmt v' => dExpr v v'
  | .ifStmt t b e, .ifStmt t' b' e' => dExpr t t' + dStmtList b b' + dStmtList e e'
  | .whileStmt t b e, .whileStmt t' b' e' => dExpr t t' + dStmtList b b' + dStmtList e e'
  | .forStmt tg it b e, .forStmt tg' it' b' e' =>
      dExpr tg tg' + dExpr it it' + dStmtList b b' + dStmtList e e'
  | .ret v, .ret v' => dOptExpr v v'
  | .pass, .pass => 0
  | .funcDef n a b, .funcDef n' a' b' => (if n = n' ∧ a = a' then 0 else 1) + dStmtList b b'
  | _, _ => 1

def dStmtList : StmtList → StmtList → Nat
  | .nil, .nil => 0
  | .cons s r, .cons s' r' => dStmt s s' + dStmtList r r'
  | _, _ => 1

end

/-- Read the running counter of a category out of the Mutator state. -/
def MState.cnt (σ : MState) : Cat → Nat
  | .cmp => σ.seen_cmp
  | .bin => σ.seen_bin
  | .del => σ.seen_del
  | .bool => σ.seen_bool
  | .call => σ.seen_call

/-- Number of planned hits of category `c`, index `k` falling in the
half-open counter interval a traversal segment consumes. -/
def hits (c : Cat) (k : Nat) (σ σ' : MState) : Nat :=
  if σ.cnt c ≤ k ∧ k < σ'.cnt c then 1 else 0

/-! Under-loop context of each Compare node, listed in identity order:
entry `n` of the list is true exactly when the Compare node with identity
`n` has a `for` or `while` ancestor. -/

mutual

def ctxExpr (inLoop : Bool) : Expr → List Bool
  | .name _ _ => []
  | .const _ => []
  | .binOp l _ r => ctxExpr inLoop l ++ ctxExpr inLoop r
  | .compare l pairs => inLoop :: (ctxExpr inLoop l ++ ctxPairs inLoop pairs)
  | .call f a => ctxExpr inLoop f ++ ctxExprList inLoop a
  | .tuple e _ => ctxExprList inLoop e

def ctxPairs (inLoop : Bool) : CmpPairs → List Bool
  | .nil => []
  | .cons _ e rest => ctxExpr inLoop e ++ ctxPairs inLoop rest

def ctxExprList (inLoop : Bool) : ExprList → List Bool
  | .nil => []
  | .cons e rest => ctxExpr inLoop e ++ ctxExprList inLoop rest

end

def ctxOptExpr (inLoop : Bool) : Option Expr → List Bool
  | some v => ctxExpr inLoop v
  | none => []

mutual

def ctxStmt (inLoop : Bool) : Stmt → List Bool
  | .assign t v => ctxExprList inLoop t ++ ctxExpr inLoop v
  | .annAssign t a v => ctxExpr inLoop t ++ ctxExpr inLoop a ++ ctxOptExpr inLoop v
  | .augAssign t _ v => ctxExpr inLoop t ++ ctxExpr inLoop v
  | .exprStmt v => ctxExpr inLoop v
  | .ifStmt t b e => ctxExpr inLoop t ++ ctxStmtList inLoop b ++ ctxStmtList inLoop e
  | .whileStmt t b e => ctxExpr true t ++ ctxStmtList true b ++ ctxStmtList true e
  | .forStmt tg it b e =>
      ctxExpr true tg ++ ctxExpr true it ++ ctxStmtList true b ++ ctxStmtList true e
  | .ret v => ctxOptExpr inLoop v
  | .pass => []
  | .funcDef _ _ b => ctxStmtList inLoop b

def ctxStmtList (inLoop : Bool) : StmtList → List Bool
  | .nil => []
  | .cons s rest => ctxStmt inLoop s ++ ctxStmtList inLoop rest

end

def ctxModule (m : StmtList) : List Bool := ctxStmtList false m

/-! Number of Compare nodes of a subtree (how far the identity counter
advances across it). -/

mutual

def nCmpExpr : Expr → Nat
  | .name _ _ => 0
  | .const _ => 0
  | .binOp l _ r => nCmpExpr l + nCmpExpr r
  | .compare l pairs => 1 + (nCmpExpr l + nCmpPairs pairs)
  | .call f a => nCmpExpr f + nCmpExprList a
  | .tuple e _ => nCmpExprList e

def nCmpPairs : CmpPairs → Nat
  | .nil => 0
  | .cons _ e rest => nCmpExpr e + nCmpPairs rest

def nCmpExprList : ExprList → Nat
  | .nil => 0
  | .cons e rest => nCmpExpr e + nCmpExprList rest

end

def nCmpOptExpr : Option Expr → Nat
  | some v => nCmpExpr v
  | none => 0

mutual

def nCmpStmt : Stmt → Nat
  | .assign t v => nCmpExprList t + nCmpExpr v
  | .annAssign t a v => nCmpExpr t + nCmpExpr a + nCmpOptExpr v
  | .augAssign t _ v => nCmpExpr t + nCmpExpr v
  | .exprStmt v => nCmpExpr v
  | .ifStmt t b e => nCmpExpr t + nCmpStmtList b + nCmpStmtList e
  | .whileStmt t b e => nCmpExpr t + nCmpStmtList b + nCmpStmtList e
  | .forStmt tg it b e => nCmpExpr tg + nCmpExpr it + nCmpStmtList b + nCmpStmtList e
  | .ret v => nCmpOptExpr v
  | .pass => 0
  | .funcDef _ _ b => nCmpStmtList b

def nCmpStmtList : StmtList → Nat
  | .nil => 0
  | .cons s rest => nCmpStmt s + nCmpStmtList rest

end

/-! Pairwise diff restricted to comparison operators of Compare nodes
that sit under a loop.  Structure mismatches (a deleted statement)
contribute nothing: a removed comparison is not a rewritten one. -/

mutual

def ldExpr (fl : Bool) : Expr → Expr → Nat
  | .binOp l _ r, .binOp l' _ r' => ldExpr fl l l' + ldExpr fl r r'
  | .compare l p, .compare l' p' => ldExpr fl l l' + ldPairs fl p p'
  | .call f a, .call f' a' => ldExpr fl f f' + ldExprList fl a a'
  | .tuple e _, .tuple e' _ => ldExprList fl e e'
  | _, _ => 0

def ldPairs (fl : Bool) : CmpPairs → CmpPairs → Nat
  | .cons op e r, .cons op' e' r' =>
      (if fl ∧ op ≠ op' then 1 else 0) + ldExpr fl e e' + ldPairs fl r r'
  | _, _ => 0

def ldExprList (fl : Bool) : ExprList → ExprList → Nat
  | .cons e r, .cons e' r' => ldExpr fl e e' + ldExprList fl r r'
  | _, _ => 0

end

def ldOptExpr (fl : Bool) : Option Expr → Option Expr → Nat
  | some v, some v' => ldExpr fl v v'
  | _, _ => 0

mutual

def ldStmt (fl : Bool) : Stmt → Stmt → Nat
  | .assign t v, .assign t' v' => ldExprList fl t t' + ldExpr fl v v'
  | .annAssign t a v, .annAssign t' a' v' => ldExpr fl t t' + ldExpr fl a a' + ldOptExpr fl v v'
  | .augAssign t _ v, .augAssign t' _ v' => ldExpr fl t t' + ldExpr fl v v'
  | .exprStmt v, .exprStmt v' => ldExpr fl v v'
  | .ifStmt t b e, .ifStmt t' b' e' => ldExpr fl t t' + ldStmtList fl b b' + ldStmtList fl e e'
  | .whileStmt t b e, .whileStmt t' b' e' =>
      ldExpr true t t' + ldStmtList true b b' + ldStmtList true e e'
  | .forStmt tg it b e, .forStmt tg' it' b' e' =>
      ldExpr true tg tg' + ldExpr true it it' + ldStmtList true b b' + ldStmtList true e e'
  | .ret v, .ret v' => ldOptExpr fl v v'
  | .funcDef _ _ b, .funcDef _ _ b' => ldStmtList fl b b'
  | _, _ => 0

def ldStmtList (fl : Bool) : StmtList → StmtList → Nat
  | .cons s r, .cons s' r' => ldStmt fl s s' + ldStmtList fl r r'
  | _, _ => 0

end

/-- Number of comparison operators of loop-nested Compare nodes on which
two modules disagree, walking both in parallel. -/
def ldModule (m m' : StmtList) : Nat := ldStmtList false m m'

/-! Eligible comparison-operator collector, in the Mutator's counting
order (a node's sub-expressions before its own operator chain).  Each
entry records whether the operator advances `seen_cmp` (its class is in
CMP_NEGATION and its (identity, index) pair is in the eligibility keys)
together with the operator itself. -/

def opsFlags (keys : List (Nat × Nat)) (myId : Nat) : Nat → CmpPairs → List (Bool × CmpOp)
  | _, .nil => []
  | i, .cons op _ rest =>
      ((CMP_NEGATION op).isSome && keys.contains (myId, i), op) :: opsFlags keys myId (i + 1) rest

mutual

def colExpr (keys : List (Nat × Nat)) : Expr → Nat → List (Bool × CmpOp) × Nat
  | .name _ _, n => ([], n)
  | .const _, n => ([], n)
  | .binOp l _ r, n =>
      let (a, n) := colExpr keys l n
      let (b, n) := colExpr keys r n
      (a ++ b, n)
  | .compare l pairs, n =>
      let myId := n
      let (a, n) := colExpr keys l (n + 1)
      let (b, n) := colPairs keys pairs n
      (a ++ b ++ opsFlags keys myId 0 pairs, n)
  | .call f args, n =>
      let (a, n) := colExpr keys f n
      let (b, n) := colExprList keys args n
      (a ++ b, n)
  | .tuple e _, n => colExprList keys e n

def colPairs (keys : List (Nat × Nat)) : CmpPairs → Nat → List (Bool × CmpOp) × Nat
  | .nil, n => ([], n)
  | .cons _ e rest, n =>
      let (a, n) := colExpr keys e n
      let (b, n) := colPairs keys rest n
      (a ++ b, n)

def colExprList (keys : List (Nat × Nat)) : ExprList → Nat → List (Bool × CmpOp) × Nat
  | .nil, n => ([], n)
  | .cons e rest, n =>
      let (a, n) := colExpr keys e n
      let (b, n) := colExprList keys rest n
      (a ++ b, n)

end

def colOptExpr (keys : List (Nat × Nat)) : Option Expr → Nat → List (Bool × CmpOp) × Nat
  | some v, n => colExpr keys v n
  | none, n => ([], n)

mutual

def colStmt (keys : List (Nat × Nat)) : Stmt → Nat → List (Bool × CmpOp) × Nat
  | .assign t v, n =>
      let (a, n) := colExprList keys t n
      let (b, n) := colExpr keys v n
      (a ++ b, n)
  | .annAssign t an v, n =>
      let (a, n) := colExpr keys t n
      let (b, n) := colExpr keys an n
      let (c, n) := colOptExpr keys v n
      (a ++ b ++ c, n)
  | .augAssign t _ v, n =>
      let (a, n) := colExpr keys t n
      let (b, n) := colExpr keys v n
      (a ++ b, n)
  | .exprStmt v, n => colExpr keys v n
  | .ifStmt t b e, n =>
      let (a, n) := colExpr keys t n
      let (bb, n) := colStmtList keys b n
      let (cc, n) := colStmtList keys e n
      (a ++ bb ++ cc, n)
  | .whileStmt t b e, n =>
      let (a, n) := colExpr keys t n
      let (bb, n) := colStmtList keys b n
      let (cc, n) := colStmtList keys e n
      (a ++ bb ++ cc, n)
  | .forStmt tg it b e, n =>
      let (a, n) := colExpr keys tg n
      let (b₂, n) := colExpr keys it n
      let (bb, n) := colStmtList keys b n
      let (cc, n) := colStmtList keys e n
      (a ++ b₂ ++ bb ++ cc, n)
  | .ret v, n => colOptExpr keys v n
  | .pass, n => ([], n)
  | .funcDef _ _ b, n => colStmtList keys b n

def colStmtList (keys : List (Nat × Nat)) : StmtList → Nat → List (Bool × CmpOp) × Nat
  | .nil, n => ([], n)
  | .cons s rest, n =>
      let (a, n) := colStmt keys s n
      let (b, n) := colStmtList keys rest n
      (a ++ b, n)

end

/-- The comparison operators of a module paired with their eligibility,
in the Mutator's counting order. -/
def colModule (keys : List (Nat × Nat)) (m : StmtList) : List (Bool × CmpOp) :=
  (colStmtList keys m 0).1

/-- Negate the k-th eligible entry of an operator list (count only
entries flagged eligible); leave everything else alone. -/
def applyNeg : List (Bool × CmpOp) → Nat → List (Bool × CmpOp)
  | [], _ => []
  | (fl, op) :: rest, k =>
      if fl then
        if k = 0 then (fl, (CMP_NEGATION op).getD op) :: rest
        else (fl, op) :: applyNeg rest (k - 1)
      else (fl, op) :: applyNeg rest k

/-- Number of eligible entries of an operator list. -/
def countElig (l : List (Bool × CmpOp)) : Nat := l.countP (fun q => q.1)

/-! Erasure of all comparison operators: two modules with equal erasures
agree everywhere except possibly on comparison operators. -/

mutual

def eraseExpr : Expr → Expr
  | .name a s => .name a s
  | .const v => .const v
  | .binOp l op r => .binOp (eraseExpr l) op (eraseExpr r)
  | .compare l p => .compare (eraseExpr l) (erasePairs p)
  | .call f a => .call (eraseExpr f) (eraseExprList a)
  | .tuple e s => .tuple (eraseExprList e) s

def erasePairs : CmpPairs → CmpPairs
  | .nil => .nil
  | .cons _ e rest => .cons .eq (eraseExpr e) (erasePairs rest)

def eraseExprList : ExprList → ExprList
  | .nil => .nil
  | .cons e rest => .cons (eraseExpr e) (eraseExprList rest)

end

def eraseOptExpr : Option Expr → Option Expr
  | some v => some (eraseExpr v)
  | none => none

mutual

def eraseStmt : Stmt → Stmt
  | .assign t v => .assign (eraseExprList t) (eraseExpr v)
  | .annAssign t a v => .annAssign (eraseExpr t) (eraseExpr a) (eraseOptExpr v)
  | .augAssign t op v => .augAssign (eraseExpr t) op (eraseExpr v)
  | .exprStmt v => .exprStmt (eraseExpr v)
  | .ifStmt t b e => .ifStmt (eraseExpr t) (eraseStmtList b) (eraseStmtList e)
  | .whileStmt t b e => .whileStmt (eraseExpr t) (eraseStmtList b) (eraseStmtList e)
  | .forStmt tg it b e =>
      .forStmt (eraseExpr tg) (eraseExpr it) (eraseStmtList b) (eraseStmtList e)
  | .ret v => .ret (eraseOptExpr v)
  | .pass => .pass
  | .funcDef n a b => .funcDef n a (eraseStmtList b)

def eraseStmtList : StmtList → StmtList
  | .nil => .nil
  | .cons s rest => .cons (eraseStmt s) (eraseStmtList rest)

end

/-! All names defined by assignment-like statements anywhere in a
statement, in traversal order. -/

mutual

def allDefsStmt : Stmt → List String
  | .assign t v => names_defined_by_assign_stmt (.assign t v)
  | .annAssign t a v => names_defined_by_assign_stmt (.annAssign t a v)
  | .augAssign t op v => names_defined_by_assign_stmt (.augAssign t op v)
  | .exprStmt _ => []
  | .ifStmt _ b e => allDefsStmtList b ++ allDefsStmtList e
  | .whileStmt _ b e => allDefsStmtList b ++ allDefsStmtList e
  | .forStmt _ _ b e => allDefsStmtList b ++ allDefsStmtList e
  | .ret _ => []
  | .pass => []
  | .funcDef _ _ b => allDefsStmtList b

def allDefsStmtList : StmtList → List String
  | .nil => []
  | .cons s rest => allDefsStmt s ++ allDefsStmtList rest

end

/-- A module with no mutation site in any category. -/
def noSiteMod : StmtList :=
  .cons (.funcDef "g" ["x"] (.cons (.ret (some (.name "x" false))) .nil)) .nil

/-- A module with one comparison outside any loop and one inside a while
header. -/
def mixedLoopMod : StmtList :=
  .cons (.exprStmt (.compare (.name "a" false) (.cons .lt (.name "b" false) .nil)))
  (.cons (.whileStmt (.compare (.name "c" false) (.cons .gt (.name "d" false) .nil))
    (.cons .pass .nil) .nil) .nil)

/-- A batch scenario: the original computes 0 on the single test. -/
def batchOrig : String → Outcome := fun _ => .value 0

/-- A mutant that computes 1 on every test (kills the single test). -/
def batchMutantA : String → Outcome := fun _ => .value 1

/-- A second mutant that also computes 1 on every test. -/
def batchMutantB : String → Outcome := fun _ => .value 1

/-! Basic lemmas: the diff of a tree with itself vanishes. -/

mutual

theorem dExpr_self : ∀ e : Expr, dExpr e e = 0
  | .name a s => by simp [dExpr]
  | .const v => by simp [dExpr]
  | .binOp l op r => by simp [dExpr, dExpr_self l, dExpr_self r]
  | .compare l p => by simp [dExpr, dExpr_self l, dPairs_self p]
  | .call f a => by simp [dExpr, dExpr_self f, dExprList_self a]
  | .tuple e s => by simp [dExpr, dExprList_self e]

theorem dPairs_self : ∀ p : CmpPairs, dPairs p p = 0
  | .nil => by simp [dPairs]
  | .cons op e r => by simp [dPairs, dExpr_self e, dPairs_self r]

theorem dExprList_self : ∀ l : ExprList, dExprList l l = 0
  | .nil => by simp [dExprList]
  | .cons e r => by simp [dExprList, dExpr_self e, dExprList_self r]

end

theorem dOptExpr_self : ∀ v : Option Expr, dOptExpr v v = 0
  | some v => by simp [dOptExpr, dExpr_self v]
  | none => by simp [dOptExpr]

mutual

theorem dStmt_self : ∀ s : Stmt, dStmt s s = 0
  | .assign t v => by simp [dStmt, dExprList_self t, dExpr_self v]
  | .annAssign t a v => by simp [dStmt, dExpr_self t, dExpr_self a, dOptExpr_self v]
  | .augAssign t op v => by simp [dStmt, dExpr_self t, dExpr_self v]
  | .exprStmt v => by simp [dStmt, dExpr_self v]
  | .ifStmt t b e => by simp [dStmt, dExpr_self t, dStmtList_self b, dStmtList_self e]
  | .whileStmt t b e => by simp [dStmt, dExpr_self t, dStmtList_self b, dStmtList_self e]
  | .forStmt tg it b e => by
      simp [dStmt, dExpr_self tg, dExpr_self it, dStmtList_self b, dStmtList_self e]
  | .ret v => by simp [dStmt, dOptExpr_self v]
  | .pass => by simp [dStmt]
  | .funcDef n a b => by simp [dStmt, dStmtList_self b]

theorem dStmtList_self : ∀ l : StmtList, dStmtList l l = 0
  | .nil => by simp [dStmtList]
  | .cons s r => by simp [dStmtList, dStmt_self s, dStmtList_self r]

end

/-! Counter and hit-interval algebra. -/

theorem cnt_nid_update (σ : MState) (x : Nat) (cat : Cat) :
    MState.cnt { σ with nid := x } cat = σ.cnt cat := by
  cases cat <;> rfl

theorem cnt_bump_cmp (σ : MState) (cat : Cat) :
    σ.cnt cat ≤ MState.cnt { σ with seen_cmp := σ.seen_cmp + 1 } cat := by
  cases cat <;> simp [MState.cnt]

theorem cnt_bump_bin (σ : MState) (cat : Cat) :
    σ.cnt cat ≤ MState.cnt { σ with seen_bin := σ.seen_bin + 1 } cat := by
  cases cat <;> simp [MState.cnt]

theorem cnt_bump_del (σ : MState) (cat : Cat) :
    σ.cnt cat ≤ MState.cnt { σ with seen_del := σ.seen_del + 1 } cat := by
  cases cat <;> simp [MState.cnt]

theorem cnt_bump_bool (σ : MState) (cat : Cat) :
    σ.cnt cat ≤ MState.cnt { σ with seen_bool := σ.seen_bool + 1 } cat := by
  cases cat <;> simp [MState.cnt]

theorem cnt_bump_call (σ : MState) (cat : Cat) :
    σ.cnt cat ≤ MState.cnt { σ with seen_call := σ.seen_call + 1 } cat := by
  cases cat <;> simp [MState.cnt]

theorem cat_beq (c c' : Cat) : (c == c') = decide (c = c') := by
  cases c <;> cases c' <;> rfl

theorem planSelects_single_iff (c c' : Cat) (k n : Nat) :
    planSelects [(c, [k])] c' n = true ↔ (c' = c ∧ n = k) := by
  simp [planSelects, cat_beq, List.contains]
  aesop

theorem hits_add (c : Cat) (k : Nat) (σ σ₁ σ₂ : MState)
    (h1 : σ.cnt c ≤ σ₁.cnt c) (h2 : σ₁.cnt c ≤ σ₂.cnt c) :
    hits c k σ σ₂ = hits c k σ σ₁ + hits c k σ₁ σ₂ := by
  unfold hits; split_ifs <;> omega

theorem hits_mono_right (c : Cat) (k : Nat) (σ σ₁ σ₂ : MState)
    (h : σ₁.cnt c ≤ σ₂.cnt c) : hits c k σ σ₁ ≤ hits c k σ σ₂ := by
  unfold hits; split_ifs <;> omega

theorem hits_bump_one (c : Cat) (k : Nat) (σ σ' : MState)
    (hc : σ.cnt c = k) (h' : σ'.cnt c = σ.cnt c + 1) : hits c k σ σ' = 1 := by
  unfold hits; split_ifs <;> omega

theorem hits_le_one (c : Cat) (k : Nat) (σ σ' : MState) : hits c k σ σ' ≤ 1 := by
  unfold hits; split_ifs <;> omega

theorem hits_congr_left (c : Cat) (k : Nat) (σ τ σ' : MState)
    (h : σ.cnt c = τ.cnt c) : hits c k σ σ' = hits c k τ σ' := by
  unfold hits; rw [h]

/-! Small diff facts used when a single site is rewritten. -/

theorem dStmt_pass_le : ∀ s : Stmt, dStmt s .pass ≤ 1 := by
  intro s; cases s <;> simp [dStmt]

theorem dExpr_flip (t : Expr) (b : Bool) :
    dExpr t (.const (.boolC (!b))) ≤ dExpr t (.const (.boolC b)) + 1 := by
  cases t <;> simp only [dExpr] <;> first
    | (split_ifs <;> omega)
    | omega

theorem dExpr_rename (f : Expr) (id other : String) (st : Bool) :
    dExpr f (.name other st) ≤ dExpr f (.name id st) + 1 := by
  cases f <;> simp only [dExpr] <;> first
    | (split_ifs <;> omega)
    | omega

/-! Bound lemmas for the post-children fixups of pass 2, each of the form:
the diff against the original node is at most the children's diff budget
plus the planned hits the fixup's own counter interval absorbs. -/

theorem maybeDeleteStmt_bound (ctx : MCtx) (c : Cat) (k : Nat) (hp : ctx.plan = [(c, [k])])
    (s₀ node : Stmt) (σ : MState) (B : Nat) (hbase : dStmt s₀ node ≤ B) :
    dStmt s₀ (maybeDeleteStmt ctx node σ).1 ≤ B + hits c k σ (maybeDeleteStmt ctx node σ).2 ∧
    ∀ cat, σ.cnt cat ≤ ((maybeDeleteStmt ctx node σ).2).cnt cat := by
  cases hsel : planSelects ctx.plan .del σ.seen_del with
  | false =>
      simp only [maybeDeleteStmt, hsel, Bool.not_false, if_true]
      exact ⟨le_trans hbase (Nat.le_add_right _ _), fun cat => cnt_bump_del σ cat⟩
  | true =>
      cases hveto : (names_defined_by_assign_stmt node).any
          (fun nm => ctx.first_def_names.contains nm) with
      | true =>
          simp only [maybeDeleteStmt, hsel, Bool.not_true, if_false, hveto, if_true]
          exact ⟨le_trans hbase (Nat.le_add_right _ _), fun cat => cnt_bump_del σ cat⟩
      | false =>
          simp only [maybeDeleteStmt, hsel, Bool.not_true, if_false, hveto,
            Bool.false_eq_true]
          rw [hp] at hsel
          obtain ⟨hc, hk⟩ := (planSelects_single_iff c .del k σ.seen_del).mp hsel
          have hone : hits c k σ { σ with seen_del := σ.seen_del + 1 } = 1 := by
            apply hits_bump_one
            · rw [← hc]; simpa [MState.cnt] using hk
            · rw [← hc]; simp [MState.cnt]
          refine ⟨?_, fun cat => cnt_bump_del σ cat⟩
          have := dStmt_pass_le s₀
          omega

theorem callSwapFix_bound (ctx : MCtx) (c : Cat) (k : Nat) (hp : ctx.plan = [(c, [k])])
    (f₀ : Expr) (args₀ : ExprList) (f' : Expr) (args' : ExprList) (σ : MState)
    (B1 B2 : Nat) (h1 : dExpr f₀ f' ≤ B1) (h2 : dExprList args₀ args' ≤ B2) :
    dExpr (.call f₀ args₀) (callSwapFix ctx f' args' σ).1 ≤
      B1 + B2 + hits c k σ (callSwapFix ctx f' args' σ).2 ∧
    ∀ cat, σ.cnt cat ≤ ((callSwapFix ctx f' args' σ).2).cnt cat := by
  cases f' with
  | name id store =>
      cases hcs : CALL_SWAP id with
      | none =>
          simp only [callSwapFix, hcs]
          refine ⟨?_, fun cat => le_refl _⟩
          have hgoal : dExpr (.call f₀ args₀) (.call (.name id store) args') =
              dExpr f₀ (.name id store) + dExprList args₀ args' := by simp [dExpr]
          omega
      | some other =>
          cases hsel : planSelects ctx.plan .call σ.seen_call with
          | false =>
              simp only [callSwapFix, hcs, hsel, Bool.false_eq_true, if_false]
              refine ⟨?_, fun cat => cnt_bump_call σ cat⟩
              have hgoal : dExpr (.call f₀ args₀) (.call (.name id store) args') =
                  dExpr f₀ (.name id store) + dExprList args₀ args' := by simp [dExpr]
              omega
          | true =>
              simp only [callSwapFix, hcs, hsel, if_true]
              rw [hp] at hsel
              obtain ⟨hc, hk⟩ := (planSelects_single_iff c .call k σ.seen_call).mp hsel
              have hone : hits c k σ { σ with seen_call := σ.seen_call + 1 } = 1 := by
                apply hits_bump_one
                · rw [← hc]; simpa [MState.cnt] using hk
                · rw [← hc]; simp [MState.cnt]
              refine ⟨?_, fun cat => cnt_bump_call σ cat⟩
              have hgoal : dExpr (.call f₀ args₀) (.call (.name other store) args') =
                  dExpr f₀ (.name other store) + dExprList args₀ args' := by simp [dExpr]
              have hre := dExpr_rename f₀ id other store
              omega
  | const v =>
      simp only [callSwapFix]
      refine ⟨?_, fun cat => le_refl _⟩
      have hgoal : dExpr (.call f₀ args₀) (.call (.const v) args') =
          dExpr f₀ (.const v) + dExprList args₀ args' := by simp [dExpr]
      omega
  | binOp l op r =>
      simp only [callSwapFix]
      refine ⟨?_, fun cat => le_refl _⟩
      have hgoal : dExpr (.call f₀ args₀) (.call (.binOp l op r) args') =
          dExpr f₀ (.binOp l op r) + dExprList args₀ args' := by simp [dExpr]
      omega
  | compare l p =>
      simp only [callSwapFix]
      refine ⟨?_, fun cat => le_refl _⟩
      have hgoal : dExpr (.call f₀ args₀) (.call (.compare l p) args') =
          dExpr f₀ (.compare l p) + dExprList args₀ args' := by simp [dExpr]
      omega
  | call g a =>
      simp only [callSwapFix]
      refine ⟨?_, fun cat => le_refl _⟩
      have hgoal : dExpr (.call f₀ args₀) (.call (.call g a) args') =
          dExpr f₀ (.call g a) + dExprList args₀ args' := by simp [dExpr]
      omega
  | tuple e s =>
      simp only [callSwapFix]
      refine ⟨?_, fun cat => le_refl _⟩
      have hgoal : dExpr (.call f₀ args₀) (.call (.tuple e s) args') =
          dExpr f₀ (.tuple e s) + dExprList args₀ args' := by simp [dExpr]
      omega

theorem exprStmtFix_bound (ctx : MCtx) (c : Cat) (k : Nat) (hp : ctx.plan = [(c, [k])])
    (v₀ v' : Expr) (σ : MState) (B : Nat) (h : dExpr v₀ v' ≤ B) :
    dStmt (.exprStmt v₀) (exprStmtFix ctx v' σ).1 ≤ B + hits c k σ (exprStmtFix ctx v' σ).2 ∧
    ∀ cat, σ.cnt cat ≤ ((exprStmtFix ctx v' σ).2).cnt cat := by
  cases v' with
  | call f a =>
      simp only [exprStmtFix]
      exact maybeDeleteStmt_bound ctx c k hp (.exprStmt v₀) (.exprStmt (.call f a)) σ B
        (by simpa [dStmt] using h)
  | name id st =>
      simp only [exprStmtFix]
      refine ⟨?_, fun cat => le_refl _⟩
      have hgoal : dStmt (.exprStmt v₀) (.exprStmt (.name id st)) = dExpr v₀ (.name id st) := by
        simp [dStmt]
      omega
  | const v =>
      simp only [exprStmtFix]
      refine ⟨?_, fun cat => le_refl _⟩
      have hgoal : dStmt (.exprStmt v₀) (.exprStmt (.const v)) = dExpr v₀ (.const v) := by
        simp [dStmt]
      omega
  | binOp l op r =>
      simp only [exprStmtFix]
      refine ⟨?_, fun cat => le_refl _⟩
      have hgoal : dStmt (.exprStmt v₀) (.exprStmt (.binOp l op r)) =
          dExpr v₀ (.binOp l op r) := by simp [dStmt]
      omega
  | compare l p =>
      simp only [exprStmtFix]
      refine ⟨?_, fun cat => le_refl _⟩
      have hgoal : dStmt (.exprStmt v₀) (.exprStmt (.compare l p)) =
          dExpr v₀ (.compare l p) := by simp [dStmt]
      omega
  | tuple e s =>
      simp only [exprStmtFix]
      refine ⟨?_, fun cat => le_refl _⟩
      have hgoal : dStmt (.exprStmt v₀) (.exprStmt (.tuple e s)) = dExpr v₀ (.tuple e s) := by
        simp [dStmt]
      omega

theorem ifTestFix_bound (ctx : MCtx) (c : Cat) (k : Nat) (hp : ctx.plan = [(c, [k])])
    (t₀ : Expr) (b₀ o₀ : StmtList) (t' : Expr) (b' o' : StmtList) (σ : MState)
    (B1 B2 B3 : Nat) (h1 : dExpr t₀ t' ≤ B1) (h2 : dStmtList b₀ b' ≤ B2)
    (h3 : dStmtList o₀ o' ≤ B3) :
    dStmt (.ifStmt t₀ b₀ o₀) (ifTestFix ctx t' b' o' σ).1 ≤
      B1 + B2 + B3 + hits c k σ (ifTestFix ctx t' b' o' σ).2 ∧
    ∀ cat, σ.cnt cat ≤ ((ifTestFix ctx t' b' o' σ).2).cnt cat := by
  have hdirect : ∀ t'' : Expr, dStmt (.ifStmt t₀ b₀ o₀) (.ifStmt t'' b' o') =
      dExpr t₀ t'' + dStmtList b₀ b' + dStmtList o₀ o' := by
    intro t''; simp [dStmt]
  cases t' with
  | const v =>
      cases v with
      | boolC b =>
          cases hsel : planSelects ctx.plan .bool σ.seen_bool with
          | false =>
              simp only [ifTestFix, hsel, Bool.false_eq_true, if_false]
              refine ⟨?_, fun cat => cnt_bump_bool σ cat⟩
              have := hdirect (.const (.boolC b))
              omega
          | true =>
              simp only [ifTestFix, hsel, if_true]
              rw [hp] at hsel
              obtain ⟨hc, hk⟩ := (planSelects_single_iff c .bool k σ.seen_bool).mp hsel
              have hone : hits c k σ { σ with seen_bool := σ.seen_bool + 1 } = 1 := by
                apply hits_bump_one
                · rw [← hc]; simpa [MState.cnt] using hk
                · rw [← hc]; simp [MState.cnt]
              refine ⟨?_, fun cat => cnt_bump_bool σ cat⟩
              have hfl := dExpr_flip t₀ b
              have := hdirect (.const (.boolC (!b)))
              have := hdirect (.const (.boolC b))
              omega
      | intC n =>
          simp only [ifTestFix]
          refine ⟨?_, fun cat => le_refl _⟩
          have := hdirect (.const (.intC n)); omega
      | strC s =>
          simp only [ifTestFix]
          refine ⟨?_, fun cat => le_refl _⟩
          have := hdirect (.const (.strC s)); omega
      | noneC =>
          simp only [ifTestFix]
          refine ⟨?_, fun cat => le_refl _⟩
          have := hdirect (.const .noneC); omega
  | name id st =>
      simp only [ifTestFix]
      refine ⟨?_, fun cat => le_refl _⟩
      have := hdirect (.name id st); omega
  | binOp l op r =>
      simp only [ifTestFix]
      refine ⟨?_, fun cat => le_refl _⟩
      have := hdirect (.binOp l op r); omega
  | compare l p =>
      simp only [ifTestFix]
      refine ⟨?_, fun cat => le_refl _⟩
      have := hdirect (.compare l p); omega
  | call f a =>
      simp only [ifTestFix]
      refine ⟨?_, fun cat => le_refl _⟩
      have := hdirect (.call f a); omega
  | tuple e s =>
      simp only [ifTestFix]
      refine ⟨?_, fun cat => le_refl _⟩
      have := hdirect (.tuple e s); omega

theorem whileTestFix_bound (ctx : MCtx) (c : Cat) (k : Nat) (hp : ctx.plan = [(c, [k])])
    (t₀ : Expr) (b₀ o₀ : StmtList) (t' : Expr) (b' o' : StmtList) (σ : MState)
    (B1 B2 B3 : Nat) (h1 : dExpr t₀ t' ≤ B1) (h2 : dStmtList b₀ b' ≤ B2)
    (h3 : dStmtList o₀ o' ≤ B3) :
    dStmt (.whileStmt t₀ b₀ o₀) (whileTestFix ctx t' b' o' σ).1 ≤
      B1 + B2 + B3 + hits c k σ (whileTestFix ctx t' b' o' σ).2 ∧
    ∀ cat, σ.cnt cat ≤ ((whileTestFix ctx t' b' o' σ).2).cnt cat := by
  have hdirect : ∀ t'' : Expr, dStmt (.whileStmt t₀ b₀ o₀) (.whileStmt t'' b' o') =
      dExpr t₀ t'' + dStmtList b₀ b' + dStmtList o₀ o' := by
    intro t''; simp [dStmt]
  cases t' with
  | const v =>
      cases v with
      | boolC b =>
          cases hsel : planSelects ctx.plan .bool σ.seen_bool with
          | false =>
              simp only [whileTestFix, hsel, Bool.false_eq_true, if_false]
              refine ⟨?_, fun cat => cnt_bump_bool σ cat⟩
              have := hdirect (.const (.boolC b))
              omega
          | true =>
              simp only [whileTestFix, hsel, if_true]
              rw [hp] at hsel
              obtain ⟨hc, hk⟩ := (planSelects_single_iff c .bool k σ.seen_bool).mp hsel
              have hone : hits c k σ { σ with seen_bool := σ.seen_bool + 1 } = 1 := by
                apply hits_bump_one
                · rw [← hc]; simpa [MState.cnt] using hk
                · rw [← hc]; simp [MState.cnt]
              refine ⟨?_, fun cat => cnt_bump_bool σ cat⟩
              have hfl := dExpr_flip t₀ b
              have := hdirect (.const (.boolC (!b)))
              have := hdirect (.const (.boolC b))
              omega
      | intC n =>
          simp only [whileTestFix]
          refine ⟨?_, fun cat => le_refl _⟩
          have := hdirect (.const (.intC n)); omega
      | strC s =>
          simp only [whileTestFix]
          refine ⟨?_, fun cat => le_refl _⟩
          have := hdirect (.const (.strC s)); omega
      | noneC =>
          simp only [whileTestFix]
          refine ⟨?_, fun cat => le_refl _⟩
          have := hdirect (.const .noneC); omega
  | name id st =>
      simp only [whileTestFix]
      refine ⟨?_, fun cat => le_refl _⟩
      have := hdirect (.name id st); omega
  | binOp l op r =>
      simp only [whileTestFix]
      refine ⟨?_, fun cat => le_refl _⟩
      have := hdirect (.binOp l op r); omega
  | compare l p =>
      simp only [whileTestFix]
      refine ⟨?_, fun cat => le_refl _⟩
      have := hdirect (.compare l p); omega
  | call f a =>
      simp only [whileTestFix]
      refine ⟨?_, fun cat => le_refl _⟩
      have := hdirect (.call f a); omega
  | tuple e s =>
      simp only [whileTestFix]
      refine ⟨?_, fun cat => le_refl _⟩
      have := hdirect (.tuple e s); omega

/-! The single-edit bound over expressions: a traversal segment changes
the tree by at most the number of planned indices whose counter value it
consumes.  `mutPairs_bound` treats the two passes a Compare node makes
over its operator/comparator chain (comparators under `generic_visit`
from state `σa`, then the operator loop from state `σb`). -/

mutual

theorem mutExpr_bound (ctx : MCtx) (c : Cat) (k : Nat) (hp : ctx.plan = [(c, [k])]) :
    ∀ (e : Expr) (σ : MState),
      dExpr e (mutExpr ctx e σ).1 ≤ hits c k σ (mutExpr ctx e σ).2 ∧
      ∀ cat, σ.cnt cat ≤ ((mutExpr ctx e σ).2).cnt cat
  | .name a s, σ => by
      refine ⟨?_, fun cat => ?_⟩ <;> simp [mutExpr, dExpr]
  | .const v, σ => by
      refine ⟨?_, fun cat => ?_⟩ <;> simp [mutExpr, dExpr]
  | .binOp l op r, σ => by
      have ihl := mutExpr_bound ctx c k hp l σ
      rcases h1 : mutExpr ctx l σ with ⟨l', σ₁⟩
      rw [h1] at ihl; dsimp only at ihl
      have ihr := mutExpr_bound ctx c k hp r σ₁
      rcases h2 : mutExpr ctx r σ₁ with ⟨r', σ₂⟩
      rw [h2] at ihr; dsimp only at ihr
      obtain ⟨dl, ml⟩ := ihl
      obtain ⟨dr, mr⟩ := ihr
      cases hbs : BIN_SWAP op with
      | none =>
          simp only [mutExpr, h1, h2, hbs]
          refine ⟨?_, fun cat => le_trans (ml cat) (mr cat)⟩
          have hgoal : dExpr (.binOp l op r) (.binOp l' op r') = dExpr l l' + dExpr r r' := by
            simp [dExpr]
          have hadd := hits_add c k σ σ₁ σ₂ (ml c) (mr c)
          omega
      | some s =>
          cases hsel : planSelects ctx.plan .bin σ₂.seen_bin with
          | false =>
              simp only [mutExpr, h1, h2, hbs, hsel, Bool.false_eq_true, if_false]
              refine ⟨?_, fun cat => le_trans (le_trans (ml cat) (mr cat)) (cnt_bump_bin σ₂ cat)⟩
              have hgoal : dExpr (.binOp l op r) (.binOp l' op r') = dExpr l l' + dExpr r r' := by
                simp [dExpr]
              have hadd := hits_add c k σ σ₁ σ₂ (ml c) (mr c)
              have hmono := hits_mono_right c k σ σ₂ { σ₂ with seen_bin := σ₂.seen_bin + 1 }
                (cnt_bump_bin σ₂ c)
              omega
          | true =>
              simp only [mutExpr, h1, h2, hbs, hsel, if_true]
              rw [hp] at hsel
              obtain ⟨hc, hk⟩ := (planSelects_single_iff c .bin k σ₂.seen_bin).mp hsel
              have hone : hits c k σ₂ { σ₂ with seen_bin := σ₂.seen_bin + 1 } = 1 := by
                apply hits_bump_one
                · rw [← hc]; simpa [MState.cnt] using hk
                · rw [← hc]; simp [MState.cnt]
              refine ⟨?_, fun cat => le_trans (le_trans (ml cat) (mr cat)) (cnt_bump_bin σ₂ cat)⟩
              have hgoal : dExpr (.binOp l op r) (.binOp l' s r') ≤ 1 + dExpr l l' + dExpr r r' := by
                simp only [dExpr]; split_ifs <;> omega
              have hadd := hits_add c k σ σ₁ σ₂ (ml c) (mr c)
              have hadd2 := hits_add c k σ σ₂ { σ₂ with seen_bin := σ₂.seen_bin + 1 }
                (le_trans (ml c) (mr c)) (cnt_bump_bin σ₂ c)
              omega
  | .compare l pairs, σ => by
      have ihl := mutExpr_bound ctx c k hp l { σ with nid := σ.nid + 1 }
      rcases h1 : mutExpr ctx l { σ with nid := σ.nid + 1 } with ⟨l', σ₁⟩
      rw [h1] at ihl; dsimp only at ihl
      obtain ⟨dl, ml⟩ := ihl
      have ihp := mutPairs_bound ctx c k hp pairs σ.nid 0 σ₁
        (mutCmpComparators ctx pairs σ₁).2
      rcases h2 : mutCmpComparators ctx pairs σ₁ with ⟨pairs₁, σ₂⟩
      rw [h2] at ihp; dsimp only at ihp
      rcases h3 : mutCmpOps ctx σ.nid 0 pairs₁ σ₂ with ⟨pairs₂, σ₃⟩
      rw [h3] at ihp; dsimp only at ihp
      obtain ⟨dp, ma, mb⟩ := ihp
      simp only [mutExpr, h1, h2, h3]
      have e0 : ∀ cat, MState.cnt { σ with nid := σ.nid + 1 } cat = σ.cnt cat :=
        cnt_nid_update σ (σ.nid + 1)
      refine ⟨?_, fun cat => ?_⟩
      · have hgoal : dExpr (.compare l pairs) (.compare l' pairs₂) =
            dExpr l l' + dPairs pairs pairs₂ := by simp [dExpr]
        have hdl : dExpr l l' ≤ hits c k σ σ₁ := by
          rwa [hits_congr_left c k σ { σ with nid := σ.nid + 1 } σ₁ (e0 c).symm]
        have hm0 : σ.cnt c ≤ σ₁.cnt c := by rw [← e0 c]; exact ml c
        have hadd := hits_add c k σ σ₁ σ₂ hm0 (ma c)
        have hadd2 := hits_add c k σ σ₂ σ₃ (le_trans hm0 (ma c)) (mb c)
        omega
      · rw [← e0 cat]
        exact le_trans (ml cat) (le_trans (ma cat) (mb cat))
  | .call f args, σ => by
      have ihf := mutExpr_bound ctx c k hp f σ
      rcases h1 : mutExpr ctx f σ with ⟨f', σ₁⟩
      rw [h1] at ihf; dsimp only at ihf
      obtain ⟨df, mf⟩ := ihf
      have iha := mutExprList_bound ctx c k hp args σ₁
      rcases h2 : mutExprList ctx args σ₁ with ⟨args', σ₂⟩
      rw [h2] at iha; dsimp only at iha
      obtain ⟨da, ma⟩ := iha
      have hfix := callSwapFix_bound ctx c k hp f args f' args' σ₂
        (hits c k σ σ₁) (hits c k σ₁ σ₂) df da
      rcases h3 : callSwapFix ctx f' args' σ₂ with ⟨res, σ₃⟩
      rw [h3] at hfix; dsimp only at hfix
      obtain ⟨dres, mres⟩ := hfix
      simp only [mutExpr, h1, h2, h3]
      refine ⟨?_, fun cat => le_trans (mf cat) (le_trans (ma cat) (mres cat))⟩
      have hadd := hits_add c k σ σ₁ σ₂ (mf c) (ma c)
      have hadd2 := hits_add c k σ σ₂ σ₃ (le_trans (mf c) (ma c)) (mres c)
      omega
  | .tuple elts store, σ => by
      have ihe := mutExprList_bound ctx c k hp elts σ
      rcases h1 : mutExprList ctx elts σ with ⟨elts', σ₁⟩
      rw [h1] at ihe; dsimp only at ihe
      obtain ⟨de, me⟩ := ihe
      simp only [mutExpr, h1]
      refine ⟨?_, fun cat => me cat⟩
      have hgoal : dExpr (.tuple elts store) (.tuple elts' store) = dExprList elts elts' := by
        simp [dExpr]
      omega

theorem mutPairs_bound (ctx : MCtx) (c : Cat) (k : Nat) (hp : ctx.plan = [(c, [k])]) :
    ∀ (p : CmpPairs) (myId i : Nat) (σa σb : MState),
      dPairs p (mutCmpOps ctx myId i (mutCmpComparators ctx p σa).1 σb).1 ≤
        hits c k σa (mutCmpComparators ctx p σa).2 +
        hits c k σb (mutCmpOps ctx myId i (mutCmpComparators ctx p σa).1 σb).2 ∧
      (∀ cat, σa.cnt cat ≤ ((mutCmpComparators ctx p σa).2).cnt cat) ∧
      (∀ cat, σb.cnt cat ≤ ((mutCmpOps ctx myId i (mutCmpComparators ctx p σa).1 σb).2).cnt cat)
  | .nil, myId, i, σa, σb => by
      refine ⟨?_, fun cat => ?_, fun cat => ?_⟩ <;>
        simp [mutCmpComparators, mutCmpOps, dPairs]
  | .cons op e rest, myId, i, σa, σb => by
      have ihe := mutExpr_bound ctx c k hp e σa
      rcases h1 : mutExpr ctx e σa with ⟨e', σa₁⟩
      rw [h1] at ihe; dsimp only at ihe
      obtain ⟨de, me⟩ := ihe
      cases hneg : CMP_NEGATION op with
      | none =>
          have ih := mutPairs_bound ctx c k hp rest myId (i + 1) σa₁ σb
          rcases h2 : mutCmpComparators ctx rest σa₁ with ⟨rest₁, σa₂⟩
          rw [h2] at ih; dsimp only at ih
          rcases h3 : mutCmpOps ctx myId (i + 1) rest₁ σb with ⟨rest₂, σb₁⟩
          rw [h3] at ih; dsimp only at ih
          obtain ⟨dp, ma, mb⟩ := ih
          simp only [mutCmpComparators, mutCmpOps, h1, h2, h3, hneg]
          refine ⟨?_, fun cat => le_trans (me cat) (ma cat), fun cat => mb cat⟩
          have hgoal : dPairs (.cons op e rest) (.cons op e' rest₂) =
              dExpr e e' + dPairs rest rest₂ := by simp [dPairs]
          have hadd := hits_add c k σa σa₁ σa₂ (me c) (ma c)
          omega
      | some negOp =>
          cases helig : ctx.cmp_keys.contains (myId, i) with
          | false =>
              have ih := mutPairs_bound ctx c k hp rest myId (i + 1) σa₁ σb
              rcases h2 : mutCmpComparators ctx rest σa₁ with ⟨rest₁, σa₂⟩
              rw [h2] at ih; dsimp only at ih
              rcases h3 : mutCmpOps ctx myId (i + 1) rest₁ σb with ⟨rest₂, σb₁⟩
              rw [h3] at ih; dsimp only at ih
              obtain ⟨dp, ma, mb⟩ := ih
              simp only [mutCmpComparators, mutCmpOps, h1, h2, h3, hneg, helig,
                Bool.false_eq_true, if_false]
              refine ⟨?_, fun cat => le_trans (me cat) (ma cat), fun cat => mb cat⟩
              have hgoal : dPairs (.cons op e rest) (.cons op e' rest₂) =
                  dExpr e e' + dPairs rest rest₂ := by simp [dPairs]
              have hadd := hits_add c k σa σa₁ σa₂ (me c) (ma c)
              omega
          | true =>
              cases hsel : planSelects ctx.plan .cmp σb.seen_cmp with
              | false =>
                  have ih := mutPairs_bound ctx c k hp rest myId (i + 1) σa₁
                    { σb with seen_cmp := σb.seen_cmp + 1 }
                  rcases h2 : mutCmpComparators ctx rest σa₁ with ⟨rest₁, σa₂⟩
                  rw [h2] at ih; dsimp only at ih
                  rcases h3 : mutCmpOps ctx myId (i + 1) rest₁
                      { σb with seen_cmp := σb.seen_cmp + 1 } with ⟨rest₂, σb₁⟩
                  rw [h3] at ih; dsimp only at ih
                  obtain ⟨dp, ma, mb⟩ := ih
                  simp only [mutCmpComparators, mutCmpOps, h1, h2, h3, hneg, helig,
                    hsel, Bool.false_eq_true, if_false, if_true]
                  refine ⟨?_, fun cat => le_trans (me cat) (ma cat),
                    fun cat => le_trans (cnt_bump_cmp σb cat) (mb cat)⟩
                  have hgoal : dPairs (.cons op e rest) (.cons op e' rest₂) =
                      dExpr e e' + dPairs rest rest₂ := by simp [dPairs]
                  have hadd := hits_add c k σa σa₁ σa₂ (me c) (ma c)
                  have haddb := hits_add c k σb { σb with seen_cmp := σb.seen_cmp + 1 } σb₁
                    (cnt_bump_cmp σb c) (mb c)
                  have hle := hits_le_one c k σb { σb with seen_cmp := σb.seen_cmp + 1 }
                  omega
              | true =>
                  have ih := mutPairs_bound ctx c k hp rest myId (i + 1) σa₁
                    { σb with seen_cmp := σb.seen_cmp + 1 }
                  rcases h2 : mutCmpComparators ctx rest σa₁ with ⟨rest₁, σa₂⟩
                  rw [h2] at ih; dsimp only at ih
                  rcases h3 : mutCmpOps ctx myId (i + 1) rest₁
                      { σb with seen_cmp := σb.seen_cmp + 1 } with ⟨rest₂, σb₁⟩
                  rw [h3] at ih; dsimp only at ih
                  obtain ⟨dp, ma, mb⟩ := ih
                  simp only [mutCmpComparators, mutCmpOps, h1, h2, h3, hneg, helig,
                    hsel, if_true]
                  rw [hp] at hsel
                  obtain ⟨hc, hk⟩ := (planSelects_single_iff c .cmp k σb.seen_cmp).mp hsel
                  have hone : hits c k σb { σb with seen_cmp := σb.seen_cmp + 1 } = 1 := by
                    apply hits_bump_one
                    · rw [← hc]; simpa [MState.cnt] using hk
                    · rw [← hc]; simp [MState.cnt]
                  refine ⟨?_, fun cat => le_trans (me cat) (ma cat),
                    fun cat => le_trans (cnt_bump_cmp σb cat) (mb cat)⟩
                  have hgoal : dPairs (.cons op e rest) (.cons negOp e' rest₂) ≤
                      1 + dExpr e e' + dPairs rest rest₂ := by
                    simp only [dPairs]; split_ifs <;> omega
                  have hadd := hits_add c k σa σa₁ σa₂ (me c) (ma c)
                  have haddb := hits_add c k σb { σb with seen_cmp := σb.seen_cmp + 1 } σb₁
                    (cnt_bump_cmp σb c) (mb c)
                  omega

theorem mutExprList_bound (ctx : MCtx) (c : Cat) (k : Nat) (hp : ctx.plan = [(c, [k])]) :
    ∀ (l : ExprList) (σ : MState),
      dExprList l (mutExprList ctx l σ).1 ≤ hits c k σ (mutExprList ctx l σ).2 ∧
      ∀ cat, σ.cnt cat ≤ ((mutExprList ctx l σ).2).cnt cat
  | .nil, σ => by
      refine ⟨?_, fun cat => ?_⟩ <;> simp [mutExprList, dExprList]
  | .cons e rest, σ => by
      have ihe := mutExpr_bound ctx c k hp e σ
      rcases h1 : mutExpr ctx e σ with ⟨e', σ₁⟩
      rw [h1] at ihe; dsimp only at ihe
      obtain ⟨de, me⟩ := ihe
      have ihr := mutExprList_bound ctx c k hp rest σ₁
      rcases h2 : mutExprList ctx rest σ₁ with ⟨rest', σ₂⟩
      rw [h2] at ihr; dsimp only at ihr
      obtain ⟨dr, mr⟩ := ihr
      simp only [mutExprList, h1, h2]
      refine ⟨?_, fun cat => le_trans (me cat) (mr cat)⟩
      have hgoal : dExprList (.cons e rest) (.cons e' rest') =
          dExpr e e' + dExprList rest rest' := by simp [dExprList]
      have hadd := hits_add c k σ σ₁ σ₂ (me c) (mr c)
      omega

end

mutual

theorem mutStmt_bound (ctx : MCtx) (c : Cat) (k : Nat) (hp : ctx.plan = [(c, [k])]) :
    ∀ (s : Stmt) (σ : MState),
      dStmt s (mutStmt ctx s σ).1 ≤ hits c k σ (mutStmt ctx s σ).2 ∧
      ∀ cat, σ.cnt cat ≤ ((mutStmt ctx s σ).2).cnt cat
  | .assign targets value, σ => by
      have iht := mutExprList_bound ctx c k hp targets σ
      rcases h1 : mutExprList ctx targets σ with ⟨targets', σ₁⟩
      rw [h1] at iht; dsimp only at iht
      obtain ⟨dt, mt⟩ := iht
      have ihv := mutExpr_bound ctx c k hp value σ₁
      rcases h2 : mutExpr ctx value σ₁ with ⟨value', σ₂⟩
      rw [h2] at ihv; dsimp only at ihv
      obtain ⟨dv, mv⟩ := ihv
      have hbase : dStmt (.assign targets value) (.assign targets' value') ≤
          hits c k σ σ₁ + hits c k σ₁ σ₂ := by
        have : dStmt (.assign targets value) (.assign targets' value') =
            dExprList targets targets' + dExpr value value' := by simp [dStmt]
        omega
      have hdel := maybeDeleteStmt_bound ctx c k hp (.assign targets value)
        (.assign targets' value') σ₂ (hits c k σ σ₁ + hits c k σ₁ σ₂) hbase
      rcases h3 : maybeDeleteStmt ctx (.assign targets' value') σ₂ with ⟨res, σ₃⟩
      rw [h3] at hdel; dsimp only at hdel
      obtain ⟨dres, mres⟩ := hdel
      simp only [mutStmt, h1, h2, h3]
      refine ⟨?_, fun cat => le_trans (mt cat) (le_trans (mv cat) (mres cat))⟩
      have hadd := hits_add c k σ σ₁ σ₂ (mt c) (mv c)
      have hadd2 := hits_add c k σ σ₂ σ₃ (le_trans (mt c) (mv c)) (mres c)
      omega
  | .annAssign target ann value, σ => by
      have iht := mutExpr_bound ctx c k hp target σ
      rcases h1 : mutExpr ctx target σ with ⟨target', σ₁⟩
      rw [h1] at iht; dsimp only at iht
      obtain ⟨dt, mt⟩ := iht
      have iha := mutExpr_bound ctx c k hp ann σ₁
      rcases h2 : mutExpr ctx ann σ₁ with ⟨ann', σ₂⟩
      rw [h2] at iha; dsimp only at iha
      obtain ⟨da, ma⟩ := iha
      cases value with
      | some v =>
          have ihv := mutExpr_bound ctx c k hp v σ₂
          rcases h3 : mutExpr ctx v σ₂ with ⟨v', σ₃⟩
          rw [h3] at ihv; dsimp only at ihv
          obtain ⟨dv, mv⟩ := ihv
          have hbase : dStmt (.annAssign target ann (some v))
              (.annAssign target' ann' (some v')) ≤
              hits c k σ σ₁ + hits c k σ₁ σ₂ + hits c k σ₂ σ₃ := by
            have : dStmt (.annAssign target ann (some v)) (.annAssign target' ann' (some v')) =
                dExpr target target' + dExpr ann ann' + dExpr v v' := by
              simp [dStmt, dOptExpr]
            omega
          have hdel := maybeDeleteStmt_bound ctx c k hp (.annAssign target ann (some v))
            (.annAssign target' ann' (some v')) σ₃
            (hits c k σ σ₁ + hits c k σ₁ σ₂ + hits c k σ₂ σ₃) hbase
          rcases h4 : maybeDeleteStmt ctx (.annAssign target' ann' (some v')) σ₃ with ⟨res, σ₄⟩
          rw [h4] at hdel; dsimp only at hdel
          obtain ⟨dres, mres⟩ := hdel
          simp only [mutStmt, h1, h2, h3, h4]
          refine ⟨?_, fun cat =>
            le_trans (mt cat) (le_trans (ma cat) (le_trans (mv cat) (mres cat)))⟩
          have hadd := hits_add c k σ σ₁ σ₂ (mt c) (ma c)
          have hadd2 := hits_add c k σ σ₂ σ₃ (le_trans (mt c) (ma c)) (mv c)
          have hadd3 := hits_add c k σ σ₃ σ₄
            (le_trans (le_trans (mt c) (ma c)) (mv c)) (mres c)
          omega
      | none =>
          have hbase : dStmt (.annAssign target ann none) (.annAssign target' ann' none) ≤
              hits c k σ σ₁ + hits c k σ₁ σ₂ := by
            have : dStmt (.annAssign target ann none) (.annAssign target' ann' none) =
                dExpr target target' + dExpr ann ann' := by simp [dStmt, dOptExpr]
            omega
          have hdel := maybeDeleteStmt_bound ctx c k hp (.annAssign target ann none)
            (.annAssign target' ann' none) σ₂ (hits c k σ σ₁ + hits c k σ₁ σ₂) hbase
          rcases h4 : maybeDeleteStmt ctx (.annAssign target' ann' none) σ₂ with ⟨res, σ₃⟩
          rw [h4] at hdel; dsimp only at hdel
          obtain ⟨dres, mres⟩ := hdel
          simp only [mutStmt, h1, h2, h4]
          refine ⟨?_, fun cat => le_trans (mt cat) (le_trans (ma cat) (mres cat))⟩
          have hadd := hits_add c k σ σ₁ σ₂ (mt c) (ma c)
          have hadd2 := hits_add c k σ σ₂ σ₃ (le_trans (mt c) (ma c)) (mres c)
          omega
  | .augAssign target op value, σ => by
      have iht := mutExpr_bound ctx c k hp target σ
      rcases h1 : mutExpr ctx target σ with ⟨target', σ₁⟩
      rw [h1] at iht; dsimp only at iht
      obtain ⟨dt, mt⟩ := iht
      have ihv := mutExpr_bound ctx c k hp value σ₁
      rcases h2 : mutExpr ctx value σ₁ with ⟨value', σ₂⟩
      rw [h2] at ihv; dsimp only at ihv
      obtain ⟨dv, mv⟩ := ihv
      have hadd := hits_add c k σ σ₁ σ₂ (mt c) (mv c)
      cases hbs : BIN_SWAP op with
      | none =>
          have hbase : dStmt (.augAssign target op value) (.augAssign target' op value') ≤
              hits c k σ σ₁ + hits c k σ₁ σ₂ := by
            have : dStmt (.augAssign target op value) (.augAssign target' op value') =
                dExpr target target' + dExpr value value' := by simp [dStmt]
            omega
          have hdel := maybeDeleteStmt_bound ctx c k hp (.augAssign target op value)
            (.augAssign target' op value') σ₂ (hits c k σ σ₁ + hits c k σ₁ σ₂) hbase
          rcases h4 : maybeDeleteStmt ctx (.augAssign target' op value') σ₂ with ⟨res, σ₃⟩
          rw [h4] at hdel; dsimp only at hdel
          obtain ⟨dres, mres⟩ := hdel
          simp only [mutStmt, h1, h2, h4, hbs]
          refine ⟨?_, fun cat => le_trans (mt cat) (le_trans (mv cat) (mres cat))⟩
          have hadd2 := hits_add c k σ σ₂ σ₃ (le_trans (mt c) (mv c)) (mres c)
          omega
      | some swapped =>
          cases hsel : planSelects ctx.plan .bin σ₂.seen_bin with
          | true =>
              simp only [mutStmt, h1, h2, hbs, hsel, if_true]
              rw [hp] at hsel
              obtain ⟨hc, hk⟩ := (planSelects_single_iff c .bin k σ₂.seen_bin).mp hsel
              have hone : hits c k σ₂ { σ₂ with seen_bin := σ₂.seen_bin + 1 } = 1 := by
                apply hits_bump_one
                · rw [← hc]; simpa [MState.cnt] using hk
                · rw [← hc]; simp [MState.cnt]
              refine ⟨?_, fun cat =>
                le_trans (mt cat) (le_trans (mv cat) (cnt_bump_bin σ₂ cat))⟩
              have hgoal : dStmt (.augAssign target op value)
                  (.augAssign target' swapped value') ≤
                  1 + dExpr target target' + dExpr value value' := by
                simp only [dStmt]; split_ifs <;> omega
              have hadd2 := hits_add c k σ σ₂ { σ₂ with seen_bin := σ₂.seen_bin + 1 }
                (le_trans (mt c) (mv c)) (cnt_bump_bin σ₂ c)
              omega
          | false =>
              have hbase : dStmt (.augAssign target op value) (.augAssign target' op value') ≤
                  hits c k σ σ₁ + hits c k σ₁ σ₂ := by
                have : dStmt (.augAssign target op value) (.augAssign target' op value') =
                    dExpr target target' + dExpr value value' := by simp [dStmt]
                omega
              have hdel := maybeDeleteStmt_bound ctx c k hp (.augAssign target op value)
                (.augAssign target' op value') { σ₂ with seen_bin := σ₂.seen_bin + 1 }
                (hits c k σ σ₁ + hits c k σ₁ σ₂) hbase
              rcases h4 : maybeDeleteStmt ctx (.augAssign target' op value')
                  { σ₂ with seen_bin := σ₂.seen_bin + 1 } with ⟨res, σ₃⟩
              rw [h4] at hdel; dsimp only at hdel
              obtain ⟨dres, mres⟩ := hdel
              simp only [mutStmt, h1, h2, h4, hbs, hsel, Bool.false_eq_true, if_false]
              refine ⟨?_, fun cat => le_trans (mt cat) (le_trans (mv cat)
                (le_trans (cnt_bump_bin σ₂ cat) (mres cat)))⟩
              have hadd2 := hits_add c k σ σ₂ { σ₂ with seen_bin := σ₂.seen_bin + 1 }
                (le_trans (mt c) (mv c)) (cnt_bump_bin σ₂ c)
              have hadd3 := hits_add c k σ { σ₂ with seen_bin := σ₂.seen_bin + 1 } σ₃
                (le_trans (le_trans (mt c) (mv c)) (cnt_bump_bin σ₂ c)) (mres c)
              omega
  | .exprStmt value, σ => by
      have ihv := mutExpr_bound ctx c k hp value σ
      rcases h1 : mutExpr ctx value σ with ⟨value', σ₁⟩
      rw [h1] at ihv; dsimp only at ihv
      obtain ⟨dv, mv⟩ := ihv
      have hfix := exprStmtFix_bound ctx c k hp value value' σ₁ (hits c k σ σ₁) dv
      rcases h2 : exprStmtFix ctx value' σ₁ with ⟨res, σ₂⟩
      rw [h2] at hfix; dsimp only at hfix
      obtain ⟨dres, mres⟩ := hfix
      simp only [mutStmt, h1, h2]
      refine ⟨?_, fun cat => le_trans (mv cat) (mres cat)⟩
      have hadd := hits_add c k σ σ₁ σ₂ (mv c) (mres c)
      omega
  | .ifStmt test body orelse, σ => by
      have iht := mutExpr_bound ctx c k hp test σ
      rcases h1 : mutExpr ctx test σ with ⟨test', σ₁⟩
      rw [h1] at iht; dsimp only at iht
      obtain ⟨dt, mt⟩ := iht
      have ihb := mutStmtList_bound ctx c k hp body σ₁
      rcases h2 : mutStmtList ctx body σ₁ with ⟨body', σ₂⟩
      rw [h2] at ihb; dsimp only at ihb
      obtain ⟨db, mb⟩ := ihb
      have iho := mutStmtList_bound ctx c k hp orelse σ₂
      rcases h3 : mutStmtList ctx orelse σ₂ with ⟨orelse', σ₃⟩
      rw [h3] at iho; dsimp only at iho
      obtain ⟨dob, mo⟩ := iho
      have hfix := ifTestFix_bound ctx c k hp test body orelse test' body' orelse' σ₃
        (hits c k σ σ₁) (hits c k σ₁ σ₂) (hits c k σ₂ σ₃) dt db dob
      rcases h4 : ifTestFix ctx test' body' orelse' σ₃ with ⟨res, σ₄⟩
      rw [h4] at hfix; dsimp only at hfix
      obtain ⟨dres, mres⟩ := hfix
      simp only [mutStmt, h1, h2, h3, h4]
      refine ⟨?_, fun cat =>
        le_trans (mt cat) (le_trans (mb cat) (le_trans (mo cat) (mres cat)))⟩
      have hadd := hits_add c k σ σ₁ σ₂ (mt c) (mb c)
      have hadd2 := hits_add c k σ σ₂ σ₃ (le_trans (mt c) (mb c)) (mo c)
      have hadd3 := hits_add c k σ σ₃ σ₄
        (le_trans (le_trans (mt c) (mb c)) (mo c)) (mres c)
      omega
  | .whileStmt test body orelse, σ => by
      have iht := mutExpr_bound ctx c k hp test σ
      rcases h1 : mutExpr ctx test σ with ⟨test', σ₁⟩
      rw [h1] at iht; dsimp only at iht
      obtain ⟨dt, mt⟩ := iht
      have ihb := mutStmtList_bound ctx c k hp body σ₁
      rcases h2 : mutStmtList ctx body σ₁ with ⟨body', σ₂⟩
      rw [h2] at ihb; dsimp only at ihb
      obtain ⟨db, mb⟩ := ihb
      have iho := mutStmtList_bound ctx c k hp orelse σ₂
      rcases h3 : mutStmtList ctx orelse σ₂ with ⟨orelse', σ₃⟩
      rw [h3] at iho; dsimp only at iho
      obtain ⟨dob, mo⟩ := iho
      have hfix := whileTestFix_bound ctx c k hp test body orelse test' body' orelse' σ₃
        (hits c k σ σ₁) (hits c k σ₁ σ₂) (hits c k σ₂ σ₃) dt db dob
      rcases h4 : whileTestFix ctx test' body' orelse' σ₃ with ⟨res, σ₄⟩
      rw [h4] at hfix; dsimp only at hfix
      obtain ⟨dres, mres⟩ := hfix
      simp only [mutStmt, h1, h2, h3, h4]
      refine ⟨?_, fun cat =>
        le_trans (mt cat) (le_trans (mb cat) (le_trans (mo cat) (mres cat)))⟩
      have hadd := hits_add c k σ σ₁ σ₂ (mt c) (mb c)
      have hadd2 := hits_add c k σ σ₂ σ₃ (le_trans (mt c) (mb c)) (mo c)
      have hadd3 := hits_add c k σ σ₃ σ₄
        (le_trans (le_trans (mt c) (mb c)) (mo c)) (mres c)
      omega
  | .forStmt target iter body orelse, σ => by
      have iht := mutExpr_bound ctx c k hp target σ
      rcases h1 : mutExpr ctx target σ with ⟨target', σ₁⟩
      rw [h1] at iht; dsimp only at iht
      obtain ⟨dt, mt⟩ := iht
      have ihi := mutExpr_bound ctx c k hp iter σ₁
      rcases h2 : mutExpr ctx iter σ₁ with ⟨iter', σ₂⟩
      rw [h2] at ihi; dsimp only at ihi
      obtain ⟨di, mi⟩ := ihi
      have ihb := mutStmtList_bound ctx c k hp body σ₂
      rcases h3 : mutStmtList ctx body σ₂ with ⟨body', σ₃⟩
      rw [h3] at ihb; dsimp only at ihb
      obtain ⟨db, mb⟩ := ihb
      have iho := mutStmtList_bound ctx c k hp orelse σ₃
      rcases h4 : mutStmtList ctx orelse σ₃ with ⟨orelse', σ₄⟩
      rw [h4] at iho; dsimp only at iho
      obtain ⟨dob, mo⟩ := iho
      simp only [mutStmt, h1, h2, h3, h4]
      refine ⟨?_, fun cat =>
        le_trans (mt cat) (le_trans (mi cat) (le_trans (mb cat) (mo cat)))⟩
      have hgoal : dStmt (.forStmt target iter body orelse)
          (.forStmt target' iter' body' orelse') =
          dExpr target target' + dExpr iter iter' + dStmtList body body' +
          dStmtList orelse orelse' := by simp [dStmt]
      have hadd := hits_add c k σ σ₁ σ₂ (mt c) (mi c)
      have hadd2 := hits_add c k σ σ₂ σ₃ (le_trans (mt c) (mi c)) (mb c)
      have hadd3 := hits_add c k σ σ₃ σ₄
        (le_trans (le_trans (mt c) (mi c)) (mb c)) (mo c)
      omega
  | .ret value, σ => by
      cases value with
      | some v =>
          have ihv := mutExpr_bound ctx c k hp v σ
          rcases h1 : mutExpr ctx v σ with ⟨v', σ₁⟩
          rw [h1] at ihv; dsimp only at ihv
          obtain ⟨dv, mv⟩ := ihv
          simp only [mutStmt, h1]
          refine ⟨?_, fun cat => mv cat⟩
          have hgoal : dStmt (.ret (some v)) (.ret (some v')) = dExpr v v' := by
            simp [dStmt, dOptExpr]
          omega
      | none =>
          refine ⟨?_, fun cat => ?_⟩ <;> simp [mutStmt, dStmt, dOptExpr]
  | .pass, σ => by
      refine ⟨?_, fun cat => ?_⟩ <;> simp [mutStmt, dStmt]
  | .funcDef nm args body, σ => by
      have ihb := mutStmtList_bound ctx c k hp body σ
      rcases h1 : mutStmtList ctx body σ with ⟨body', σ₁⟩
      rw [h1] at ihb; dsimp only at ihb
      obtain ⟨db, mb⟩ := ihb
      simp only [mutStmt, h1]
      refine ⟨?_, fun cat => mb cat⟩
      have hgoal : dStmt (.funcDef nm args body) (.funcDef nm args body') =
          dStmtList body body' := by simp [dStmt]
      omega

theorem mutStmtList_bound (ctx : MCtx) (c : Cat) (k : Nat) (hp : ctx.plan = [(c, [k])]) :
    ∀ (l : StmtList) (σ : MState),
      dStmtList l (mutStmtList ctx l σ).1 ≤ hits c k σ (mutStmtList ctx l σ).2 ∧
      ∀ cat, σ.cnt cat ≤ ((mutStmtList ctx l σ).2).cnt cat
  | .nil, σ => by
      refine ⟨?_, fun cat => ?_⟩ <;> simp [mutStmtList, dStmtList]
  | .cons s rest, σ => by
      have ihs := mutStmt_bound ctx c k hp s σ
      rcases h1 : mutStmt ctx s σ with ⟨s', σ₁⟩
      rw [h1] at ihs; dsimp only at ihs
      obtain ⟨ds, ms⟩ := ihs
      have ihr := mutStmtList_bound ctx c k hp rest σ₁
      rcases h2 : mutStmtList ctx rest σ₁ with ⟨rest', σ₂⟩
      rw [h2] at ihr; dsimp only at ihr
      obtain ⟨dr, mr⟩ := ihr
      simp only [mutStmtList, h1, h2]
      refine ⟨?_, fun cat => le_trans (ms cat) (mr cat)⟩
      have hgoal : dStmtList (.cons s rest) (.cons s' rest') =
          dStmt s s' + dStmtList rest rest' := by simp [dStmtList]
      have hadd := hits_add c k σ σ₁ σ₂ (ms c) (mr c)
      omega

end

/-- Every plan `_choose_plan` can produce is empty or names one category
with one index. -/
theorem choosePlan_shape (c : CandidateCounter) (kd ix : Nat) :
    choosePlan c kd ix = [] ∨ ∃ cc i, choosePlan c kd ix = [(cc, [i])] := by
  cases h : ((avail c).filter (fun q => 0 < q.2)).isEmpty with
  | true => left; simp [choosePlan, h]
  | false =>
      right
      refine ⟨(((avail c).filter (fun q => 0 < q.2)).getD
          (kd % ((avail c).filter (fun q => 0 < q.2)).length) (.cmp, 0)).1,
        ix % (((avail c).filter (fun q => 0 < q.2)).getD
          (kd % ((avail c).filter (fun q => 0 < q.2)).length) (.cmp, 0)).2, ?_⟩
      simp [choosePlan, h]

/-- C1: for every input tree and every pair of random draws, the tree
returned by `mutate` differs from the input in at most one mutation site
under a node-by-node diff (one changed operator, statement or literal, or
zero changes). -/
theorem mutate_single_edit (m : StmtList) (kd ix : Nat) :
    dStmtList m (mutate m kd ix) ≤ 1 := by
  rcases choosePlan_shape (runCounter m) kd ix with h | ⟨cc, i, h⟩
  · simp [mutate, h, dStmtList_self]
  · have hmut : mutate m kd ix = mutApply m [(cc, [i])] := by
      simp [mutate, h]
    rw [hmut]
    unfold mutApply
    have hb := mutStmtList_bound
      { plan := [(cc, [i])], first_def_names := (runCounter m).first_def_names,
        cmp_keys := (runCounter m).cmp_keys } cc i rfl m initMState
    exact le_trans hb.1 (hits_le_one _ _ _ _)

/-- C7: `mutate` is deterministic given the externally supplied random
seed: the driver's `random.seed(s)` erases any prior generator state, so
two seeded invocations on the same tree return identical trees; and the
engine itself never reseeds — it only ever advances the generator by its
(at most two) draws. -/
theorem mutate_deterministic_no_reseed (m : StmtList) (s g₁ g₂ : Nat) :
    driverMutant m s g₁ = driverMutant m s g₂ ∧
    ((mutateRng m g₁).2 = g₁ ∨ (mutateRng m g₁).2 = (randNext (randNext g₁).2).2) := by
  constructor
  · rfl
  · cases h : ((avail (runCounter m)).filter (fun q => 0 < q.2)).isEmpty with
    | true => left; simp [mutateRng, h]
    | false => right; simp [mutateRng, h, randNext]

/-- C9: on a tree in which all five categories have zero eligible sites,
`mutate` raises no error (it is a total function) and returns the input
tree unchanged. -/
theorem mutate_no_sites_identity (m : StmtList) (kd ix : Nat)
    (h1 : (runCounter m).cmp_sites.length = 0)
    (h2 : (runCounter m).bin_sites = 0)
    (h3 : (runCounter m).del_sites.length = 0)
    (h4 : (runCounter m).bool_sites = 0)
    (h5 : (runCounter m).call_sites = 0) :
    mutate m kd ix = m := by
  have hk : ((avail (runCounter m)).filter (fun q => 0 < q.2)) = [] := by
    simp [avail, h1, h2, h3, h4, h5]
  simp [mutate, choosePlan, hk]

/-- Witness for C9 at a concrete site-free module and concrete draws. -/
theorem mutate_no_sites_identity_witness :
    (runCounter noSiteMod).cmp_sites.length = 0 ∧
    (runCounter noSiteMod).bin_sites = 0 ∧
    (runCounter noSiteMod).del_sites.length = 0 ∧
    (runCounter noSiteMod).bool_sites = 0 ∧
    (runCounter noSiteMod).call_sites = 0 ∧
    mutate noSiteMod 5 7 = noSiteMod :=
  ⟨by decide, by decide, by decide, by decide, by decide,
    mutate_no_sites_identity noSiteMod 5 7 (by decide) (by decide) (by decide) (by decide)
      (by decide)⟩

/-- C4 counterexample: with the draws that make the plan select the
deletable-statement site of `i += j` in f05, the statement is NOT
replaced by a no-op — the whole tree comes back unchanged. -/
theorem scenarioC_cex :
    choosePlan (runCounter f05mod) 1 0 = [(Cat.del, [0])] ∧
    (runCounter f05mod).del_sites.get? 0 =
      some (.augAssign (.name "i" true) .add (.name "j" false)) ∧
    mutate f05mod 1 0 = f05mod ∧
    firstBodyStmt f05mod ≠ some Stmt.pass := by decide

/-- C4 amended: when the deletable-statement plan selects the site of
`i += j` in f05, the guardrail vetoes the deletion because `i` is in the
first-definition name set (that statement is i's first definition), the
statement is left in place and the tree is returned unchanged, so f05's
behavior on any input, (7,8) included, is unchanged. -/
theorem scenarioC_guardrail_veto :
    "i" ∈ (runCounter f05mod).first_def_names ∧
    choosePlan (runCounter f05mod) 1 0 = [(Cat.del, [0])] ∧
    mutate f05mod 1 0 = f05mod := by decide

/-- C5 counterexample: in the module `x = 1 ; x = 2`, the plan selects
the second statement — a redefinition of the already-defined `x` — and it
is NOT replaced by a no-op: the tree comes back unchanged. -/
theorem redef_delete_cex :
    choosePlan (runCounter redefMod) 0 1 = [(Cat.del, [1])] ∧
    mutate redefMod 0 1 = redefMod ∧
    secondStmt redefMod ≠ some Stmt.pass := by decide

/-- C3 counterexample: on a module whose only statement nests one
comparison inside another, the plan selects comparison index 0, but the
rewriter does not negate the 0th eligible operator in pre-order (the
spec-modelled pre-order rewrite of index 0 gives a different tree). -/
theorem cmp_preorder_cex :
    choosePlan (runCounter nestedCmpMod) 0 0 = [(Cat.cmp, [0])] ∧
    mutate nestedCmpMod 0 0 ≠ specPreorderCmpRewrite nestedCmpMod 0 := by decide

/-- C6 counterexample: two mutants each kill exactly the one test "t", so
"t" is killed by two mutants — yet the harness reports "t" as
selectively killed. -/
theorem selective_kill_cex :
    "t" ∈ runBatch ["t"] batchOrig [batchMutantA, batchMutantB] ∧
    killerCount batchOrig [batchMutantA, batchMutantB] "t" = 2 := by
  constructor
  · decide
  · decide

/-- C6 amended: the reported set contains exactly the tests killed by
some mutant whose total kill count over the suite is one (not the tests
killed by exactly one mutant). -/
theorem runBatch_characterization (tests : List String) (orig : String → Outcome)
    (muts : List (String → Outcome)) (t : String) :
    t ∈ runBatch tests orig muts ↔
      ∃ mt, mt ∈ muts ∧ (killedTests tests orig mt).length = 1 ∧
        t ∈ killedTests tests orig mt := by
  have go : ∀ (ms : List (String → Outcome)) (acc : List String),
      t ∈ ms.foldl (fun acc mt =>
        if (killedTests tests orig mt).length = 1 then acc ++ killedTests tests orig mt
        else acc) acc ↔
      (t ∈ acc ∨ ∃ mt, mt ∈ ms ∧ (killedTests tests orig mt).length = 1 ∧
        t ∈ killedTests tests orig mt) := by
    intro ms
    induction ms with
    | nil => intro acc; simp
    | cons m ms ih =>
        intro acc
        simp only [List.foldl_cons]
        rw [ih]
        by_cases h : (killedTests tests orig m).length = 1
        · simp only [h, if_true, List.mem_append, List.mem_cons]
          constructor
          · rintro ((ha | hk) | ⟨mt, hm, hl, ht⟩)
            · exact Or.inl ha
            · exact Or.inr ⟨m, Or.inl rfl, h, hk⟩
            · exact Or.inr ⟨mt, Or.inr hm, hl, ht⟩
          · rintro (ha | ⟨mt, hm | hm, hl, ht⟩)
            · exact Or.inl (Or.inl ha)
            · subst hm; exact Or.inl (Or.inr ht)
            · exact Or.inr ⟨mt, hm, hl, ht⟩
        · simp only [h, if_false, List.mem_cons]
          constructor
          · rintro (ha | ⟨mt, hm, hl, ht⟩)
            · exact Or.inl ha
            · exact Or.inr ⟨mt, Or.inr hm, hl, ht⟩
          · rintro (ha | ⟨mt, hm | hm, hl, ht⟩)
            · exact Or.inl ha
            · subst hm; exact absurd hl h
            · exact Or.inr ⟨mt, hm, hl, ht⟩
  unfold runBatch
  rw [go muts []]
  simp

/-- C10: the comparison `l > k` in f06's while header is under the loop
node itself (the loop is an ancestor of its own test), so it is never
catalogued — f06 has no eligibility keys at all, and the context flag of
the compare with identity 0 (the header comparison) is true — and for
every pair of random draws the while header of the mutated tree is
unchanged. -/
theorem f06_while_header_excluded :
    (runCounter f06mod).cmp_keys = [] ∧
    (ctxModule f06mod).get? 0 = some true ∧
    ∀ (kd ix : Nat), f06WhileTest (mutate f06mod kd ix) = f06WhileTest f06mod := by
  refine ⟨by decide, by decide, fun kd ix => ?_⟩
  have hfil : ((avail (runCounter f06mod)).filter (fun q => 0 < q.2)) =
      [(Cat.bin, 2), (Cat.del, 3)] := by decide
  have hch : choosePlan (runCounter f06mod) kd ix = [(Cat.bin, [ix % 2])] ∨
      choosePlan (runCounter f06mod) kd ix = [(Cat.del, [ix % 3])] := by
    have h2 : kd % 2 = 0 ∨ kd % 2 = 1 := by omega
    rcases h2 with h2 | h2
    · left; simp [choosePlan, hfil, h2]
    · right; simp [choosePlan, hfil, h2]
  rcases hch with hch | hch
  · have h2 : ix % 2 = 0 ∨ ix % 2 = 1 := by omega
    rcases h2 with h2 | h2 <;> rw [h2] at hch <;> simp only [mutate, hch] <;> decide
  · have h3 : ix % 3 = 0 ∨ ix % 3 = 1 ∨ ix % 3 = 2 := by omega
    rcases h3 with h3 | h3 | h3 <;> rw [h3] at hch <;> simp only [mutate, hch] <;> decide

/-- C8: when the planned deletable-statement index lands on a statement
one of whose defined names is in the first-definition set, the rewriter
leaves the statement unmodified, the running deletion counter still
advances past it, and no error is raised (the rewriter is a total
function); concretely, on the one-statement module `x = 1` with the del
plan selecting index 0, the whole tree is returned unchanged. -/
theorem guardrail_veto_behavior :
    (∀ (ctx : MCtx) (s : Stmt) (σ : MState),
      planSelects ctx.plan .del σ.seen_del = true →
      (∃ nm, nm ∈ names_defined_by_assign_stmt s ∧ nm ∈ ctx.first_def_names) →
      (maybeDeleteStmt ctx s σ).1 = s ∧
      (maybeDeleteStmt ctx s σ).2.seen_del = σ.seen_del + 1) ∧
    mutApply firstDefMod [(Cat.del, [0])] = firstDefMod := by
  constructor
  · rintro ctx s σ hsel ⟨nm, hmem, hfd⟩
    have hex : ∃ x ∈ names_defined_by_assign_stmt s, x ∈ ctx.first_def_names :=
      ⟨nm, hmem, hfd⟩
    simp [maybeDeleteStmt, hsel, hex]
  · decide

/-! Pass-1 accounting of the first-definition name set: the recorder adds
a name to `first_def_names` whenever the name had not been seen before,
so after a whole traversal the set contains every name any assignment
defines; the two sets `seen_any_def` and `first_def_names` coincide
throughout. -/

theorem recordFirstDefs_mem : ∀ (names : List String) (c : CandidateCounter),
    c.seen_any_def = c.first_def_names →
    ((recordFirstDefs names c).seen_any_def = (recordFirstDefs names c).first_def_names ∧
     ∀ nm, (nm ∈ (recordFirstDefs names c).first_def_names ↔
        nm ∈ names ∨ nm ∈ c.first_def_names))
  | [], c => fun h => ⟨h, fun nm => by simp [recordFirstDefs]⟩
  | x :: rest, c => fun h => by
      by_cases hx : x ∈ c.seen_any_def
      · have heq : recordFirstDefs (x :: rest) c = recordFirstDefs rest c := by
          simp [recordFirstDefs, hx]
        have ih := recordFirstDefs_mem rest c h
        rw [heq]
        refine ⟨ih.1, fun nm => ?_⟩
        rw [ih.2 nm]
        have hxf : x ∈ c.first_def_names := by rw [← h]; exact hx
        constructor
        · rintro (h1 | h1)
          · exact Or.inl (List.mem_cons_of_mem x h1)
          · exact Or.inr h1
        · rintro (h1 | h1)
          · rcases List.mem_cons.mp h1 with h2 | h2
            · subst h2; exact Or.inr hxf
            · exact Or.inl h2
          · exact Or.inr h1
      · have heq : recordFirstDefs (x :: rest) c = recordFirstDefs rest
            { c with seen_any_def := c.seen_any_def ++ [x],
                     first_def_names := c.first_def_names ++ [x] } := by
          simp [recordFirstDefs, hx]
        have hinv : ({ c with seen_any_def := c.seen_any_def ++ [x],
                               first_def_names := c.first_def_names ++ [x] } :
            CandidateCounter).seen_any_def =
            ({ c with seen_any_def := c.seen_any_def ++ [x],
                      first_def_names := c.first_def_names ++ [x] } :
                CandidateCounter).first_def_names := by
          simp [h]
        have ih := recordFirstDefs_mem rest _ hinv
        rw [heq]
        refine ⟨ih.1, fun nm => ?_⟩
        rw [ih.2 nm]
        simp only [List.mem_append, List.mem_cons, List.not_mem_nil, or_false]
        tauto

theorem recordCmpOps_defs (myId : Nat) : ∀ (i : Nat) (p : CmpPairs) (c : CandidateCounter),
    (recordCmpOps myId i p c).first_def_names = c.first_def_names ∧
    (recordCmpOps myId i p c).seen_any_def = c.seen_any_def
  | _, .nil, c => ⟨rfl, rfl⟩
  | i, .cons op e rest, c => by
      cases h : (CMP_NEGATION op).isSome with
      | true =>
          have ih := recordCmpOps_defs myId (i + 1) rest
            { c with cmp_sites := c.cmp_sites ++ [(myId, i)]
                     cmp_keys := c.cmp_keys ++ [(myId, i)] }
          simp only [recordCmpOps, h, if_true]
          exact ih
      | false =>
          have ih := recordCmpOps_defs myId (i + 1) rest c
          simp only [recordCmpOps, h, Bool.false_eq_true, if_false]
          exact ih

mutual

theorem countExpr_defs : ∀ (inLoop : Bool) (e : Expr) (c : CandidateCounter),
    (countExpr inLoop c e).first_def_names = c.first_def_names ∧
    (countExpr inLoop c e).seen_any_def = c.seen_any_def
  | _, .name a s, c => ⟨rfl, rfl⟩
  | _, .const v, c => ⟨rfl, rfl⟩
  | inLoop, .binOp l op r, c => by
      cases hb : (BIN_SWAP op).isSome with
      | true =>
          obtain ⟨a1, a2⟩ := countExpr_defs inLoop l { c with bin_sites := c.bin_sites + 1 }
          obtain ⟨b1, b2⟩ := countExpr_defs inLoop r
            (countExpr inLoop { c with bin_sites := c.bin_sites + 1 } l)
          simp only [countExpr, hb, if_true]
          exact ⟨b1.trans a1, b2.trans a2⟩
      | false =>
          obtain ⟨a1, a2⟩ := countExpr_defs inLoop l c
          obtain ⟨b1, b2⟩ := countExpr_defs inLoop r (countExpr inLoop c l)
          simp only [countExpr, hb, Bool.false_eq_true, if_false]
          exact ⟨b1.trans a1, b2.trans a2⟩
  | inLoop, .compare l pairs, c => by
      cases inLoop with
      | true =>
          obtain ⟨a1, a2⟩ := countExpr_defs true l { c with nid := c.nid + 1 }
          obtain ⟨b1, b2⟩ := countCmpPairs_defs true pairs
            (countExpr true { c with nid := c.nid + 1 } l)
          simp only [countExpr, if_true]
          exact ⟨b1.trans a1, b2.trans a2⟩
      | false =>
          obtain ⟨r1, r2⟩ := recordCmpOps_defs c.nid 0 pairs { c with nid := c.nid + 1 }
          obtain ⟨a1, a2⟩ := countExpr_defs false l
            (recordCmpOps c.nid 0 pairs { c with nid := c.nid + 1 })
          obtain ⟨b1, b2⟩ := countCmpPairs_defs false pairs
            (countExpr false (recordCmpOps c.nid 0 pairs { c with nid := c.nid + 1 }) l)
          simp only [countExpr, Bool.false_eq_true, if_false]
          exact ⟨(b1.trans a1).trans r1, (b2.trans a2).trans r2⟩
  | inLoop, .call f args, c => by
      cases f with
      | name id st =>
          cases hcs : (CALL_SWAP id).isSome with
          | true =>
              obtain ⟨a1, a2⟩ := countExpr_defs inLoop (.name id st)
                { c with call_sites := c.call_sites + 1 }
              obtain ⟨b1, b2⟩ := countExprList_defs inLoop args
                (countExpr inLoop { c with call_sites := c.call_sites + 1 } (.name id st))
              simp only [countExpr, hcs, if_true]
              exact ⟨b1.trans a1, b2.trans a2⟩
          | false =>
              obtain ⟨a1, a2⟩ := countExpr_defs inLoop (.name id st) c
              obtain ⟨b1, b2⟩ := countExprList_defs inLoop args (countExpr inLoop c (.name id st))
              simp only [countExpr, hcs, Bool.false_eq_true, if_false]
              exact ⟨b1.trans a1, b2.trans a2⟩
      | const v =>
          obtain ⟨a1, a2⟩ := countExpr_defs inLoop (.const v) c
          obtain ⟨b1, b2⟩ := countExprList_defs inLoop args (countExpr inLoop c (.const v))
          simp only [countExpr]
          exact ⟨b1.trans a1, b2.trans a2⟩
      | binOp l op r =>
          obtain ⟨a1, a2⟩ := countExpr_defs inLoop (.binOp l op r) c
          obtain ⟨b1, b2⟩ := countExprList_defs inLoop args (countExpr inLoop c (.binOp l op r))
          simp only [countExpr]
          exact ⟨b1.trans a1, b2.trans a2⟩
      | compare l p =>
          obtain ⟨a1, a2⟩ := countExpr_defs inLoop (.compare l p) c
          obtain ⟨b1, b2⟩ := countExprList_defs inLoop args (countExpr inLoop c (.compare l p))
          simp only [countExpr]
          exact ⟨b1.trans a1, b2.trans a2⟩
      | call g a =>
          obtain ⟨a1, a2⟩ := countExpr_defs inLoop (.call g a) c
          obtain ⟨b1, b2⟩ := countExprList_defs inLoop args (countExpr inLoop c (.call g a))
          simp only [countExpr]
          exact ⟨b1.trans a1, b2.trans a2⟩
      | tuple e s =>
          obtain ⟨a1, a2⟩ := countExpr_defs inLoop (.tuple e s) c
          obtain ⟨b1, b2⟩ := countExprList_defs inLoop args (countExpr inLoop c (.tuple e s))
          simp only [countExpr]
          exact ⟨b1.trans a1, b2.trans a2⟩
  | inLoop, .tuple elts store, c => by
      obtain ⟨a1, a2⟩ := countExprList_defs inLoop elts c
      simp only [countExpr]
      exact ⟨a1, a2⟩

theorem countCmpPairs_defs : ∀ (inLoop : Bool) (p : CmpPairs) (c : CandidateCounter),
    (countCmpPairs inLoop c p).first_def_names = c.first_def_names ∧
    (countCmpPairs inLoop c p).seen_any_def = c.seen_any_def
  | _, .nil, c => ⟨rfl, rfl⟩
  | inLoop, .cons op e rest, c => by
      obtain ⟨a1, a2⟩ := countExpr_defs inLoop e c
      obtain ⟨b1, b2⟩ := countCmpPairs_defs inLoop rest (countExpr inLoop c e)
      simp only [countCmpPairs]
      exact ⟨b1.trans a1, b2.trans a2⟩

theorem countExprList_defs : ∀ (inLoop : Bool) (l : ExprList) (c : CandidateCounter),
    (countExprList inLoop c l).first_def_names = c.first_def_names ∧
    (countExprList inLoop c l).seen_any_def = c.seen_any_def
  | _, .nil, c => ⟨rfl, rfl⟩
  | inLoop, .cons e rest, c => by
      obtain ⟨a1, a2⟩ := countExpr_defs inLoop e c
      obtain ⟨b1, b2⟩ := countExprList_defs inLoop rest (countExpr inLoop c e)
      simp only [countExprList]
      exact ⟨b1.trans a1, b2.trans a2⟩

end

theorem boolSiteBump_defs (cond : Bool) (c : CandidateCounter) :
    ((if cond then { c with bool_sites := c.bool_sites + 1 } else c) :
      CandidateCounter).first_def_names = c.first_def_names ∧
    ((if cond then { c with bool_sites := c.bool_sites + 1 } else c) :
      CandidateCounter).seen_any_def = c.seen_any_def := by
  cases cond <;> exact ⟨rfl, rfl⟩

theorem binSiteBump_defs (cond : Bool) (c : CandidateCounter) :
    ((if cond then { c with bin_sites := c.bin_sites + 1 } else c) :
      CandidateCounter).first_def_names = c.first_def_names ∧
    ((if cond then { c with bin_sites := c.bin_sites + 1 } else c) :
      CandidateCounter).seen_any_def = c.seen_any_def := by
  cases cond <;> exact ⟨rfl, rfl⟩

mutual

theorem countStmt_defs : ∀ (inLoop : Bool) (s : Stmt) (c : CandidateCounter),
    c.seen_any_def = c.first_def_names →
    ((countStmt inLoop c s).seen_any_def = (countStmt inLoop c s).first_def_names ∧
     ∀ nm, (nm ∈ (countStmt inLoop c s).first_def_names ↔
        nm ∈ allDefsStmt s ∨ nm ∈ c.first_def_names))
  | inLoop, .assign targets value, c => fun h => by
      obtain ⟨hr1, hr2⟩ :=
        recordFirstDefs_mem (names_defined_by_assign_stmt (.assign targets value)) c h
      simp only [countStmt]
      constructor
      · rw [(countExpr_defs inLoop value _).1, (countExpr_defs inLoop value _).2,
            (countExprList_defs inLoop targets _).1, (countExprList_defs inLoop targets _).2]
        exact hr1
      · intro nm
        rw [(countExpr_defs inLoop value _).1, (countExprList_defs inLoop targets _).1]
        exact hr2 nm
  | inLoop, .annAssign target ann value, c => fun h => by
      obtain ⟨hr1, hr2⟩ :=
        recordFirstDefs_mem (names_defined_by_assign_stmt (.annAssign target ann value)) c h
      cases value with
      | some v =>
          simp only [countStmt]
          constructor
          · rw [(countExpr_defs inLoop v _).1, (countExpr_defs inLoop v _).2,
                (countExpr_defs inLoop ann _).1, (countExpr_defs inLoop ann _).2,
                (countExpr_defs inLoop target _).1, (countExpr_defs inLoop target _).2]
            exact hr1
          · intro nm
            rw [(countExpr_defs inLoop v _).1, (countExpr_defs inLoop ann _).1,
                (countExpr_defs inLoop target _).1]
            exact hr2 nm
      | none =>
          simp only [countStmt]
          constructor
          · rw [(countExpr_defs inLoop ann _).1, (countExpr_defs inLoop ann _).2,
                (countExpr_defs inLoop target _).1, (countExpr_defs inLoop target _).2]
            exact hr1
          · intro nm
            rw [(countExpr_defs inLoop ann _).1, (countExpr_defs inLoop target _).1]
            exact hr2 nm
  | inLoop, .augAssign target op value, c => fun h => by
      obtain ⟨hb1, hb2⟩ := binSiteBump_defs ((BIN_SWAP op).isSome) c
      have h' : ((if (BIN_SWAP op).isSome then { c with bin_sites := c.bin_sites + 1 }
          else c) : CandidateCounter).seen_any_def =
          ((if (BIN_SWAP op).isSome then { c with bin_sites := c.bin_sites + 1 }
          else c) : CandidateCounter).first_def_names := by rw [hb1, hb2]; exact h
      obtain ⟨hr1, hr2⟩ :=
        recordFirstDefs_mem (names_defined_by_assign_stmt (.augAssign target op value)) _ h'
      simp only [countStmt]
      constructor
      · rw [(countExpr_defs inLoop value _).1, (countExpr_defs inLoop value _).2,
            (countExpr_defs inLoop target _).1, (countExpr_defs inLoop target _).2]
        exact hr1
      · intro nm
        rw [(countExpr_defs inLoop value _).1, (countExpr_defs inLoop target _).1]
        rw [hr2 nm, hb1]
        exact Iff.rfl
  | inLoop, .exprStmt value, c => fun h => by
      have hm : ((match value with
          | .call f a => { c with del_sites := c.del_sites ++ [.exprStmt value] }
          | _ => c) : CandidateCounter).first_def_names = c.first_def_names ∧
          ((match value with
          | .call f a => { c with del_sites := c.del_sites ++ [.exprStmt value] }
          | _ => c) : CandidateCounter).seen_any_def = c.seen_any_def := by
        cases value <;> exact ⟨rfl, rfl⟩
      simp only [countStmt]
      constructor
      · rw [(countExpr_defs inLoop value _).1, (countExpr_defs inLoop value _).2,
            hm.1, hm.2]
        exact h
      · intro nm
        rw [(countExpr_defs inLoop value _).1, hm.1]
        simp [allDefsStmt]
  | inLoop, .ifStmt test body orelse, c => fun h => by
      obtain ⟨hb1, hb2⟩ := boolSiteBump_defs (isBoolConst test) c
      have hinv₁ : (countExpr inLoop (if isBoolConst test
          then { c with bool_sites := c.bool_sites + 1 } else c) test).seen_any_def =
          (countExpr inLoop (if isBoolConst test
          then { c with bool_sites := c.bool_sites + 1 } else c) test).first_def_names := by
        rw [(countExpr_defs inLoop test _).1, (countExpr_defs inLoop test _).2, hb1, hb2]
        exact h
      obtain ⟨ih1, ih2⟩ := countStmtList_defs inLoop body _ hinv₁
      obtain ⟨jh1, jh2⟩ := countStmtList_defs inLoop orelse _ ih1
      simp only [countStmt]
      refine ⟨jh1, fun nm => ?_⟩
      rw [jh2 nm, ih2 nm, (countExpr_defs inLoop test _).1, hb1]
      simp only [allDefsStmt, List.mem_append]
      tauto
  | inLoop, .whileStmt test body orelse, c => fun h => by
      obtain ⟨hb1, hb2⟩ := boolSiteBump_defs (isBoolConst test) c
      have hinv₁ : (countExpr true (if isBoolConst test
          then { c with bool_sites := c.bool_sites + 1 } else c) test).seen_any_def =
          (countExpr true (if isBoolConst test
          then { c with bool_sites := c.bool_sites + 1 } else c) test).first_def_names := by
        rw [(countExpr_defs true test _).1, (countExpr_defs true test _).2, hb1, hb2]
        exact h
      obtain ⟨ih1, ih2⟩ := countStmtList_defs true body _ hinv₁
      obtain ⟨jh1, jh2⟩ := countStmtList_defs true orelse _ ih1
      simp only [countStmt]
      refine ⟨jh1, fun nm => ?_⟩
      rw [jh2 nm, ih2 nm, (countExpr_defs true test _).1, hb1]
      simp only [allDefsStmt, List.mem_append]
      tauto
  | inLoop, .forStmt target iter body orelse, c => fun h => by
      have hinv₁ : (countExpr true (countExpr true c target) iter).seen_any_def =
          (countExpr true (countExpr true c target) iter).first_def_names := by
        rw [(countExpr_defs true iter _).1, (countExpr_defs true iter _).2,
            (countExpr_defs true target _).1, (countExpr_defs true target _).2]
        exact h
      obtain ⟨ih1, ih2⟩ := countStmtList_defs true body _ hinv₁
      obtain ⟨jh1, jh2⟩ := countStmtList_defs true orelse _ ih1
      simp only [countStmt]
      refine ⟨jh1, fun nm => ?_⟩
      rw [jh2 nm, ih2 nm, (countExpr_defs true iter _).1, (countExpr_defs true target _).1]
      simp only [allDefsStmt, List.mem_append]
      tauto
  | inLoop, .ret value, c => fun h => by
      cases value with
      | some v =>
          simp only [countStmt]
          constructor
          · rw [(countExpr_defs inLoop v _).1, (countExpr_defs inLoop v _).2]
            exact h
          · intro nm
            rw [(countExpr_defs inLoop v _).1]
            simp [allDefsStmt]
      | none =>
          simp only [countStmt]
          exact ⟨h, fun nm => by simp [allDefsStmt]⟩
  | inLoop, .pass, c => fun h => by
      simp only [countStmt]
      exact ⟨h, fun nm => by simp [allDefsStmt]⟩
  | inLoop, .funcDef nm args body, c => fun h => by
      obtain ⟨ih1, ih2⟩ := countStmtList_defs inLoop body c h
      simp only [countStmt]
      exact ⟨ih1, fun x => by rw [ih2 x]; simp [allDefsStmt]⟩

theorem countStmtList_defs : ∀ (inLoop : Bool) (l : StmtList) (c : CandidateCounter),
    c.seen_any_def = c.first_def_names →
    ((countStmtList inLoop c l).seen_any_def = (countStmtList inLoop c l).first_def_names ∧
     ∀ nm, (nm ∈ (countStmtList inLoop c l).first_def_names ↔
        nm ∈ allDefsStmtList l ∨ nm ∈ c.first_def_names))
  | inLoop, .nil, c => fun h => by
      simp only [countStmtList]
      exact ⟨h, fun nm => by simp [allDefsStmtList]⟩
  | inLoop, .cons s rest, c => fun h => by
      obtain ⟨ih1, ih2⟩ := countStmt_defs inLoop s c h
      obtain ⟨jh1, jh2⟩ := countStmtList_defs inLoop rest _ ih1
      simp only [countStmtList]
      refine ⟨jh1, fun nm => ?_⟩
      rw [jh2 nm, ih2 nm]
      simp only [allDefsStmtList, List.mem_append]
      tauto

end

/-- C5 amended: the "first-definition" guardrail in fact protects every
definition: after pass 1 the first-definition name set contains exactly
the names defined by any assignment-like statement anywhere in the tree,
and any statement defining a name of that set — later redefinitions
included — is left unmodified by the deletion rewrite.  Only statements
defining no names at all can be replaced by a no-op. -/
theorem first_def_guardrail_covers_all_defs :
    (∀ (m : StmtList) (nm : String),
        nm ∈ (runCounter m).first_def_names ↔ nm ∈ allDefsStmtList m) ∧
    (∀ (ctx : MCtx) (s : Stmt) (σ : MState) (nm : String),
        nm ∈ names_defined_by_assign_stmt s → nm ∈ ctx.first_def_names →
        (maybeDeleteStmt ctx s σ).1 = s) := by
  constructor
  · intro m nm
    have h := (countStmtList_defs false m initCounter rfl).2 nm
    unfold runCounter
    rw [h]
    simp [initCounter]
  · intro ctx s σ nm h1 h2
    cases hsel : planSelects ctx.plan .del σ.seen_del with
    | false => simp [maybeDeleteStmt, hsel]
    | true =>
        have hex : ∃ x ∈ names_defined_by_assign_stmt s, x ∈ ctx.first_def_names :=
          ⟨nm, h1, h2⟩
        simp [maybeDeleteStmt, hsel, hex]

/-- Witness for C5's amended claim: in `x = 1 ; x = 2` the set contains
exactly the defined name "x", and the veto applies to the redefinition. -/
theorem first_def_guardrail_covers_all_defs_witness :
    ("x" ∈ (runCounter redefMod).first_def_names ↔ "x" ∈ allDefsStmtList redefMod) ∧
    (maybeDeleteStmt { plan := [(Cat.del, [1])], first_def_names := ["x"], cmp_keys := [] }
        (.assign (.cons (.name "x" true) .nil) (.const (.intC 2)))
        { initMState with seen_del := 1 }).1 =
      (.assign (.cons (.name "x" true) .nil) (.const (.intC 2))) :=
  ⟨first_def_guardrail_covers_all_defs.1 redefMod "x",
   first_def_guardrail_covers_all_defs.2
     { plan := [(Cat.del, [1])], first_def_names := ["x"], cmp_keys := [] }
     (.assign (.cons (.name "x" true) .nil) (.const (.intC 2)))
     { initMState with seen_del := 1 } "x" (by decide) (by decide)⟩

/-! Lookup plumbing for under-loop context segments. -/

theorem seg_left (A B CL : List Bool) (base : Nat)
    (H : ∀ j b, (A ++ B).get? j = some b → CL.get? (base + j) = some b) :
    ∀ j b, A.get? j = some b → CL.get? (base + j) = some b := by
  intro j b hj
  apply H
  have hlt : j < A.length := by
    by_contra hge
    rw [List.get?_eq_none.mpr (Nat.le_of_not_lt hge)] at hj
    exact Option.noConfusion hj
  rw [List.get?_append hlt]
  exact hj

theorem seg_right (A B CL : List Bool) (base : Nat)
    (H : ∀ j b, (A ++ B).get? j = some b → CL.get? (base + j) = some b) :
    ∀ j b, B.get? j = some b → CL.get? (base + A.length + j) = some b := by
  intro j b hj
  have h2 := H (A.length + j) b (by
    rw [List.get?_append_right (Nat.le_add_right _ _)]
    simpa using hj)
  rw [Nat.add_assoc]
  exact h2

theorem seg_tail (x : Bool) (A CL : List Bool) (base : Nat)
    (H : ∀ j b, (x :: A).get? j = some b → CL.get? (base + j) = some b) :
    ∀ j b, A.get? j = some b → CL.get? (base + 1 + j) = some b := by
  intro j b hj
  have h2 := H (j + 1) b (by simpa using hj)
  have he : base + (j + 1) = base + 1 + j := by omega
  rw [he] at h2
  exact h2

theorem seg_head (x : Bool) (A CL : List Bool) (base : Nat)
    (H : ∀ j b, (x :: A).get? j = some b → CL.get? (base + j) = some b) :
    CL.get? base = some x := by
  have h2 := H 0 x (by simp)
  simpa using h2

theorem keyseg_append_left (A B : List Bool) (base n : Nat)
    (h : ∃ j, n = base + j ∧ A.get? j = some false) :
    ∃ j, n = base + j ∧ (A ++ B).get? j = some false := by
  obtain ⟨j, hn, hj⟩ := h
  refine ⟨j, hn, ?_⟩
  have hlt : j < A.length := by
    by_contra hge
    rw [List.get?_eq_none.mpr (Nat.le_of_not_lt hge)] at hj
    exact Option.noConfusion hj
  rw [List.get?_append hlt]
  exact hj

theorem keyseg_append_right (A B : List Bool) (base n : Nat)
    (h : ∃ j, n = base + A.length + j ∧ B.get? j = some false) :
    ∃ j, n = base + j ∧ (A ++ B).get? j = some false := by
  obtain ⟨j, hn, hj⟩ := h
  refine ⟨A.length + j, by omega, ?_⟩
  rw [List.get?_append_right (Nat.le_add_right _ _)]
  simpa using hj

theorem keyseg_cons (x : Bool) (A : List Bool) (base n : Nat)
    (h : ∃ j, n = base + 1 + j ∧ A.get? j = some false) :
    ∃ j, n = base + j ∧ (x :: A).get? j = some false := by
  obtain ⟨j, hn, hj⟩ := h
  refine ⟨j + 1, by omega, ?_⟩
  simpa using hj

theorem keyseg_head (A : List Bool) (base : Nat) :
    ∃ j, base = base + j ∧ (false :: A).get? j = some false :=
  ⟨0, by omega, by simp⟩

/-! Pass-1 bookkeeping lemmas: the identity counter and eligibility keys. -/

theorem recordFirstDefs_keys : ∀ (names : List String) (c : CandidateCounter),
    (recordFirstDefs names c).cmp_keys = c.cmp_keys ∧
    (recordFirstDefs names c).nid = c.nid
  | [], c => ⟨rfl, rfl⟩
  | x :: rest, c => by
      by_cases hx : x ∈ c.seen_any_def
      · have heq : recordFirstDefs (x :: rest) c = recordFirstDefs rest c := by
          simp [recordFirstDefs, hx]
        rw [heq]
        exact recordFirstDefs_keys rest c
      · have heq : recordFirstDefs (x :: rest) c = recordFirstDefs rest
            { c with seen_any_def := c.seen_any_def ++ [x],
                     first_def_names := c.first_def_names ++ [x] } := by
          simp [recordFirstDefs, hx]
        rw [heq]
        exact recordFirstDefs_keys rest _

theorem recordCmpOps_state (myId : Nat) : ∀ (i : Nat) (p : CmpPairs) (c : CandidateCounter),
    (recordCmpOps myId i p c).nid = c.nid ∧
    ∀ n i', (n, i') ∈ (recordCmpOps myId i p c).cmp_keys →
      (n, i') ∈ c.cmp_keys ∨ n = myId
  | _, .nil, c => ⟨rfl, fun n i' h => Or.inl h⟩
  | i, .cons op e rest, c => by
      cases h : (CMP_NEGATION op).isSome with
      | true =>
          have ih := recordCmpOps_state myId (i + 1) rest
            { c with cmp_sites := c.cmp_sites ++ [(myId, i)],
                     cmp_keys := c.cmp_keys ++ [(myId, i)] }
          simp only [recordCmpOps, h, if_true]
          refine ⟨ih.1, fun n i' hk => ?_⟩
          rcases ih.2 n i' hk with hk2 | hk2
          · have : (n, i') ∈ c.cmp_keys ++ [(myId, i)] := hk2
            rcases List.mem_append.mp this with hk3 | hk3
            · exact Or.inl hk3
            · right
              have h4 := List.mem_singleton.mp hk3
              exact congrArg Prod.fst h4
          · exact Or.inr hk2
      | false =>
          have ih := recordCmpOps_state myId (i + 1) rest c
          simp only [recordCmpOps, h, Bool.false_eq_true, if_false]
          exact ih

/-! Length of the context list is the number of Compare nodes, whatever
the ambient flag. -/

mutual

theorem ctxExpr_len : ∀ (fl : Bool) (e : Expr), (ctxExpr fl e).length = nCmpExpr e
  | _, .name a s => rfl
  | _, .const v => rfl
  | fl, .binOp l op r => by
      simp [ctxExpr, nCmpExpr, ctxExpr_len fl l, ctxExpr_len fl r]
  | fl, .compare l p => by
      simp [ctxExpr, nCmpExpr, ctxExpr_len fl l, ctxPairs_len fl p]
      omega
  | fl, .call f a => by
      simp [ctxExpr, nCmpExpr, ctxExpr_len fl f, ctxExprList_len fl a]
  | fl, .tuple e s => by
      simp [ctxExpr, nCmpExpr, ctxExprList_len fl e]

theorem ctxPairs_len : ∀ (fl : Bool) (p : CmpPairs), (ctxPairs fl p).length = nCmpPairs p
  | _, .nil => rfl
  | fl, .cons op e rest => by
      simp [ctxPairs, nCmpPairs, ctxExpr_len fl e, ctxPairs_len fl rest]

theorem ctxExprList_len : ∀ (fl : Bool) (l : ExprList), (ctxExprList fl l).length = nCmpExprList l
  | _, .nil => rfl
  | fl, .cons e rest => by
      simp [ctxExprList, nCmpExprList, ctxExpr_len fl e, ctxExprList_len fl rest]

end

theorem ctxOptExpr_len (fl : Bool) : ∀ v : Option Expr, (ctxOptExpr fl v).length = nCmpOptExpr v
  | some v => ctxExpr_len fl v
  | none => rfl

mutual

theorem ctxStmt_len : ∀ (fl : Bool) (s : Stmt), (ctxStmt fl s).length = nCmpStmt s
  | fl, .assign t v => by
      simp [ctxStmt, nCmpStmt, ctxExprList_len fl t, ctxExpr_len fl v]
  | fl, .annAssign t a v => by
      simp [ctxStmt, nCmpStmt, ctxExpr_len fl t, ctxExpr_len fl a, ctxOptExpr_len fl v]
      omega
  | fl, .augAssign t op v => by
      simp [ctxStmt, nCmpStmt, ctxExpr_len fl t, ctxExpr_len fl v]
  | fl, .exprStmt v => by simp [ctxStmt, nCmpStmt, ctxExpr_len fl v]
  | fl, .ifStmt t b e => by
      simp [ctxStmt, nCmpStmt, ctxExpr_len fl t, ctxStmtList_len fl b, ctxStmtList_len fl e]
      omega
  | fl, .whileStmt t b e => by
      simp [ctxStmt, nCmpStmt, ctxExpr_len true t, ctxStmtList_len true b,
        ctxStmtList_len true e]
      omega
  | fl, .forStmt tg it b e => by
      simp [ctxStmt, nCmpStmt, ctxExpr_len true tg, ctxExpr_len true it,
        ctxStmtList_len true b, ctxStmtList_len true e]
      omega
  | fl, .ret v => by simp [ctxStmt, nCmpStmt, ctxOptExpr_len fl v]
  | fl, .pass => rfl
  | fl, .funcDef nm args b => by simp [ctxStmt, nCmpStmt, ctxStmtList_len fl b]

theorem ctxStmtList_len : ∀ (fl : Bool) (l : StmtList), (ctxStmtList fl l).length = nCmpStmtList l
  | _, .nil => rfl
  | fl, .cons s rest => by
      simp [ctxStmtList, nCmpStmtList, ctxStmt_len fl s, ctxStmtList_len fl rest]

end

/-! Where pass 1 places eligibility keys: every key added while
traversing a subtree points at a context-list position holding `false`
(a comparison not under any loop), and the identity counter advances by
the subtree's Compare count. -/

mutual

theorem countExpr_keys : ∀ (fl : Bool) (e : Expr) (c : CandidateCounter),
    (countExpr fl c e).nid = c.nid + nCmpExpr e ∧
    ∀ n i, (n, i) ∈ (countExpr fl c e).cmp_keys →
      (n, i) ∈ c.cmp_keys ∨ ∃ j, n = c.nid + j ∧ (ctxExpr fl e).get? j = some false
  | fl, .name a s, c => ⟨by simp [countExpr, nCmpExpr], fun n i h => Or.inl h⟩
  | fl, .const v, c => ⟨by simp [countExpr, nCmpExpr], fun n i h => Or.inl h⟩
  | fl, .binOp l op r, c => by
      have hb : ((if (BIN_SWAP op).isSome then { c with bin_sites := c.bin_sites + 1 }
          else c) : CandidateCounter).cmp_keys = c.cmp_keys ∧
          ((if (BIN_SWAP op).isSome then { c with bin_sites := c.bin_sites + 1 }
          else c) : CandidateCounter).nid = c.nid := by
        cases h : (BIN_SWAP op).isSome <;> simp [h]
      obtain ⟨ihl_nid, ihl_keys⟩ := countExpr_keys fl l
        (if (BIN_SWAP op).isSome then { c with bin_sites := c.bin_sites + 1 } else c)
      obtain ⟨ihr_nid, ihr_keys⟩ := countExpr_keys fl r
        (countExpr fl (if (BIN_SWAP op).isSome then { c with bin_sites := c.bin_sites + 1 }
          else c) l)
      simp only [countExpr]
      constructor
      · rw [ihr_nid, ihl_nid, hb.2, nCmpExpr]
        omega
      · intro n i hk
        rcases ihr_keys n i hk with hk2 | hseg
        · rcases ihl_keys n i hk2 with hk3 | hseg
          · exact Or.inl (hb.1 ▸ hk3)
          · right
            rw [hb.2] at hseg
            exact keyseg_append_left _ _ _ _ hseg
        · right
          rw [ihl_nid, hb.2] at hseg
          apply keyseg_append_right
          rw [ctxExpr_len fl l]
          exact hseg
  | fl, .compare l pairs, c => by
      cases fl with
      | true =>
          obtain ⟨ihl_nid, ihl_keys⟩ := countExpr_keys true l { c with nid := c.nid + 1 }
          obtain ⟨ihp_nid, ihp_keys⟩ := countCmpPairs_keys true pairs
            (countExpr true { c with nid := c.nid + 1 } l)
          simp only [countExpr, if_true]
          constructor
          · rw [ihp_nid, ihl_nid, nCmpExpr]
            simp
            omega
          · intro n i hk
            rcases ihp_keys n i hk with hk2 | hseg
            · rcases ihl_keys n i hk2 with hk3 | hseg
              · exact Or.inl hk3
              · right
                apply keyseg_cons
                exact keyseg_append_left _ _ _ _ hseg
            · right
              rw [ihl_nid] at hseg
              apply keyseg_cons
              apply keyseg_append_right
              rw [ctxExpr_len true l]
              have he : c.nid + 1 + nCmpExpr l = (c.nid + 1 : Nat) + nCmpExpr l := rfl
              simpa using hseg
      | false =>
          obtain ⟨hr_nid, hr_keys⟩ := recordCmpOps_state c.nid 0 pairs { c with nid := c.nid + 1 }
          obtain ⟨ihl_nid, ihl_keys⟩ := countExpr_keys false l
            (recordCmpOps c.nid 0 pairs { c with nid := c.nid + 1 })
          obtain ⟨ihp_nid, ihp_keys⟩ := countCmpPairs_keys false pairs
            (countExpr false (recordCmpOps c.nid 0 pairs { c with nid := c.nid + 1 }) l)
          simp only [countExpr, Bool.false_eq_true, if_false]
          constructor
          · rw [ihp_nid, ihl_nid, hr_nid, nCmpExpr]
            simp
            omega
          · intro n i hk
            rcases ihp_keys n i hk with hk2 | hseg
            · rcases ihl_keys n i hk2 with hk3 | hseg
              · rcases hr_keys n i hk3 with hk4 | hid
                · exact Or.inl hk4
                · right
                  subst hid
                  exact keyseg_head _ _
              · right
                rw [hr_nid] at hseg
                apply keyseg_cons
                exact keyseg_append_left _ _ _ _ hseg
            · right
              rw [ihl_nid, hr_nid] at hseg
              apply keyseg_cons
              apply keyseg_append_right
              rw [ctxExpr_len false l]
              simpa using hseg
  | fl, .call f args, c => by
      have hm : ((match f with
          | .name id _ => if (CALL_SWAP id).isSome
              then { c with call_sites := c.call_sites + 1 } else c
          | _ => c) : CandidateCounter).cmp_keys = c.cmp_keys ∧
          ((match f with
          | .name id _ => if (CALL_SWAP id).isSome
              then { c with call_sites := c.call_sites + 1 } else c
          | _ => c) : CandidateCounter).nid = c.nid := by
        cases f with
        | name id st => cases h : (CALL_SWAP id).isSome <;> simp [h]
        | const v => exact ⟨rfl, rfl⟩
        | binOp l2 op2 r2 => exact ⟨rfl, rfl⟩
        | compare l2 p2 => exact ⟨rfl, rfl⟩
        | call g a2 => exact ⟨rfl, rfl⟩
        | tuple e2 s2 => exact ⟨rfl, rfl⟩
      obtain ⟨ihf_nid, ihf_keys⟩ := countExpr_keys fl f _
      obtain ⟨iha_nid, iha_keys⟩ := countExprList_keys fl args _
      simp only [countExpr]
      constructor
      · rw [iha_nid, ihf_nid, hm.2, nCmpExpr]
        omega
      · intro n i hk
        rcases iha_keys n i hk with hk2 | hseg
        · rcases ihf_keys n i hk2 with hk3 | hseg
          · exact Or.inl (hm.1 ▸ hk3)
          · right
            rw [hm.2] at hseg
            exact keyseg_append_left _ _ _ _ hseg
        · right
          rw [ihf_nid, hm.2] at hseg
          apply keyseg_append_right
          rw [ctxExpr_len fl f]
          exact hseg
  | fl, .tuple elts store, c => by
      obtain ⟨ih_nid, ih_keys⟩ := countExprList_keys fl elts c
      simp only [countExpr]
      exact ⟨by rw [ih_nid]; rfl, ih_keys⟩

theorem countCmpPairs_keys : ∀ (fl : Bool) (p : CmpPairs) (c : CandidateCounter),
    (countCmpPairs fl c p).nid = c.nid + nCmpPairs p ∧
    ∀ n i, (n, i) ∈ (countCmpPairs fl c p).cmp_keys →
      (n, i) ∈ c.cmp_keys ∨ ∃ j, n = c.nid + j ∧ (ctxPairs fl p).get? j = some false
  | fl, .nil, c => ⟨by simp [countCmpPairs, nCmpPairs], fun n i h => Or.inl h⟩
  | fl, .cons op e rest, c => by
      obtain ⟨ihe_nid, ihe_keys⟩ := countExpr_keys fl e c
      obtain ⟨ihr_nid, ihr_keys⟩ := countCmpPairs_keys fl rest (countExpr fl c e)
      simp only [countCmpPairs]
      constructor
      · rw [ihr_nid, ihe_nid, nCmpPairs]
        omega
      · intro n i hk
        rcases ihr_keys n i hk with hk2 | hseg
        · rcases ihe_keys n i hk2 with hk3 | hseg
          · exact Or.inl hk3
          · exact Or.inr (keyseg_append_left _ _ _ _ hseg)
        · right
          rw [ihe_nid] at hseg
          apply keyseg_append_right
          rw [ctxExpr_len fl e]
          exact hseg

theorem countExprList_keys : ∀ (fl : Bool) (l : ExprList) (c : CandidateCounter),
    (countExprList fl c l).nid = c.nid + nCmpExprList l ∧
    ∀ n i, (n, i) ∈ (countExprList fl c l).cmp_keys →
      (n, i) ∈ c.cmp_keys ∨ ∃ j, n = c.nid + j ∧ (ctxExprList fl l).get? j = some false
  | fl, .nil, c => ⟨by simp [countExprList, nCmpExprList], fun n i h => Or.inl h⟩
  | fl, .cons e rest, c => by
      obtain ⟨ihe_nid, ihe_keys⟩ := countExpr_keys fl e c
      obtain ⟨ihr_nid, ihr_keys⟩ := countExprList_keys fl rest (countExpr fl c e)
      simp only [countExprList]
      constructor
      · rw [ihr_nid, ihe_nid, nCmpExprList]
        omega
      · intro n i hk
        rcases ihr_keys n i hk with hk2 | hseg
        · rcases ihe_keys n i hk2 with hk3 | hseg
          · exact Or.inl hk3
          · exact Or.inr (keyseg_append_left _ _ _ _ hseg)
        · right
          rw [ihe_nid] at hseg
          apply keyseg_append_right
          rw [ctxExpr_len fl e]
          exact hseg

end

mutual

theorem countStmt_keys : ∀ (fl : Bool) (s : Stmt) (c : CandidateCounter),
    (countStmt fl c s).nid = c.nid + nCmpStmt s ∧
    ∀ n i, (n, i) ∈ (countStmt fl c s).cmp_keys →
      (n, i) ∈ c.cmp_keys ∨ ∃ j, n = c.nid + j ∧ (ctxStmt fl s).get? j = some false
  | fl, .assign targets value, c => by
      obtain ⟨hr1, hr2⟩ :=
        recordFirstDefs_keys (names_defined_by_assign_stmt (.assign targets value)) c
      obtain ⟨iht_nid, iht_keys⟩ := countExprList_keys fl targets _
      obtain ⟨ihv_nid, ihv_keys⟩ := countExpr_keys fl value _
      simp only [countStmt]
      constructor
      · rw [ihv_nid, iht_nid]
        simp only [hr2, nCmpStmt]
        omega
      · intro n i hk
        rcases ihv_keys n i hk with hk2 | hseg
        · rcases iht_keys n i hk2 with hk3 | hseg
          · exact Or.inl (hr1 ▸ hk3)
          · right
            simp only [hr2] at hseg
            exact keyseg_append_left _ _ _ _ hseg
        · right
          rw [iht_nid] at hseg
          simp only [hr2] at hseg
          apply keyseg_append_right
          rw [ctxExprList_len fl targets]
          exact hseg
  | fl, .annAssign target ann value, c => by
      cases value with
      | some v =>
          obtain ⟨hr1, hr2⟩ := recordFirstDefs_keys
            (names_defined_by_assign_stmt (.annAssign target ann (some v))) c
          obtain ⟨iht_nid, iht_keys⟩ := countExpr_keys fl target _
          obtain ⟨iha_nid, iha_keys⟩ := countExpr_keys fl ann _
          obtain ⟨ihv_nid, ihv_keys⟩ := countExpr_keys fl v _
          simp only [countStmt]
          constructor
          · rw [ihv_nid, iha_nid, iht_nid]
            simp only [hr2, nCmpStmt, nCmpOptExpr]
            omega
          · intro n i hk
            rcases ihv_keys n i hk with hk2 | hseg
            · rcases iha_keys n i hk2 with hk3 | hseg
              · rcases iht_keys n i hk3 with hk4 | hseg
                · exact Or.inl (hr1 ▸ hk4)
                · right
                  simp only [hr2] at hseg
                  exact keyseg_append_left _ _ _ _
                    (keyseg_append_left _ _ _ _ hseg)
              · right
                rw [iht_nid] at hseg
                simp only [hr2] at hseg
                apply keyseg_append_left
                apply keyseg_append_right
                rw [ctxExpr_len fl target]
                exact hseg
            · right
              rw [iha_nid, iht_nid] at hseg
              simp only [hr2] at hseg
              apply keyseg_append_right
              rw [List.length_append, ctxExpr_len fl target, ctxExpr_len fl ann]
              obtain ⟨j, hj, hg⟩ := hseg
              exact ⟨j, by omega, by simpa [ctxOptExpr] using hg⟩
      | none =>
          obtain ⟨hr1, hr2⟩ := recordFirstDefs_keys
            (names_defined_by_assign_stmt (.annAssign target ann none)) c
          obtain ⟨iht_nid, iht_keys⟩ := countExpr_keys fl target _
          obtain ⟨iha_nid, iha_keys⟩ := countExpr_keys fl ann _
          simp only [countStmt]
          constructor
          · rw [iha_nid, iht_nid]
            simp only [hr2, nCmpStmt, nCmpOptExpr]
            omega
          · intro n i hk
            rcases iha_keys n i hk with hk2 | hseg
            · rcases iht_keys n i hk2 with hk3 | hseg
              · exact Or.inl (hr1 ▸ hk3)
              · right
                simp only [hr2] at hseg
                exact keyseg_append_left _ _ _ _
                  (keyseg_append_left _ _ _ _ hseg)
            · right
              rw [iht_nid] at hseg
              simp only [hr2] at hseg
              apply keyseg_append_left
              apply keyseg_append_right
              rw [ctxExpr_len fl target]
              exact hseg
  | fl, .augAssign target op value, c => by
      have hb : ((if (BIN_SWAP op).isSome then { c with bin_sites := c.bin_sites + 1 }
          else c) : CandidateCounter).cmp_keys = c.cmp_keys ∧
          ((if (BIN_SWAP op).isSome then { c with bin_sites := c.bin_sites + 1 }
          else c) : CandidateCounter).nid = c.nid := by
        cases h : (BIN_SWAP op).isSome <;> simp [h]
      obtain ⟨hr1, hr2⟩ :=
        recordFirstDefs_keys (names_defined_by_assign_stmt (.augAssign target op value))
          (if (BIN_SWAP op).isSome then { c with bin_sites := c.bin_sites + 1 } else c)
      obtain ⟨iht_nid, iht_keys⟩ := countExpr_keys fl target _
      obtain ⟨ihv_nid, ihv_keys⟩ := countExpr_keys fl value _
      simp only [countStmt]
      constructor
      · rw [ihv_nid, iht_nid]
        simp only [hr2, hb.2, nCmpStmt]
        omega
      · intro n i hk
        rcases ihv_keys n i hk with hk2 | hseg
        · rcases iht_keys n i hk2 with hk3 | hseg
          · exact Or.inl (hb.1 ▸ hr1 ▸ hk3)
          · right
            simp only [hr2, hb.2] at hseg
            exact keyseg_append_left _ _ _ _ hseg
        · right
          rw [iht_nid] at hseg
          simp only [hr2, hb.2] at hseg
          apply keyseg_append_right
          rw [ctxExpr_len fl target]
          exact hseg
  | fl, .exprStmt value, c => by
      have hm : ((match value with
          | .call f a => { c with del_sites := c.del_sites ++ [.exprStmt value] }
          | _ => c) : CandidateCounter).cmp_keys = c.cmp_keys ∧
          ((match value with
          | .call f a => { c with del_sites := c.del_sites ++ [.exprStmt value] }
          | _ => c) : CandidateCounter).nid = c.nid := by
        cases value <;> exact ⟨rfl, rfl⟩
      obtain ⟨ihv_nid, ihv_keys⟩ := countExpr_keys fl value _
      simp only [countStmt]
      constructor
      · rw [ihv_nid, hm.2]; rfl
      · intro n i hk
        rcases ihv_keys n i hk with hk2 | hseg
        · exact Or.inl (hm.1 ▸ hk2)
        · right
          rw [hm.2] at hseg
          exact hseg
  | fl, .ifStmt test body orelse, c => by
      have hb : ((if isBoolConst test then { c with bool_sites := c.bool_sites + 1 }
          else c) : CandidateCounter).cmp_keys = c.cmp_keys ∧
          ((if isBoolConst test then { c with bool_sites := c.bool_sites + 1 }
          else c) : CandidateCounter).nid = c.nid := by
        cases h : isBoolConst test <;> simp [h]
      obtain ⟨iht_nid, iht_keys⟩ := countExpr_keys fl test _
      obtain ⟨ihb_nid, ihb_keys⟩ := countStmtList_keys fl body _
      obtain ⟨iho_nid, iho_keys⟩ := countStmtList_keys fl orelse _
      simp only [countStmt]
      constructor
      · rw [iho_nid, ihb_nid, iht_nid]
        simp only [hb.2, nCmpStmt]
        omega
      · intro n i hk
        rcases iho_keys n i hk with hk2 | hseg
        · rcases ihb_keys n i hk2 with hk3 | hseg
          · rcases iht_keys n i hk3 with hk4 | hseg
            · exact Or.inl (hb.1 ▸ hk4)
            · right
              simp only [hb.2] at hseg
              exact keyseg_append_left _ _ _ _
                (keyseg_append_left _ _ _ _ hseg)
          · right
            rw [iht_nid] at hseg
            simp only [hb.2] at hseg
            apply keyseg_append_left
            apply keyseg_append_right
            rw [ctxExpr_len fl test]
            exact hseg
        · right
          rw [ihb_nid, iht_nid] at hseg
          simp only [hb.2] at hseg
          apply keyseg_append_right
          rw [List.length_append, ctxExpr_len fl test, ctxStmtList_len fl body]
          obtain ⟨j, hj, hg⟩ := hseg
          exact ⟨j, by omega, hg⟩
  | fl, .whileStmt test body orelse, c => by
      have hb : ((if isBoolConst test then { c with bool_sites := c.bool_sites + 1 }
          else c) : CandidateCounter).cmp_keys = c.cmp_keys ∧
          ((if isBoolConst test then { c with bool_sites := c.bool_sites + 1 }
          else c) : CandidateCounter).nid = c.nid := by
        cases h : isBoolConst test <;> simp [h]
      obtain ⟨iht_nid, iht_keys⟩ := countExpr_keys true test _
      obtain ⟨ihb_nid, ihb_keys⟩ := countStmtList_keys true body _
      obtain ⟨iho_nid, iho_keys⟩ := countStmtList_keys true orelse _
      simp only [countStmt]
      constructor
      · rw [iho_nid, ihb_nid, iht_nid]
        simp only [hb.2, nCmpStmt]
        omega
      · intro n i hk
        rcases iho_keys n i hk with hk2 | hseg
        · rcases ihb_keys n i hk2 with hk3 | hseg
          · rcases iht_keys n i hk3 with hk4 | hseg
            · exact Or.inl (hb.1 ▸ hk4)
            · right
              simp only [hb.2] at hseg
              exact keyseg_append_left _ _ _ _
                (keyseg_append_left _ _ _ _ hseg)
          · right
            rw [iht_nid] at hseg
            simp only [hb.2] at hseg
            apply keyseg_append_left
            apply keyseg_append_right
            rw [ctxExpr_len true test]
            exact hseg
        · right
          rw [ihb_nid, iht_nid] at hseg
          simp only [hb.2] at hseg
          apply keyseg_append_right
          rw [List.length_append, ctxExpr_len true test, ctxStmtList_len true body]
          obtain ⟨j, hj, hg⟩ := hseg
          exact ⟨j, by omega, hg⟩
  | fl, .forStmt target iter body orelse, c => by
      obtain ⟨iht_nid, iht_keys⟩ := countExpr_keys true target c
      obtain ⟨ihi_nid, ihi_keys⟩ := countExpr_keys true iter _
      obtain ⟨ihb_nid, ihb_keys⟩ := countStmtList_keys true body _
      obtain ⟨iho_nid, iho_keys⟩ := countStmtList_keys true orelse _
      simp only [countStmt]
      constructor
      · rw [iho_nid, ihb_nid, ihi_nid, iht_nid, nCmpStmt]
        omega
      · intro n i hk
        rcases iho_keys n i hk with hk2 | hseg
        · rcases ihb_keys n i hk2 with hk3 | hseg
          · rcases ihi_keys n i hk3 with hk4 | hseg
            · rcases iht_keys n i hk4 with hk5 | hseg
              · exact Or.inl hk5
              · right
                exact keyseg_append_left _ _ _ _ (keyseg_append_left _ _ _ _
                  (keyseg_append_left _ _ _ _ hseg))
            · right
              rw [iht_nid] at hseg
              apply keyseg_append_left
              apply keyseg_append_left
              apply keyseg_append_right
              rw [ctxExpr_len true target]
              exact hseg
          · right
            rw [ihi_nid, iht_nid] at hseg
            apply keyseg_append_left
            apply keyseg_append_right
            rw [List.length_append, ctxExpr_len true target, ctxExpr_len true iter]
            obtain ⟨j, hj, hg⟩ := hseg
            exact ⟨j, by omega, hg⟩
        · right
          rw [ihb_nid, ihi_nid, iht_nid] at hseg
          apply keyseg_append_right
          rw [List.length_append, List.length_append, ctxExpr_len true target,
            ctxExpr_len true iter, ctxStmtList_len true body]
          obtain ⟨j, hj, hg⟩ := hseg
          exact ⟨j, by omega, hg⟩
  | fl, .ret value, c => by
      cases value with
      | some v =>
          obtain ⟨ihv_nid, ihv_keys⟩ := countExpr_keys fl v c
          simp only [countStmt]
          exact ⟨by rw [ihv_nid]; rfl, ihv_keys⟩
      | none =>
          simp only [countStmt]
          exact ⟨by simp [nCmpStmt, nCmpOptExpr], fun n i h => Or.inl h⟩
  | fl, .pass, c => by
      simp only [countStmt]
      exact ⟨by simp [nCmpStmt], fun n i h => Or.inl h⟩
  | fl, .funcDef nm args body, c => by
      obtain ⟨ih_nid, ih_keys⟩ := countStmtList_keys fl body c
      simp only [countStmt]
      exact ⟨by rw [ih_nid]; rfl, ih_keys⟩

theorem countStmtList_keys : ∀ (fl : Bool) (l : StmtList) (c : CandidateCounter),
    (countStmtList fl c l).nid = c.nid + nCmpStmtList l ∧
    ∀ n i, (n, i) ∈ (countStmtList fl c l).cmp_keys →
      (n, i) ∈ c.cmp_keys ∨ ∃ j, n = c.nid + j ∧ (ctxStmtList fl l).get? j = some false
  | fl, .nil, c => ⟨by simp [countStmtList, nCmpStmtList], fun n i h => Or.inl h⟩
  | fl, .cons s rest, c => by
      obtain ⟨ihs_nid, ihs_keys⟩ := countStmt_keys fl s c
      obtain ⟨ihr_nid, ihr_keys⟩ := countStmtList_keys fl rest (countStmt fl c s)
      simp only [countStmtList]
      constructor
      · rw [ihr_nid, ihs_nid, nCmpStmtList]
        omega
      · intro n i hk
        rcases ihr_keys n i hk with hk2 | hseg
        · rcases ihs_keys n i hk2 with hk3 | hseg
          · exact Or.inl hk3
          · exact Or.inr (keyseg_append_left _ _ _ _ hseg)
        · right
          rw [ihs_nid] at hseg
          apply keyseg_append_right
          rw [ctxStmt_len fl s]
          exact hseg

end

/-- Every eligibility key pass 1 records points at a context-list entry
that is false: keyed comparisons are not under any loop. -/
theorem runCounter_keys_not_under_loop (m : StmtList) (n i : Nat)
    (h : (n, i) ∈ (runCounter m).cmp_keys) : (ctxModule m).get? n = some false := by
  have hk := (countStmtList_keys false m initCounter).2 n i h
  rcases hk with hk | ⟨j, hj, hget⟩
  · simp [initCounter] at hk
  · have : n = j := by simpa [initCounter] using hj
    subst this
    exact hget

/-- Witness for C8: the veto at a concrete statement, plan and state. -/
theorem guardrail_veto_behavior_witness :
    (maybeDeleteStmt { plan := [(Cat.del, [0])], first_def_names := ["x"], cmp_keys := [] }
        (.assign (.cons (.name "x" true) .nil) (.const (.intC 1))) initMState).1 =
      (.assign (.cons (.name "x" true) .nil) (.const (.intC 1))) ∧
    (maybeDeleteStmt { plan := [(Cat.del, [0])], first_def_names := ["x"], cmp_keys := [] }
        (.assign (.cons (.name "x" true) .nil) (.const (.intC 1))) initMState).2.seen_del = 1 :=
  guardrail_veto_behavior.1
    { plan := [(Cat.del, [0])], first_def_names := ["x"], cmp_keys := [] }
    (.assign (.cons (.name "x" true) .nil) (.const (.intC 1))) initMState
    (by decide) ⟨"x", by decide, by decide⟩

/-! Loop-safety machinery: the pair-diff of a tree with itself vanishes. -/

mutual

theorem ldExpr_self : ∀ (fl : Bool) (e : Expr), ldExpr fl e e = 0
  | fl, .name a s => by simp [ldExpr]
  | fl, .const v => by simp [ldExpr]
  | fl, .binOp l op r => by simp [ldExpr, ldExpr_self fl l, ldExpr_self fl r]
  | fl, .compare l p => by simp [ldExpr, ldExpr_self fl l, ldPairs_self fl p]
  | fl, .call f a => by simp [ldExpr, ldExpr_self fl f, ldExprList_self fl a]
  | fl, .tuple e s => by simp [ldExpr, ldExprList_self fl e]

theorem ldPairs_self : ∀ (fl : Bool) (p : CmpPairs), ldPairs fl p p = 0
  | fl, .nil => by simp [ldPairs]
  | fl, .cons op e r => by simp [ldPairs, ldExpr_self fl e, ldPairs_self fl r]

theorem ldExprList_self : ∀ (fl : Bool) (l : ExprList), ldExprList fl l l = 0
  | fl, .nil => by simp [ldExprList]
  | fl, .cons e r => by simp [ldExprList, ldExpr_self fl e, ldExprList_self fl r]

end

theorem ldOptExpr_self (fl : Bool) : ∀ v : Option Expr, ldOptExpr fl v v = 0
  | some v => by simp [ldOptExpr, ldExpr_self fl v]
  | none => by simp [ldOptExpr]

mutual

theorem ldStmt_self : ∀ (fl : Bool) (s : Stmt), ldStmt fl s s = 0
  | fl, .assign t v => by simp [ldStmt, ldExprList_self fl t, ldExpr_self fl v]
  | fl, .annAssign t a v => by
      simp [ldStmt, ldExpr_self fl t, ldExpr_self fl a, ldOptExpr_self fl v]
  | fl, .augAssign t op v => by simp [ldStmt, ldExpr_self fl t, ldExpr_self fl v]
  | fl, .exprStmt v => by simp [ldStmt, ldExpr_self fl v]
  | fl, .ifStmt t b e => by
      simp [ldStmt, ldExpr_self fl t, ldStmtList_self fl b, ldStmtList_self fl e]
  | fl, .whileStmt t b e => by
      simp [ldStmt, ldExpr_self true t, ldStmtList_self true b, ldStmtList_self true e]
  | fl, .forStmt tg it b e => by
      simp [ldStmt, ldExpr_self true tg, ldExpr_self true it, ldStmtList_self true b,
        ldStmtList_self true e]
  | fl, .ret v => by simp [ldStmt, ldOptExpr_self fl v]
  | fl, .pass => by simp [ldStmt]
  | fl, .funcDef n a b => by simp [ldStmt, ldStmtList_self fl b]

theorem ldStmtList_self : ∀ (fl : Bool) (l : StmtList), ldStmtList fl l l = 0
  | fl, .nil => by simp [ldStmtList]
  | fl, .cons s r => by simp [ldStmtList, ldStmt_self fl s, ldStmtList_self fl r]

end

/-! Diffs against degenerate right-hand shapes vanish. -/

theorem ldExpr_to_name (fl : Bool) (a : String) (st : Bool) :
    ∀ e : Expr, ldExpr fl e (.name a st) = 0
  | .name _ _ => rfl
  | .const _ => rfl
  | .binOp _ _ _ => rfl
  | .compare _ _ => rfl
  | .call _ _ => rfl
  | .tuple _ _ => rfl

theorem ldExpr_to_const (fl : Bool) (v : Const) :
    ∀ e : Expr, ldExpr fl e (.const v) = 0
  | .name _ _ => rfl
  | .const _ => rfl
  | .binOp _ _ _ => rfl
  | .compare _ _ => rfl
  | .call _ _ => rfl
  | .tuple _ _ => rfl

theorem ldStmt_to_pass (fl : Bool) : ∀ s : Stmt, ldStmt fl s .pass = 0
  | .assign _ _ => rfl
  | .annAssign _ _ _ => rfl
  | .augAssign _ _ _ => rfl
  | .exprStmt _ => rfl
  | .ifStmt _ _ _ => rfl
  | .whileStmt _ _ _ => rfl
  | .forStmt _ _ _ _ => rfl
  | .ret _ => rfl
  | .pass => rfl
  | .funcDef _ _ _ => rfl

/-! Transport of a context-segment agreement hypothesis across list
concatenation and cons. -/

theorem ssub_left (CL A B : List Bool) (base : Nat)
    (h : ∀ j, j < (A ++ B).length → CL.get? (base + j) = (A ++ B).get? j) :
    ∀ j, j < A.length → CL.get? (base + j) = A.get? j := by
  intro j hj
  rw [h j (by simp; omega)]
  exact List.get?_append hj

theorem ssub_right (CL A B : List Bool) (base : Nat)
    (h : ∀ j, j < (A ++ B).length → CL.get? (base + j) = (A ++ B).get? j) :
    ∀ j, j < B.length → CL.get? (base + A.length + j) = B.get? j := by
  intro j hj
  have h2 := h (A.length + j) (by simp; omega)
  rw [List.get?_append_right (by omega)] at h2
  simpa [Nat.add_assoc] using h2

theorem ssub_tail (CL : List Bool) (x : Bool) (A : List Bool) (base : Nat)
    (h : ∀ j, j < (x :: A).length → CL.get? (base + j) = (x :: A).get? j) :
    ∀ j, j < A.length → CL.get? (base + 1 + j) = A.get? j := by
  intro j hj
  have h2 := h (j + 1) (by simp; omega)
  have he : base + (j + 1) = base + 1 + j := by omega
  rw [he] at h2
  simpa using h2

theorem ssub_head (CL : List Bool) (x : Bool) (A : List Bool) (base : Nat)
    (h : ∀ j, j < (x :: A).length → CL.get? (base + j) = (x :: A).get? j) :
    CL.get? base = some x := by
  have h2 := h 0 (by simp)
  simpa using h2

/-! State bookkeeping of the deletion path and the operator loop. -/

theorem maybeDeleteStmt_cases (ctx : MCtx) (node : Stmt) (σ : MState) :
    ((maybeDeleteStmt ctx node σ).1 = node ∨ (maybeDeleteStmt ctx node σ).1 = .pass) ∧
    (maybeDeleteStmt ctx node σ).2.nid = σ.nid := by
  cases hsel : planSelects ctx.plan .del σ.seen_del with
  | false => simp [maybeDeleteStmt, hsel]
  | true =>
      by_cases hany : ∃ x ∈ names_defined_by_assign_stmt node, x ∈ ctx.first_def_names
      · simp [maybeDeleteStmt, hsel, hany]
      · simp [maybeDeleteStmt, hsel, hany]

theorem mutCmpOps_nid (ctx : MCtx) (myId : Nat) :
    ∀ (i : Nat) (p : CmpPairs) (σ : MState), (mutCmpOps ctx myId i p σ).2.nid = σ.nid
  | i, .nil, σ => rfl
  | i, .cons op e rest, σ => by
      cases hn : CMP_NEGATION op with
      | none => simpa [mutCmpOps, hn] using mutCmpOps_nid ctx myId (i + 1) rest σ
      | some negOp =>
          by_cases hm : (myId, i) ∈ ctx.cmp_keys
          · simpa [mutCmpOps, hn, hm] using
              mutCmpOps_nid ctx myId (i + 1) rest { σ with seen_cmp := σ.seen_cmp + 1 }
          · simpa [mutCmpOps, hn, hm] using mutCmpOps_nid ctx myId (i + 1) rest σ

theorem mutCmpOps_skip (ctx : MCtx) (myId : Nat)
    (h : ∀ i, (myId, i) ∉ ctx.cmp_keys) :
    ∀ (i : Nat) (p : CmpPairs) (σ : MState), mutCmpOps ctx myId i p σ = (p, σ)
  | i, .nil, σ => rfl
  | i, .cons op e rest, σ => by
      cases hn : CMP_NEGATION op with
      | none => simp [mutCmpOps, hn, mutCmpOps_skip ctx myId h (i + 1) rest σ]
      | some negOp => simp [mutCmpOps, hn, h i, mutCmpOps_skip ctx myId h (i + 1) rest σ]

theorem ldPairs_ops_irrel (ctx : MCtx) (myId : Nat) :
    ∀ (q : CmpPairs) (p : CmpPairs) (i : Nat) (σ : MState),
      ldPairs false p (mutCmpOps ctx myId i q σ).1 = ldPairs false p q
  | .nil, p, i, σ => rfl
  | .cons op e rest, p, i, σ => by
      cases p with
      | nil =>
          cases hn : CMP_NEGATION op with
          | none => simp [mutCmpOps, hn, ldPairs]
          | some negOp =>
              by_cases hm : (myId, i) ∈ ctx.cmp_keys
              · simp [mutCmpOps, hn, hm, ldPairs]
              · simp [mutCmpOps, hn, hm, ldPairs]
      | cons op0 e0 r0 =>
          cases hn : CMP_NEGATION op with
          | none =>
              simp [mutCmpOps, hn, ldPairs, ldPairs_ops_irrel ctx myId rest r0 (i + 1) σ]
          | some negOp =>
              by_cases hm : (myId, i) ∈ ctx.cmp_keys
              · simp [mutCmpOps, hn, hm, ldPairs,
                  ldPairs_ops_irrel ctx myId rest r0 (i + 1)
                    { σ with seen_cmp := σ.seen_cmp + 1 }]
              · simp [mutCmpOps, hn, hm, ldPairs,
                  ldPairs_ops_irrel ctx myId rest r0 (i + 1) σ]

/-! Fixup tails preserve `nid` and introduce no loop-flagged comparison
operator change. -/

theorem callSwapFix_state (ctx : MCtx) (f' : Expr) (args' : ExprList) (σ : MState) :
    (callSwapFix ctx f' args' σ).2.nid = σ.nid ∧
    ∀ (fl : Bool) (f : Expr) (args : ExprList),
      ldExpr fl f f' = 0 → ldExprList fl args args' = 0 →
      ldExpr fl (.call f args) (callSwapFix ctx f' args' σ).1 = 0 := by
  cases f' with
  | name id st =>
      cases hsw : CALL_SWAP id with
      | some other =>
          refine ⟨by simp [callSwapFix, hsw], ?_⟩
          intro fl f args h1 h2
          simp [callSwapFix, hsw, ldExpr, ldExpr_to_name, h2]
      | none =>
          refine ⟨by simp [callSwapFix, hsw], ?_⟩
          intro fl f args h1 h2
          simp [callSwapFix, hsw, ldExpr, h1, h2]
  | const v =>
      exact ⟨rfl, fun fl f args h1 h2 => by simp [callSwapFix, ldExpr, h1, h2]⟩
  | binOp l op r =>
      exact ⟨rfl, fun fl f args h1 h2 => by simp [callSwapFix, ldExpr, h1, h2]⟩
  | compare l p =>
      exact ⟨rfl, fun fl f args h1 h2 => by simp [callSwapFix, ldExpr, h1, h2]⟩
  | call g a =>
      exact ⟨rfl, fun fl f args h1 h2 => by simp [callSwapFix, ldExpr, h1, h2]⟩
  | tuple e st =>
      exact ⟨rfl, fun fl f args h1 h2 => by simp [callSwapFix, ldExpr, h1, h2]⟩

theorem ifTestFix_state (ctx : MCtx) (test' : Expr) (body' orelse' : StmtList) (σ : MState) :
    (ifTestFix ctx test' body' orelse' σ).2.nid = σ.nid ∧
    ∀ (fl : Bool) (test : Expr) (body orelse : StmtList),
      ldExpr fl test test' = 0 → ldStmtList fl body body' = 0 →
      ldStmtList fl orelse orelse' = 0 →
      ldStmt fl (.ifStmt test body orelse) (ifTestFix ctx test' body' orelse' σ).1 = 0 := by
  cases test' with
  | const v =>
      cases v with
      | boolC b =>
          refine ⟨by simp [ifTestFix], ?_⟩
          intro fl test body orelse h1 h2 h3
          simp [ifTestFix, ldStmt, ldExpr_to_const, h2, h3]
      | intC n =>
          exact ⟨rfl, fun fl t b e h1 h2 h3 => by simp [ifTestFix, ldStmt, h1, h2, h3]⟩
      | strC a =>
          exact ⟨rfl, fun fl t b e h1 h2 h3 => by simp [ifTestFix, ldStmt, h1, h2, h3]⟩
      | noneC =>
          exact ⟨rfl, fun fl t b e h1 h2 h3 => by simp [ifTestFix, ldStmt, h1, h2, h3]⟩
  | name a st =>
      exact ⟨rfl, fun fl t b e h1 h2 h3 => by simp [ifTestFix, ldStmt, h1, h2, h3]⟩
  | binOp l op r =>
      exact ⟨rfl, fun fl t b e h1 h2 h3 => by simp [ifTestFix, ldStmt, h1, h2, h3]⟩
  | compare l p =>
      exact ⟨rfl, fun fl t b e h1 h2 h3 => by simp [ifTestFix, ldStmt, h1, h2, h3]⟩
  | call f ar =>
      exact ⟨rfl, fun fl t b e h1 h2 h3 => by simp [ifTestFix, ldStmt, h1, h2, h3]⟩
  | tuple e2 st =>
      exact ⟨rfl, fun fl t b e h1 h2 h3 => by simp [ifTestFix, ldStmt, h1, h2, h3]⟩

theorem whileTestFix_state (ctx : MCtx) (test' : Expr) (body' orelse' : StmtList) (σ : MState) :
    (whileTestFix ctx test' body' orelse' σ).2.nid = σ.nid ∧
    ∀ (fl : Bool) (test : Expr) (body orelse : StmtList),
      ldExpr true test test' = 0 → ldStmtList true body body' = 0 →
      ldStmtList true orelse orelse' = 0 →
      ldStmt fl (.whileStmt test body orelse) (whileTestFix ctx test' body' orelse' σ).1 = 0 := by
  cases test' with
  | const v =>
      cases v with
      | boolC b =>
          refine ⟨by simp [whileTestFix], ?_⟩
          intro fl test body orelse h1 h2 h3
          simp [whileTestFix, ldStmt, ldExpr_to_const, h2, h3]
      | intC n =>
          exact ⟨rfl, fun fl t b e h1 h2 h3 => by simp [whileTestFix, ldStmt, h1, h2, h3]⟩
      | strC a =>
          exact ⟨rfl, fun fl t b e h1 h2 h3 => by simp [whileTestFix, ldStmt, h1, h2, h3]⟩
      | noneC =>
          exact ⟨rfl, fun fl t b e h1 h2 h3 => by simp [whileTestFix, ldStmt, h1, h2, h3]⟩
  | name a st =>
      exact ⟨rfl, fun fl t b e h1 h2 h3 => by simp [whileTestFix, ldStmt, h1, h2, h3]⟩
  | binOp l op r =>
      exact ⟨rfl, fun fl t b e h1 h2 h3 => by simp [whileTestFix, ldStmt, h1, h2, h3]⟩
  | compare l p =>
      exact ⟨rfl, fun fl t b e h1 h2 h3 => by simp [whileTestFix, ldStmt, h1, h2, h3]⟩
  | call f ar =>
      exact ⟨rfl, fun fl t b e h1 h2 h3 => by simp [whileTestFix, ldStmt, h1, h2, h3]⟩
  | tuple e2 st =>
      exact ⟨rfl, fun fl t b e h1 h2 h3 => by simp [whileTestFix, ldStmt, h1, h2, h3]⟩

/-! The loop-safety induction, expression level: along a traversal whose
context segment of the global flag list marks the enclosing loop status
of every Compare identity, the rewriter advances `nid` like the counter
and changes no comparison operator of a loop-flagged Compare node. -/

mutual

theorem mutExpr_loopsafe (ctx : MCtx) (CL : List Bool)
    (HK : ∀ n i, (n, i) ∈ ctx.cmp_keys → CL.get? n = some false) :
    ∀ (fl : Bool) (e : Expr) (σ : MState),
      (∀ j, j < (ctxExpr fl e).length → CL.get? (σ.nid + j) = (ctxExpr fl e).get? j) →
      (mutExpr ctx e σ).2.nid = σ.nid + nCmpExpr e ∧
      ldExpr fl e (mutExpr ctx e σ).1 = 0
  | fl, .name a s, σ => fun _ =>
      ⟨by simp [mutExpr, nCmpExpr], by simp [mutExpr, ldExpr]⟩
  | fl, .const v, σ => fun _ =>
      ⟨by simp [mutExpr, nCmpExpr], by simp [mutExpr, ldExpr]⟩
  | fl, .binOp l op r, σ => by
      intro Hseg
      simp only [ctxExpr] at Hseg
      have ihl := mutExpr_loopsafe ctx CL HK fl l σ (ssub_left _ _ _ _ Hseg)
      rcases h1 : mutExpr ctx l σ with ⟨l', σ₁⟩
      rw [h1] at ihl; dsimp only at ihl
      obtain ⟨nl, dl⟩ := ihl
      have Hr0 := ssub_right CL _ _ _ Hseg
      rw [ctxExpr_len fl l] at Hr0
      have ihr := mutExpr_loopsafe ctx CL HK fl r σ₁ (by rw [nl]; exact Hr0)
      rcases h2 : mutExpr ctx r σ₁ with ⟨r', σ₂⟩
      rw [h2] at ihr; dsimp only at ihr
      obtain ⟨nr, dr⟩ := ihr
      cases hbs : BIN_SWAP op with
      | none =>
          simp only [mutExpr, h1, h2, hbs]
          exact ⟨by simp only [nCmpExpr]; omega, by simp [ldExpr, dl, dr]⟩
      | some sw =>
          simp only [mutExpr, h1, h2, hbs]
          exact ⟨by simp only [nCmpExpr]; omega, by simp [ldExpr, dl, dr]⟩
  | fl, .compare l pairs, σ => by
      intro Hseg
      simp only [ctxExpr] at Hseg
      have hhead := ssub_head CL fl _ σ.nid Hseg
      have Htail := ssub_tail CL fl _ σ.nid Hseg
      have ihl := mutExpr_loopsafe ctx CL HK fl l { σ with nid := σ.nid + 1 }
        (ssub_left _ _ _ _ Htail)
      rcases h1 : mutExpr ctx l { σ with nid := σ.nid + 1 } with ⟨l', σ₁⟩
      rw [h1] at ihl; dsimp only at ihl
      obtain ⟨nl, dl⟩ := ihl
      have nl' : σ₁.nid = σ.nid + 1 + nCmpExpr l := by simpa using nl
      have Hp0 := ssub_right CL _ _ _ Htail
      rw [ctxExpr_len fl l] at Hp0
      have ihp := mutCmpComparators_loopsafe ctx CL HK fl pairs σ₁ (by rw [nl']; exact Hp0)
      rcases h2 : mutCmpComparators ctx pairs σ₁ with ⟨pairs₁, σ₂⟩
      rw [h2] at ihp; dsimp only at ihp
      obtain ⟨np, dp⟩ := ihp
      cases fl with
      | true =>
          have hnotin : ∀ i, (σ.nid, i) ∉ ctx.cmp_keys := by
            intro i hmem
            have hf := HK σ.nid i hmem
            rw [hhead] at hf
            simp at hf
          have hskip := mutCmpOps_skip ctx σ.nid hnotin 0 pairs₁ σ₂
          simp only [mutExpr, h1, h2, hskip]
          exact ⟨by simp only [nCmpExpr]; omega, by simp [ldExpr, dl, dp]⟩
      | false =>
          rcases h3 : mutCmpOps ctx σ.nid 0 pairs₁ σ₂ with ⟨pairs₂, σ₃⟩
          have hn3 : σ₃.nid = σ₂.nid := by
            have h := mutCmpOps_nid ctx σ.nid 0 pairs₁ σ₂
            rw [h3] at h; exact h
          have hld : ldPairs false pairs pairs₂ = 0 := by
            have h := ldPairs_ops_irrel ctx σ.nid pairs₁ pairs 0 σ₂
            rw [h3] at h; dsimp only at h
            exact h.trans dp
          simp only [mutExpr, h1, h2, h3]
          exact ⟨by simp only [nCmpExpr]; omega, by simp [ldExpr, dl, hld]⟩
  | fl, .call f args, σ => by
      intro Hseg
      simp only [ctxExpr] at Hseg
      have ihf := mutExpr_loopsafe ctx CL HK fl f σ (ssub_left _ _ _ _ Hseg)
      rcases h1 : mutExpr ctx f σ with ⟨f', σ₁⟩
      rw [h1] at ihf; dsimp only at ihf
      obtain ⟨nf, df⟩ := ihf
      have Ha0 := ssub_right CL _ _ _ Hseg
      rw [ctxExpr_len fl f] at Ha0
      have iha := mutExprList_loopsafe ctx CL HK fl args σ₁ (by rw [nf]; exact Ha0)
      rcases h2 : mutExprList ctx args σ₁ with ⟨args', σ₂⟩
      rw [h2] at iha; dsimp only at iha
      obtain ⟨na, da⟩ := iha
      have hfix := callSwapFix_state ctx f' args' σ₂
      rcases h3 : callSwapFix ctx f' args' σ₂ with ⟨res, σ₃⟩
      rw [h3] at hfix; dsimp only at hfix
      obtain ⟨hn3, hld3⟩ := hfix
      simp only [mutExpr, h1, h2, h3]
      exact ⟨by simp only [nCmpExpr]; omega, hld3 fl f args df da⟩
  | fl, .tuple elts store, σ => by
      intro Hseg
      simp only [ctxExpr] at Hseg
      have ihe := mutExprList_loopsafe ctx CL HK fl elts σ Hseg
      rcases h1 : mutExprList ctx elts σ with ⟨elts', σ₁⟩
      rw [h1] at ihe; dsimp only at ihe
      obtain ⟨ne, de⟩ := ihe
      simp only [mutExpr, h1]
      exact ⟨by simp only [nCmpExpr]; omega, by simp [ldExpr, de]⟩

theorem mutCmpComparators_loopsafe (ctx : MCtx) (CL : List Bool)
    (HK : ∀ n i, (n, i) ∈ ctx.cmp_keys → CL.get? n = some false) :
    ∀ (fl : Bool) (p : CmpPairs) (σ : MState),
      (∀ j, j < (ctxPairs fl p).length → CL.get? (σ.nid + j) = (ctxPairs fl p).get? j) →
      (mutCmpComparators ctx p σ).2.nid = σ.nid + nCmpPairs p ∧
      ldPairs fl p (mutCmpComparators ctx p σ).1 = 0
  | fl, .nil, σ => fun _ =>
      ⟨by simp [mutCmpComparators, nCmpPairs], by simp [mutCmpComparators, ldPairs]⟩
  | fl, .cons op e rest, σ => by
      intro Hseg
      simp only [ctxPairs] at Hseg
      have ihe := mutExpr_loopsafe ctx CL HK fl e σ (ssub_left _ _ _ _ Hseg)
      rcases h1 : mutExpr ctx e σ with ⟨e', σ₁⟩
      rw [h1] at ihe; dsimp only at ihe
      obtain ⟨ne, de⟩ := ihe
      have Hr0 := ssub_right CL _ _ _ Hseg
      rw [ctxExpr_len fl e] at Hr0
      have ihr := mutCmpComparators_loopsafe ctx CL HK fl rest σ₁ (by rw [ne]; exact Hr0)
      rcases h2 : mutCmpComparators ctx rest σ₁ with ⟨rest', σ₂⟩
      rw [h2] at ihr; dsimp only at ihr
      obtain ⟨nr, dr⟩ := ihr
      simp only [mutCmpComparators, h1, h2]
      exact ⟨by simp only [nCmpPairs]; omega, by simp [ldPairs, de, dr]⟩

theorem mutExprList_loopsafe (ctx : MCtx) (CL : List Bool)
    (HK : ∀ n i, (n, i) ∈ ctx.cmp_keys → CL.get? n = some false) :
    ∀ (fl : Bool) (l : ExprList) (σ : MState),
      (∀ j, j < (ctxExprList fl l).length → CL.get? (σ.nid + j) = (ctxExprList fl l).get? j) →
      (mutExprList ctx l σ).2.nid = σ.nid + nCmpExprList l ∧
      ldExprList fl l (mutExprList ctx l σ).1 = 0
  | fl, .nil, σ => fun _ =>
      ⟨by simp [mutExprList, nCmpExprList], by simp [mutExprList, ldExprList]⟩
  | fl, .cons e rest, σ => by
      intro Hseg
      simp only [ctxExprList] at Hseg
      have ihe := mutExpr_loopsafe ctx CL HK fl e σ (ssub_left _ _ _ _ Hseg)
      rcases h1 : mutExpr ctx e σ with ⟨e', σ₁⟩
      rw [h1] at ihe; dsimp only at ihe
      obtain ⟨ne, de⟩ := ihe
      have Hr0 := ssub_right CL _ _ _ Hseg
      rw [ctxExpr_len fl e] at Hr0
      have ihr := mutExprList_loopsafe ctx CL HK fl rest σ₁ (by rw [ne]; exact Hr0)
      rcases h2 : mutExprList ctx rest σ₁ with ⟨rest', σ₂⟩
      rw [h2] at ihr; dsimp only at ihr
      obtain ⟨nr, dr⟩ := ihr
      simp only [mutExprList, h1, h2]
      exact ⟨by simp only [nCmpExprList]; omega, by simp [ldExprList, de, dr]⟩

end

/-! The loop-safety induction, statement level. -/

mutual

theorem mutStmt_loopsafe (ctx : MCtx) (CL : List Bool)
    (HK : ∀ n i, (n, i) ∈ ctx.cmp_keys → CL.get? n = some false) :
    ∀ (fl : Bool) (s : Stmt) (σ : MState),
      (∀ j, j < (ctxStmt fl s).length → CL.get? (σ.nid + j) = (ctxStmt fl s).get? j) →
      (mutStmt ctx s σ).2.nid = σ.nid + nCmpStmt s ∧
      ldStmt fl s (mutStmt ctx s σ).1 = 0
  | fl, .assign targets value, σ => by
      intro Hseg
      simp only [ctxStmt] at Hseg
      have iht := mutExprList_loopsafe ctx CL HK fl targets σ (ssub_left _ _ _ _ Hseg)
      rcases h1 : mutExprList ctx targets σ with ⟨targets', σ₁⟩
      rw [h1] at iht; dsimp only at iht
      obtain ⟨nt, dt⟩ := iht
      have Hv0 := ssub_right CL _ _ _ Hseg
      rw [ctxExprList_len fl targets] at Hv0
      have ihv := mutExpr_loopsafe ctx CL HK fl value σ₁ (by rw [nt]; exact Hv0)
      rcases h2 : mutExpr ctx value σ₁ with ⟨value', σ₂⟩
      rw [h2] at ihv; dsimp only at ihv
      obtain ⟨nv, dv⟩ := ihv
      have hdel := maybeDeleteStmt_cases ctx (.assign targets' value') σ₂
      rcases h3 : maybeDeleteStmt ctx (.assign targets' value') σ₂ with ⟨res, σ₃⟩
      rw [h3] at hdel; dsimp only at hdel
      obtain ⟨hres, hn3⟩ := hdel
      simp only [mutStmt, h1, h2, h3]
      refine ⟨by simp only [nCmpStmt]; omega, ?_⟩
      rcases hres with h | h <;> rw [h]
      · simp [ldStmt, dt, dv]
      · simp [ldStmt_to_pass]
  | fl, .annAssign target ann value, σ => by
      intro Hseg
      cases value with
      | some v =>
          simp only [ctxStmt, ctxOptExpr] at Hseg
          have iht := mutExpr_loopsafe ctx CL HK fl target σ
            (ssub_left _ _ _ _ (ssub_left _ _ _ _ Hseg))
          rcases h1 : mutExpr ctx target σ with ⟨target', σ₁⟩
          rw [h1] at iht; dsimp only at iht
          obtain ⟨nt, dt⟩ := iht
          have Ha0 := ssub_right CL _ _ _ (ssub_left _ _ _ _ Hseg)
          rw [ctxExpr_len fl target] at Ha0
          have iha := mutExpr_loopsafe ctx CL HK fl ann σ₁ (by rw [nt]; exact Ha0)
          rcases h2 : mutExpr ctx ann σ₁ with ⟨ann', σ₂⟩
          rw [h2] at iha; dsimp only at iha
          obtain ⟨na, da⟩ := iha
          have Hv0 := ssub_right CL _ _ _ Hseg
          rw [List.length_append, ctxExpr_len fl target, ctxExpr_len fl ann] at Hv0
          have ihv := mutExpr_loopsafe ctx CL HK fl v σ₂
            (by rw [na, nt]; intro j hj; rw [← Hv0 j hj]; ring_nf)
          rcases h3 : mutExpr ctx v σ₂ with ⟨v', σ₃⟩
          rw [h3] at ihv; dsimp only at ihv
          obtain ⟨nv, dv⟩ := ihv
          have hdel := maybeDeleteStmt_cases ctx (.annAssign target' ann' (some v')) σ₃
          rcases h4 : maybeDeleteStmt ctx (.annAssign target' ann' (some v')) σ₃ with ⟨res, σ₄⟩
          rw [h4] at hdel; dsimp only at hdel
          obtain ⟨hres, hn4⟩ := hdel
          simp only [mutStmt, h1, h2, h3, h4]
          refine ⟨by simp only [nCmpStmt, nCmpOptExpr]; omega, ?_⟩
          rcases hres with h | h <;> rw [h]
          · simp [ldStmt, ldOptExpr, dt, da, dv]
          · simp [ldStmt_to_pass]
      | none =>
          simp only [ctxStmt, ctxOptExpr, List.append_nil] at Hseg
          have iht := mutExpr_loopsafe ctx CL HK fl target σ (ssub_left _ _ _ _ Hseg)
          rcases h1 : mutExpr ctx target σ with ⟨target', σ₁⟩
          rw [h1] at iht; dsimp only at iht
          obtain ⟨nt, dt⟩ := iht
          have Ha0 := ssub_right CL _ _ _ Hseg
          rw [ctxExpr_len fl target] at Ha0
          have iha := mutExpr_loopsafe ctx CL HK fl ann σ₁ (by rw [nt]; exact Ha0)
          rcases h2 : mutExpr ctx ann σ₁ with ⟨ann', σ₂⟩
          rw [h2] at iha; dsimp only at iha
          obtain ⟨na, da⟩ := iha
          have hdel := maybeDeleteStmt_cases ctx (.annAssign target' ann' none) σ₂
          rcases h3 : maybeDeleteStmt ctx (.annAssign target' ann' none) σ₂ with ⟨res, σ₃⟩
          rw [h3] at hdel; dsimp only at hdel
          obtain ⟨hres, hn3⟩ := hdel
          simp only [mutStmt, h1, h2, h3]
          refine ⟨by simp only [nCmpStmt, nCmpOptExpr]; omega, ?_⟩
          rcases hres with h | h <;> rw [h]
          · simp [ldStmt, ldOptExpr, dt, da]
          · simp [ldStmt_to_pass]
  | fl, .augAssign target op value, σ => by
      intro Hseg
      simp only [ctxStmt] at Hseg
      have iht := mutExpr_loopsafe ctx CL HK fl target σ (ssub_left _ _ _ _ Hseg)
      rcases h1 : mutExpr ctx target σ with ⟨target', σ₁⟩
      rw [h1] at iht; dsimp only at iht
      obtain ⟨nt, dt⟩ := iht
      have Hv0 := ssub_right CL _ _ _ Hseg
      rw [ctxExpr_len fl target] at Hv0
      have ihv := mutExpr_loopsafe ctx CL HK fl value σ₁ (by rw [nt]; exact Hv0)
      rcases h2 : mutExpr ctx value σ₁ with ⟨value', σ₂⟩
      rw [h2] at ihv; dsimp only at ihv
      obtain ⟨nv, dv⟩ := ihv
      cases hbs : BIN_SWAP op with
      | none =>
          have hdel := maybeDeleteStmt_cases ctx (.augAssign target' op value') σ₂
          rcases h3 : maybeDeleteStmt ctx (.augAssign target' op value') σ₂ with ⟨res, σ₃⟩
          rw [h3] at hdel; dsimp only at hdel
          obtain ⟨hres, hn3⟩ := hdel
          simp only [mutStmt, h1, h2, hbs, h3]
          refine ⟨by simp only [nCmpStmt]; omega, ?_⟩
          rcases hres with h | h <;> rw [h]
          · simp [ldStmt, dt, dv]
          · simp [ldStmt_to_pass]
      | some sw =>
          cases hsel : planSelects ctx.plan .bin σ₂.seen_bin with
          | true =>
              simp only [mutStmt, h1, h2, hbs, hsel, if_true]
              exact ⟨by simp only [nCmpStmt]; omega, by simp [ldStmt, dt, dv]⟩
          | false =>
              have hdel := maybeDeleteStmt_cases ctx (.augAssign target' op value')
                { σ₂ with seen_bin := σ₂.seen_bin + 1 }
              rcases h3 : maybeDeleteStmt ctx (.augAssign target' op value')
                  { σ₂ with seen_bin := σ₂.seen_bin + 1 } with ⟨res, σ₃⟩
              rw [h3] at hdel; dsimp only at hdel
              obtain ⟨hres, hn3⟩ := hdel
              simp only [mutStmt, h1, h2, hbs, hsel, Bool.false_eq_true, if_false, h3]
              refine ⟨by simp only [nCmpStmt]; omega, ?_⟩
              rcases hres with h | h <;> rw [h]
              · simp [ldStmt, dt, dv]
              · simp [ldStmt_to_pass]
  | fl, .exprStmt value, σ => by
      intro Hseg
      simp only [ctxStmt] at Hseg
      have ihv := mutExpr_loopsafe ctx CL HK fl value σ Hseg
      rcases h1 : mutExpr ctx value σ with ⟨value', σ₁⟩
      rw [h1] at ihv; dsimp only at ihv
      obtain ⟨nv, dv⟩ := ihv
      cases value' with
      | call f a =>
          have hdel := maybeDeleteStmt_cases ctx (.exprStmt (.call f a)) σ₁
          rcases h3 : maybeDeleteStmt ctx (.exprStmt (.call f a)) σ₁ with ⟨res, σ₂⟩
          rw [h3] at hdel; dsimp only at hdel
          obtain ⟨hres, hn2⟩ := hdel
          simp only [mutStmt, h1, exprStmtFix, h3]
          refine ⟨by simp only [nCmpStmt]; omega, ?_⟩
          rcases hres with h | h <;> rw [h]
          · simp [ldStmt, dv]
          · simp [ldStmt_to_pass]
      | name a st =>
          simp only [mutStmt, h1, exprStmtFix]
          exact ⟨by simp only [nCmpStmt]; omega, by simp [ldStmt, dv]⟩
      | const v =>
          simp only [mutStmt, h1, exprStmtFix]
          exact ⟨by simp only [nCmpStmt]; omega, by simp [ldStmt, dv]⟩
      | binOp l op r =>
          simp only [mutStmt, h1, exprStmtFix]
          exact ⟨by simp only [nCmpStmt]; omega, by simp [ldStmt, dv]⟩
      | compare l p =>
          simp only [mutStmt, h1, exprStmtFix]
          exact ⟨by simp only [nCmpStmt]; omega, by simp [ldStmt, dv]⟩
      | tuple e st =>
          simp only [mutStmt, h1, exprStmtFix]
          exact ⟨by simp only [nCmpStmt]; omega, by simp [ldStmt, dv]⟩
  | fl, .ifStmt test body orelse, σ => by
      intro Hseg
      simp only [ctxStmt] at Hseg
      have iht := mutExpr_loopsafe ctx CL HK fl test σ
        (ssub_left _ _ _ _ (ssub_left _ _ _ _ Hseg))
      rcases h1 : mutExpr ctx test σ with ⟨test', σ₁⟩
      rw [h1] at iht; dsimp only at iht
      obtain ⟨nt, dt⟩ := iht
      have Hb0 := ssub_right CL _ _ _ (ssub_left _ _ _ _ Hseg)
      rw [ctxExpr_len fl test] at Hb0
      have ihb := mutStmtList_loopsafe ctx CL HK fl body σ₁ (by rw [nt]; exact Hb0)
      rcases h2 : mutStmtList ctx body σ₁ with ⟨body', σ₂⟩
      rw [h2] at ihb; dsimp only at ihb
      obtain ⟨nb, db⟩ := ihb
      have He0 := ssub_right CL _ _ _ Hseg
      rw [List.length_append, ctxExpr_len fl test, ctxStmtList_len fl body] at He0
      have ihe := mutStmtList_loopsafe ctx CL HK fl orelse σ₂
        (by rw [nb, nt]; intro j hj; rw [← He0 j hj]; ring_nf)
      rcases h3 : mutStmtList ctx orelse σ₂ with ⟨orelse', σ₃⟩
      rw [h3] at ihe; dsimp only at ihe
      obtain ⟨ne, de⟩ := ihe
      have hfix := ifTestFix_state ctx test' body' orelse' σ₃
      rcases h4 : ifTestFix ctx test' body' orelse' σ₃ with ⟨res, σ₄⟩
      rw [h4] at hfix; dsimp only at hfix
      obtain ⟨hn4, hld4⟩ := hfix
      simp only [mutStmt, h1, h2, h3, h4]
      exact ⟨by simp only [nCmpStmt]; omega, hld4 fl test body orelse dt db de⟩
  | fl, .whileStmt test body orelse, σ => by
      intro Hseg
      simp only [ctxStmt] at Hseg
      have iht := mutExpr_loopsafe ctx CL HK true test σ
        (ssub_left _ _ _ _ (ssub_left _ _ _ _ Hseg))
      rcases h1 : mutExpr ctx test σ with ⟨test', σ₁⟩
      rw [h1] at iht; dsimp only at iht
      obtain ⟨nt, dt⟩ := iht
      have Hb0 := ssub_right CL _ _ _ (ssub_left _ _ _ _ Hseg)
      rw [ctxExpr_len true test] at Hb0
      have ihb := mutStmtList_loopsafe ctx CL HK true body σ₁ (by rw [nt]; exact Hb0)
      rcases h2 : mutStmtList ctx body σ₁ with ⟨body', σ₂⟩
      rw [h2] at ihb; dsimp only at ihb
      obtain ⟨nb, db⟩ := ihb
      have He0 := ssub_right CL _ _ _ Hseg
      rw [List.length_append, ctxExpr_len true test, ctxStmtList_len true body] at He0
      have ihe := mutStmtList_loopsafe ctx CL HK true orelse σ₂
        (by rw [nb, nt]; intro j hj; rw [← He0 j hj]; ring_nf)
      rcases h3 : mutStmtList ctx orelse σ₂ with ⟨orelse', σ₃⟩
      rw [h3] at ihe; dsimp only at ihe
      obtain ⟨ne, de⟩ := ihe
      have hfix := whileTestFix_state ctx test' body' orelse' σ₃
      rcases h4 : whileTestFix ctx test' body' orelse' σ₃ with ⟨res, σ₄⟩
      rw [h4] at hfix; dsimp only at hfix
      obtain ⟨hn4, hld4⟩ := hfix
      simp only [mutStmt, h1, h2, h3, h4]
      exact ⟨by simp only [nCmpStmt]; omega, hld4 fl test body orelse dt db de⟩
  | fl, .forStmt target iter body orelse, σ => by
      intro Hseg
      simp only [ctxStmt] at Hseg
      have iht := mutExpr_loopsafe ctx CL HK true target σ
        (ssub_left _ _ _ _ (ssub_left _ _ _ _ (ssub_left _ _ _ _ Hseg)))
      rcases h1 : mutExpr ctx target σ with ⟨target', σ₁⟩
      rw [h1] at iht; dsimp only at iht
      obtain ⟨nt, dt⟩ := iht
      have Hi0 := ssub_right CL _ _ _ (ssub_left _ _ _ _ (ssub_left _ _ _ _ Hseg))
      rw [ctxExpr_len true target] at Hi0
      have ihi := mutExpr_loopsafe ctx CL HK true iter σ₁ (by rw [nt]; exact Hi0)
      rcases h2 : mutExpr ctx iter σ₁ with ⟨iter', σ₂⟩
      rw [h2] at ihi; dsimp only at ihi
      obtain ⟨ni, di⟩ := ihi
      have Hb0 := ssub_right CL _ _ _ (ssub_left _ _ _ _ Hseg)
      rw [List.length_append, ctxExpr_len true target, ctxExpr_len true iter] at Hb0
      have ihb := mutStmtList_loopsafe ctx CL HK true body σ₂
        (by rw [ni, nt]; intro j hj; rw [← Hb0 j hj]; ring_nf)
      rcases h3 : mutStmtList ctx body σ₂ with ⟨body', σ₃⟩
      rw [h3] at ihb; dsimp only at ihb
      obtain ⟨nb, db⟩ := ihb
      have He0 := ssub_right CL _ _ _ Hseg
      rw [List.length_append, List.length_append, ctxExpr_len true target,
        ctxExpr_len true iter, ctxStmtList_len true body] at He0
      have ihe := mutStmtList_loopsafe ctx CL HK true orelse σ₃
        (by rw [nb, ni, nt]; intro j hj; rw [← He0 j hj]; ring_nf)
      rcases h4 : mutStmtList ctx orelse σ₃ with ⟨orelse', σ₄⟩
      rw [h4] at ihe; dsimp only at ihe
      obtain ⟨ne, de⟩ := ihe
      simp only [mutStmt, h1, h2, h3, h4]
      exact ⟨by simp only [nCmpStmt]; omega, by simp [ldStmt, dt, di, db, de]⟩
  | fl, .ret value, σ => by
      intro Hseg
      cases value with
      | some v =>
          simp only [ctxStmt, ctxOptExpr] at Hseg
          have ihv := mutExpr_loopsafe ctx CL HK fl v σ Hseg
          rcases h1 : mutExpr ctx v σ with ⟨v', σ₁⟩
          rw [h1] at ihv; dsimp only at ihv
          obtain ⟨nv, dv⟩ := ihv
          simp only [mutStmt, h1]
          exact ⟨by simp only [nCmpStmt, nCmpOptExpr]; omega,
            by simp [ldStmt, ldOptExpr, dv]⟩
      | none =>
          simp only [mutStmt]
          exact ⟨by simp [nCmpStmt, nCmpOptExpr], by simp [ldStmt, ldOptExpr]⟩
  | fl, .pass, σ => fun _ =>
      ⟨by simp [mutStmt, nCmpStmt], by simp [mutStmt, ldStmt]⟩
  | fl, .funcDef nm args body, σ => by
      intro Hseg
      simp only [ctxStmt] at Hseg
      have ihb := mutStmtList_loopsafe ctx CL HK fl body σ Hseg
      rcases h1 : mutStmtList ctx body σ with ⟨body', σ₁⟩
      rw [h1] at ihb; dsimp only at ihb
      obtain ⟨nb, db⟩ := ihb
      simp only [mutStmt, h1]
      exact ⟨by simp only [nCmpStmt]; omega, by simp [ldStmt, db]⟩

theorem mutStmtList_loopsafe (ctx : MCtx) (CL : List Bool)
    (HK : ∀ n i, (n, i) ∈ ctx.cmp_keys → CL.get? n = some false) :
    ∀ (fl : Bool) (l : StmtList) (σ : MState),
      (∀ j, j < (ctxStmtList fl l).length → CL.get? (σ.nid + j) = (ctxStmtList fl l).get? j) →
      (mutStmtList ctx l σ).2.nid = σ.nid + nCmpStmtList l ∧
      ldStmtList fl l (mutStmtList ctx l σ).1 = 0
  | fl, .nil, σ => fun _ =>
      ⟨by simp [mutStmtList, nCmpStmtList], by simp [mutStmtList, ldStmtList]⟩
  | fl, .cons st rest, σ => by
      intro Hseg
      simp only [ctxStmtList] at Hseg
      have ihs := mutStmt_loopsafe ctx CL HK fl st σ (ssub_left _ _ _ _ Hseg)
      rcases h1 : mutStmt ctx st σ with ⟨st', σ₁⟩
      rw [h1] at ihs; dsimp only at ihs
      obtain ⟨ns, ds⟩ := ihs
      have Hr0 := ssub_right CL _ _ _ Hseg
      rw [ctxStmt_len fl st] at Hr0
      have ihr := mutStmtList_loopsafe ctx CL HK fl rest σ₁ (by rw [ns]; exact Hr0)
      rcases h2 : mutStmtList ctx rest σ₁ with ⟨rest', σ₂⟩
      rw [h2] at ihr; dsimp only at ihr
      obtain ⟨nr, dr⟩ := ihr
      simp only [mutStmtList, h1, h2]
      exact ⟨by simp only [nCmpStmtList]; omega, by simp [ldStmtList, ds, dr]⟩

end

/-- C2: loop-safety invariant.  For every input tree: (1) every eligibility
key the cataloging pass records points at a Compare node whose loop-context
flag is false, so a comparison lexically nested inside a for or while
construct is never catalogued as an eligible site; and (2) for both random
draws, the tree `mutate` returns agrees with the input on every comparison
operator of every loop-nested Compare node (the pairwise loop-restricted
operator diff is zero), so such a comparison is never negated. -/
theorem loop_comparisons_never_negated (m : StmtList) (kd ix : Nat) :
    (∀ n i, (n, i) ∈ (runCounter m).cmp_keys → (ctxModule m).get? n = some false) ∧
    ldModule m (mutate m kd ix) = 0 := by
  refine ⟨fun n i h => runCounter_keys_not_under_loop m n i h, ?_⟩
  cases hpl : (choosePlan (runCounter m) kd ix).isEmpty with
  | true => simp [mutate, hpl, ldModule, ldStmtList_self]
  | false =>
      have hmain := mutStmtList_loopsafe
        { plan := choosePlan (runCounter m) kd ix
          first_def_names := (runCounter m).first_def_names
          cmp_keys := (runCounter m).cmp_keys }
        (ctxModule m)
        (fun n i h => runCounter_keys_not_under_loop m n i h)
        false m initMState
        (by intro j hj; simp [initMState, ctxModule])
      simpa [mutate, hpl, mutApply, ldModule] using hmain.2

/-- Witness for C2: on the module with one comparison outside any loop and
one inside a while header, the key (0,0) is recorded, its context flag is
false, and the loop-restricted operator diff of a mutated run is zero. -/
theorem loop_comparisons_never_negated_witness :
    (0, 0) ∈ (runCounter mixedLoopMod).cmp_keys ∧
    (ctxModule mixedLoopMod).get? 0 = some false ∧
    ldModule mixedLoopMod (mutate mixedLoopMod 0 0) = 0 :=
  ⟨by decide, (loop_comparisons_never_negated mixedLoopMod 0 0).1 0 0 (by decide),
   (loop_comparisons_never_negated mixedLoopMod 0 0).2⟩

/-! Machinery for the comparison-category plan: eligible-operator counting
and the k-th negation transform. -/

theorem countElig_append (a b : List (Bool × CmpOp)) :
    countElig (a ++ b) = countElig a + countElig b := by
  simp [countElig, List.countP_append]

theorem countElig_cons (fl : Bool) (op : CmpOp) (L : List (Bool × CmpOp)) :
    countElig ((fl, op) :: L) = countElig L + (if fl then 1 else 0) := by
  simp [countElig, List.countP_cons]

theorem applyNeg_oor : ∀ (l : List (Bool × CmpOp)) (k : Nat),
    countElig l ≤ k → applyNeg l k = l
  | [], k, _ => rfl
  | (false, op) :: rest, k, h => by
      rw [countElig_cons] at h
      simp at h
      simp [applyNeg, applyNeg_oor rest k h]
  | (true, op) :: rest, k, h => by
      rw [countElig_cons] at h
      simp at h
      have hk : k ≠ 0 := by omega
      simp [applyNeg, hk, applyNeg_oor rest (k - 1) (by omega)]
  termination_by l _ _ => l.length

theorem applyNeg_append : ∀ (a b : List (Bool × CmpOp)) (k : Nat),
    applyNeg (a ++ b) k =
      if k < countElig a then applyNeg a k ++ b else a ++ applyNeg b (k - countElig a)
  | [], b, k => by simp [countElig, applyNeg]
  | (false, op) :: a, b, k => by
      have ih := applyNeg_append a b k
      by_cases h : k < countElig a
      · simp [applyNeg, countElig_cons, ih, h]
      · simp [applyNeg, countElig_cons, ih, h]
  | (true, op) :: a, b, k => by
      by_cases hk : k = 0
      · subst hk
        simp [applyNeg, countElig_cons]
      · have ih := applyNeg_append a b (k - 1)
        by_cases h : k - 1 < countElig a
        · have h2 : k < countElig a + 1 := by omega
          simp [applyNeg, countElig_cons, ih, h, hk, h2]
        · have h2 : ¬ k < countElig a + 1 := by omega
          have he : k - 1 - countElig a = k - (countElig a + 1) := by omega
          simp [applyNeg, countElig_cons, ih, h, hk, h2, he]
  termination_by a _ _ => a.length

theorem applyNeg_seq (a b a' b' : List (Bool × CmpOp)) (s k : Nat)
    (ha : a' = if s ≤ k then applyNeg a (k - s) else a)
    (hb : b' = if s + countElig a ≤ k then applyNeg b (k - (s + countElig a)) else b) :
    a' ++ b' = if s ≤ k then applyNeg (a ++ b) (k - s) else a ++ b := by
  subst ha hb
  by_cases h1 : s ≤ k
  · by_cases h2 : s + countElig a ≤ k
    · rw [if_pos h1, if_pos h2, if_pos h1, applyNeg_append, if_neg (by omega),
        applyNeg_oor a (k - s) (by omega)]
      have he : k - (s + countElig a) = k - s - countElig a := by omega
      rw [he]
    · rw [if_pos h1, if_neg h2, if_pos h1, applyNeg_append, if_pos (by omega)]
  · rw [if_neg h1, if_neg (by omega), if_neg h1]

theorem planSelects_cmp_only (k : Nat) (c : Cat) (n : Nat) (hne : c ≠ Cat.cmp) :
    planSelects [(Cat.cmp, [k])] c n = false := by
  cases hps : planSelects [(Cat.cmp, [k])] c n
  · rfl
  · obtain ⟨hc, -⟩ := (planSelects_single_iff Cat.cmp c k n).mp hps
    exact absurd hc hne

theorem planSelects_cmp_eq (k n : Nat) :
    planSelects [(Cat.cmp, [k])] Cat.cmp n = decide (n = k) := by
  by_cases h : n = k
  · subst h
    simp [(planSelects_single_iff Cat.cmp Cat.cmp n n).mpr ⟨rfl, rfl⟩]
  · cases hps : planSelects [(Cat.cmp, [k])] Cat.cmp n
    · simp [h]
    · obtain ⟨-, hk⟩ := (planSelects_single_iff _ _ _ _).mp hps
      exact absurd hk h

theorem CMP_NEGATION_closed (op negOp : CmpOp) (h : CMP_NEGATION op = some negOp) :
    (CMP_NEGATION negOp).isSome = true := by
  cases op <;> simp [CMP_NEGATION] at h <;> subst h <;> decide

theorem maybeDeleteStmt_cmp (ctx : MCtx) (k : Nat) (hp : ctx.plan = [(Cat.cmp, [k])])
    (node : Stmt) (σ : MState) :
    maybeDeleteStmt ctx node σ = (node, { σ with seen_del := σ.seen_del + 1 }) := by
  have hsel : planSelects ctx.plan .del σ.seen_del = false := by
    rw [hp]; exact planSelects_cmp_only k .del σ.seen_del (by decide)
  simp [maybeDeleteStmt, hsel]

theorem callSwapFix_cmp (ctx : MCtx) (k : Nat) (hp : ctx.plan = [(Cat.cmp, [k])])
    (f' : Expr) (args' : ExprList) (σ : MState) :
    (callSwapFix ctx f' args' σ).1 = .call f' args' ∧
    (callSwapFix ctx f' args' σ).2.seen_cmp = σ.seen_cmp ∧
    (callSwapFix ctx f' args' σ).2.nid = σ.nid := by
  cases f' with
  | name id st =>
      cases hsw : CALL_SWAP id with
      | some other =>
          have hsel : planSelects ctx.plan .call σ.seen_call = false := by
            rw [hp]; exact planSelects_cmp_only k .call σ.seen_call (by decide)
          simp [callSwapFix, hsw, hsel]
      | none => simp [callSwapFix, hsw]
  | const v => exact ⟨rfl, rfl, rfl⟩
  | binOp l op r => exact ⟨rfl, rfl, rfl⟩
  | compare l p => exact ⟨rfl, rfl, rfl⟩
  | call g a => exact ⟨rfl, rfl, rfl⟩
  | tuple e st => exact ⟨rfl, rfl, rfl⟩

theorem ifTestFix_cmp (ctx : MCtx) (k : Nat) (hp : ctx.plan = [(Cat.cmp, [k])])
    (test' : Expr) (body' orelse' : StmtList) (σ : MState) :
    (ifTestFix ctx test' body' orelse' σ).1 = .ifStmt test' body' orelse' ∧
    (ifTestFix ctx test' body' orelse' σ).2.seen_cmp = σ.seen_cmp ∧
    (ifTestFix ctx test' body' orelse' σ).2.nid = σ.nid := by
  cases test' with
  | const v =>
      cases v with
      | boolC b =>
          have hsel : planSelects ctx.plan .bool σ.seen_bool = false := by
            rw [hp]; exact planSelects_cmp_only k .bool σ.seen_bool (by decide)
          simp [ifTestFix, hsel]
      | intC n => exact ⟨rfl, rfl, rfl⟩
      | strC a => exact ⟨rfl, rfl, rfl⟩
      | noneC => exact ⟨rfl, rfl, rfl⟩
  | name a st => exact ⟨rfl, rfl, rfl⟩
  | binOp l op r => exact ⟨rfl, rfl, rfl⟩
  | compare l p => exact ⟨rfl, rfl, rfl⟩
  | call f ar => exact ⟨rfl, rfl, rfl⟩
  | tuple e st => exact ⟨rfl, rfl, rfl⟩

theorem whileTestFix_cmp (ctx : MCtx) (k : Nat) (hp : ctx.plan = [(Cat.cmp, [k])])
    (test' : Expr) (body' orelse' : StmtList) (σ : MState) :
    (whileTestFix ctx test' body' orelse' σ).1 = .whileStmt test' body' orelse' ∧
    (whileTestFix ctx test' body' orelse' σ).2.seen_cmp = σ.seen_cmp ∧
    (whileTestFix ctx test' body' orelse' σ).2.nid = σ.nid := by
  cases test' with
  | const v =>
      cases v with
      | boolC b =>
          have hsel : planSelects ctx.plan .bool σ.seen_bool = false := by
            rw [hp]; exact planSelects_cmp_only k .bool σ.seen_bool (by decide)
          simp [whileTestFix, hsel]
      | intC n => exact ⟨rfl, rfl, rfl⟩
      | strC a => exact ⟨rfl, rfl, rfl⟩
      | noneC => exact ⟨rfl, rfl, rfl⟩
  | name a st => exact ⟨rfl, rfl, rfl⟩
  | binOp l op r => exact ⟨rfl, rfl, rfl⟩
  | compare l p => exact ⟨rfl, rfl, rfl⟩
  | call f ar => exact ⟨rfl, rfl, rfl⟩
  | tuple e st => exact ⟨rfl, rfl, rfl⟩

theorem exprStmtFix_cmp (ctx : MCtx) (k : Nat) (hp : ctx.plan = [(Cat.cmp, [k])])
    (value' : Expr) (σ : MState) :
    (exprStmtFix ctx value' σ).1 = .exprStmt value' ∧
    (exprStmtFix ctx value' σ).2.seen_cmp = σ.seen_cmp ∧
    (exprStmtFix ctx value' σ).2.nid = σ.nid := by
  cases value' with
  | call f a => simp [exprStmtFix, maybeDeleteStmt_cmp ctx k hp]
  | name a st => exact ⟨rfl, rfl, rfl⟩
  | const v => exact ⟨rfl, rfl, rfl⟩
  | binOp l op r => exact ⟨rfl, rfl, rfl⟩
  | compare l p => exact ⟨rfl, rfl, rfl⟩
  | tuple e st => exact ⟨rfl, rfl, rfl⟩

/-! The collector's identity counter advances by the number of Compare
nodes of the subtree. -/

mutual

theorem colExpr_snd : ∀ (K : List (Nat × Nat)) (e : Expr) (n : Nat),
    (colExpr K e n).2 = n + nCmpExpr e
  | K, .name a s, n => by simp [colExpr, nCmpExpr]
  | K, .const v, n => by simp [colExpr, nCmpExpr]
  | K, .binOp l op r, n => by
      have h1 := colExpr_snd K l n
      rcases e1 : colExpr K l n with ⟨a, n₁⟩
      rw [e1] at h1; dsimp only at h1
      have h2 := colExpr_snd K r n₁
      rcases e2 : colExpr K r n₁ with ⟨b, n₂⟩
      rw [e2] at h2; dsimp only at h2
      simp only [colExpr, e1, e2, nCmpExpr]
      omega
  | K, .compare l pairs, n => by
      have h1 := colExpr_snd K l (n + 1)
      rcases e1 : colExpr K l (n + 1) with ⟨a, n₁⟩
      rw [e1] at h1; dsimp only at h1
      have h2 := colPairs_snd K pairs n₁
      rcases e2 : colPairs K pairs n₁ with ⟨b, n₂⟩
      rw [e2] at h2; dsimp only at h2
      simp only [colExpr, e1, e2, nCmpExpr]
      omega
  | K, .call f args, n => by
      have h1 := colExpr_snd K f n
      rcases e1 : colExpr K f n with ⟨a, n₁⟩
      rw [e1] at h1; dsimp only at h1
      have h2 := colExprList_snd K args n₁
      rcases e2 : colExprList K args n₁ with ⟨b, n₂⟩
      rw [e2] at h2; dsimp only at h2
      simp only [colExpr, e1, e2, nCmpExpr]
      omega
  | K, .tuple elts store, n => by
      have h1 := colExprList_snd K elts n
      simp only [colExpr, nCmpExpr]
      exact h1

theorem colPairs_snd : ∀ (K : List (Nat × Nat)) (p : CmpPairs) (n : Nat),
    (colPairs K p n).2 = n + nCmpPairs p
  | K, .nil, n => by simp [colPairs, nCmpPairs]
  | K, .cons op e rest, n => by
      have h1 := colExpr_snd K e n
      rcases e1 : colExpr K e n with ⟨a, n₁⟩
      rw [e1] at h1; dsimp only at h1
      have h2 := colPairs_snd K rest n₁
      rcases e2 : colPairs K rest n₁ with ⟨b, n₂⟩
      rw [e2] at h2; dsimp only at h2
      simp only [colPairs, e1, e2, nCmpPairs]
      omega

theorem colExprList_snd : ∀ (K : List (Nat × Nat)) (l : ExprList) (n : Nat),
    (colExprList K l n).2 = n + nCmpExprList l
  | K, .nil, n => by simp [colExprList, nCmpExprList]
  | K, .cons e rest, n => by
      have h1 := colExpr_snd K e n
      rcases e1 : colExpr K e n with ⟨a, n₁⟩
      rw [e1] at h1; dsimp only at h1
      have h2 := colExprList_snd K rest n₁
      rcases e2 : colExprList K rest n₁ with ⟨b, n₂⟩
      rw [e2] at h2; dsimp only at h2
      simp only [colExprList, e1, e2, nCmpExprList]
      omega

end

theorem colOptExpr_snd (K : List (Nat × Nat)) : ∀ (v : Option Expr) (n : Nat),
    (colOptExpr K v n).2 = n + nCmpOptExpr v
  | some v, n => by simpa [colOptExpr, nCmpOptExpr] using colExpr_snd K v n
  | none, n => by simp [colOptExpr, nCmpOptExpr]

mutual

theorem colStmt_snd : ∀ (K : List (Nat × Nat)) (s : Stmt) (n : Nat),
    (colStmt K s n).2 = n + nCmpStmt s
  | K, .assign t v, n => by
      have h1 := colExprList_snd K t n
      rcases e1 : colExprList K t n with ⟨a, n₁⟩
      rw [e1] at h1; dsimp only at h1
      have h2 := colExpr_snd K v n₁
      rcases e2 : colExpr K v n₁ with ⟨b, n₂⟩
      rw [e2] at h2; dsimp only at h2
      simp only [colStmt, e1, e2, nCmpStmt]
      omega
  | K, .annAssign t an v, n => by
      have h1 := colExpr_snd K t n
      rcases e1 : colExpr K t n with ⟨a, n₁⟩
      rw [e1] at h1; dsimp only at h1
      have h2 := colExpr_snd K an n₁
      rcases e2 : colExpr K an n₁ with ⟨b, n₂⟩
      rw [e2] at h2; dsimp only at h2
      have h3 := colOptExpr_snd K v n₂
      rcases e3 : colOptExpr K v n₂ with ⟨c, n₃⟩
      rw [e3] at h3; dsimp only at h3
      simp only [colStmt, e1, e2, e3, nCmpStmt]
      omega
  | K, .augAssign t op v, n => by
      have h1 := colExpr_snd K t n
      rcases e1 : colExpr K t n with ⟨a, n₁⟩
      rw [e1] at h1; dsimp only at h1
      have h2 := colExpr_snd K v n₁
      rcases e2 : colExpr K v n₁ with ⟨b, n₂⟩
      rw [e2] at h2; dsimp only at h2
      simp only [colStmt, e1, e2, nCmpStmt]
      omega
  | K, .exprStmt v, n => by
      simpa [colStmt, nCmpStmt] using colExpr_snd K v n
  | K, .ifStmt t b e, n => by
      have h1 := colExpr_snd K t n
      rcases e1 : colExpr K t n with ⟨a, n₁⟩
      rw [e1] at h1; dsimp only at h1
      have h2 := colStmtList_snd K b n₁
      rcases e2 : colStmtList K b n₁ with ⟨bb, n₂⟩
      rw [e2] at h2; dsimp only at h2
      have h3 := colStmtList_snd K e n₂
      rcases e3 : colStmtList K e n₂ with ⟨cc, n₃⟩
      rw [e3] at h3; dsimp only at h3
      simp only [colStmt, e1, e2, e3, nCmpStmt]
      omega
  | K, .whileStmt t b e, n => by
      have h1 := colExpr_snd K t n
      rcases e1 : colExpr K t n with ⟨a, n₁⟩
      rw [e1] at h1; dsimp only at h1
      have h2 := colStmtList_snd K b n₁
      rcases e2 : colStmtList K b n₁ with ⟨bb, n₂⟩
      rw [e2] at h2; dsimp only at h2
      have h3 := colStmtList_snd K e n₂
      rcases e3 : colStmtList K e n₂ with ⟨cc, n₃⟩
      rw [e3] at h3; dsimp only at h3
      simp only [colStmt, e1, e2, e3, nCmpStmt]
      omega
  | K, .forStmt tg it b e, n => by
      have h1 := colExpr_snd K tg n
      rcases e1 : colExpr K tg n with ⟨a, n₁⟩
      rw [e1] at h1; dsimp only at h1
      have h2 := colExpr_snd K it n₁
      rcases e2 : colExpr K it n₁ with ⟨b₂, n₂⟩
      rw [e2] at h2; dsimp only at h2
      have h3 := colStmtList_snd K b n₂
      rcases e3 : colStmtList K b n₂ with ⟨bb, n₃⟩
      rw [e3] at h3; dsimp only at h3
      have h4 := colStmtList_snd K e n₃
      rcases e4 : colStmtList K e n₃ with ⟨cc, n₄⟩
      rw [e4] at h4; dsimp only at h4
      simp only [colStmt, e1, e2, e3, e4, nCmpStmt]
      omega
  | K, .ret v, n => by
      simpa [colStmt, nCmpStmt] using colOptExpr_snd K v n
  | K, .pass, n => by simp [colStmt, nCmpStmt]
  | K, .funcDef nm args b, n => by
      simpa [colStmt, nCmpStmt] using colStmtList_snd K b n

theorem colStmtList_snd : ∀ (K : List (Nat × Nat)) (l : StmtList) (n : Nat),
    (colStmtList K l n).2 = n + nCmpStmtList l
  | K, .nil, n => by simp [colStmtList, nCmpStmtList]
  | K, .cons st rest, n => by
      have h1 := colStmt_snd K st n
      rcases e1 : colStmt K st n with ⟨a, n₁⟩
      rw [e1] at h1; dsimp only at h1
      have h2 := colStmtList_snd K rest n₁
      rcases e2 : colStmtList K rest n₁ with ⟨b, n₂⟩
      rw [e2] at h2; dsimp only at h2
      simp only [colStmtList, e1, e2, nCmpStmtList]
      omega

end

/-- Under a comparison plan with index `k`, the operator loop of
`visit_Compare` advances `seen_cmp` by the number of eligible operators of
the chain, keeps comparator expressions, erasure, Compare count and `nid`,
and rewrites the flagged operator list by negating the planned eligible
entry. -/
theorem mutCmpOps_cmp (ctx : MCtx) (k : Nat) (hp : ctx.plan = [(Cat.cmp, [k])]) (myId : Nat) :
    ∀ (i : Nat) (p : CmpPairs) (σ : MState),
      (mutCmpOps ctx myId i p σ).2.nid = σ.nid ∧
      (mutCmpOps ctx myId i p σ).2.seen_cmp =
        σ.seen_cmp + countElig (opsFlags ctx.cmp_keys myId i p) ∧
      erasePairs (mutCmpOps ctx myId i p σ).1 = erasePairs p ∧
      nCmpPairs (mutCmpOps ctx myId i p σ).1 = nCmpPairs p ∧
      (∀ n, colPairs ctx.cmp_keys (mutCmpOps ctx myId i p σ).1 n =
        colPairs ctx.cmp_keys p n) ∧
      opsFlags ctx.cmp_keys myId i (mutCmpOps ctx myId i p σ).1 =
        (if σ.seen_cmp ≤ k then
          applyNeg (opsFlags ctx.cmp_keys myId i p) (k - σ.seen_cmp)
        else opsFlags ctx.cmp_keys myId i p)
  | i, .nil, σ => by
      refine ⟨rfl, by simp [mutCmpOps, opsFlags, countElig], rfl, rfl, fun n => rfl, ?_⟩
      by_cases h : σ.seen_cmp ≤ k <;> simp [mutCmpOps, opsFlags, applyNeg, h]
  | i, .cons op e rest, σ => by
      cases hn : CMP_NEGATION op with
      | none =>
          obtain ⟨ihn, ihs, ihe, ihc, ihcol, ihf⟩ := mutCmpOps_cmp ctx k hp myId (i + 1) rest σ
          rcases hrec : mutCmpOps ctx myId (i + 1) rest σ with ⟨rest', σ'⟩
          rw [hrec] at ihn ihs ihe ihc ihcol ihf
          dsimp only at ihn ihs ihe ihc ihcol ihf
          refine ⟨?_, ?_, ?_, ?_, ?_, ?_⟩
          · simp [mutCmpOps, hn, hrec, ihn]
          · simp [mutCmpOps, hn, hrec, ihs, opsFlags, countElig_cons]
          · simp [mutCmpOps, hn, hrec, erasePairs, ihe]
          · simp [mutCmpOps, hn, hrec, nCmpPairs, ihc]
          · intro n
            simp [mutCmpOps, hn, hrec, colPairs, ihcol]
          · by_cases hle : σ.seen_cmp ≤ k <;>
              simp [mutCmpOps, hn, hrec, opsFlags, applyNeg, ihf, hle]
      | some negOp =>
          by_cases hm : (myId, i) ∈ ctx.cmp_keys
          · have hps : planSelects ctx.plan .cmp σ.seen_cmp = decide (σ.seen_cmp = k) := by
              rw [hp]; exact planSelects_cmp_eq k σ.seen_cmp
            by_cases hsel : σ.seen_cmp = k
            · have hps' : planSelects ctx.plan .cmp σ.seen_cmp = true := by
                rw [hps]; simp [hsel]
              obtain ⟨ihn, ihs, ihe, ihc, ihcol, ihf⟩ := mutCmpOps_cmp ctx k hp myId (i + 1)
                rest { σ with seen_cmp := σ.seen_cmp + 1 }
              rcases hrec : mutCmpOps ctx myId (i + 1) rest
                  { σ with seen_cmp := σ.seen_cmp + 1 } with ⟨rest', σ'⟩
              rw [hrec] at ihn ihs ihe ihc ihcol ihf
              dsimp only at ihn ihs ihe ihc ihcol ihf
              rw [if_neg (by omega)] at ihf
              refine ⟨?_, ?_, ?_, ?_, ?_, ?_⟩
              · simp [mutCmpOps, hn, hm, hps', hrec, ihn]
              · simp [mutCmpOps, hn, hm, hps', hrec, ihs, opsFlags, countElig_cons]
                omega
              · simp [mutCmpOps, hn, hm, hps', hrec, erasePairs, ihe]
              · simp [mutCmpOps, hn, hm, hps', hrec, nCmpPairs, ihc]
              · intro n
                simp [mutCmpOps, hn, hm, hps', hrec, colPairs, ihcol]
              · have hcl := CMP_NEGATION_closed op negOp hn
                rw [if_pos (by omega)]
                have hz : k - σ.seen_cmp = 0 := by omega
                simp [mutCmpOps, hn, hm, hps', hrec, opsFlags, applyNeg, hz,
                  ihf, hcl]
            · have hps' : planSelects ctx.plan .cmp σ.seen_cmp = false := by
                rw [hps]; simp [hsel]
              obtain ⟨ihn, ihs, ihe, ihc, ihcol, ihf⟩ := mutCmpOps_cmp ctx k hp myId (i + 1)
                rest { σ with seen_cmp := σ.seen_cmp + 1 }
              rcases hrec : mutCmpOps ctx myId (i + 1) rest
                  { σ with seen_cmp := σ.seen_cmp + 1 } with ⟨rest', σ'⟩
              rw [hrec] at ihn ihs ihe ihc ihcol ihf
              dsimp only at ihn ihs ihe ihc ihcol ihf
              refine ⟨?_, ?_, ?_, ?_, ?_, ?_⟩
              · simp [mutCmpOps, hn, hm, hps', hrec, ihn]
              · simp [mutCmpOps, hn, hm, hps', hrec, ihs, opsFlags, countElig_cons]
                omega
              · simp [mutCmpOps, hn, hm, hps', hrec, erasePairs, ihe]
              · simp [mutCmpOps, hn, hm, hps', hrec, nCmpPairs, ihc]
              · intro n
                simp [mutCmpOps, hn, hm, hps', hrec, colPairs, ihcol]
              · by_cases hle : σ.seen_cmp ≤ k
                · rw [if_pos (by omega)] at ihf
                  have hz : k - σ.seen_cmp ≠ 0 := by omega
                  have he : k - (σ.seen_cmp + 1) = k - σ.seen_cmp - 1 := by omega
                  rw [he] at ihf
                  simp [mutCmpOps, hn, hm, hps', hrec, opsFlags, applyNeg, hz,
                    ihf, hle]
                · rw [if_neg (by omega)] at ihf
                  simp [mutCmpOps, hn, hm, hps', hrec, opsFlags, applyNeg, ihf, hle]
          · obtain ⟨ihn, ihs, ihe, ihc, ihcol, ihf⟩ := mutCmpOps_cmp ctx k hp myId (i + 1) rest σ
            rcases hrec : mutCmpOps ctx myId (i + 1) rest σ with ⟨rest', σ'⟩
            rw [hrec] at ihn ihs ihe ihc ihcol ihf
            dsimp only at ihn ihs ihe ihc ihcol ihf
            refine ⟨?_, ?_, ?_, ?_, ?_, ?_⟩
            · simp [mutCmpOps, hn, hm, hrec, ihn]
            · simp [mutCmpOps, hn, hm, hrec, ihs, opsFlags, countElig_cons]
            · simp [mutCmpOps, hn, hm, hrec, erasePairs, ihe]
            · simp [mutCmpOps, hn, hm, hrec, nCmpPairs, ihc]
            · intro n
              simp [mutCmpOps, hn, hm, hrec, colPairs, ihcol]
            · by_cases hle : σ.seen_cmp ≤ k <;>
                simp [mutCmpOps, hn, hm, hrec, opsFlags, applyNeg, ihf, hle]

/-! Under a comparison plan with index `k`, pass 2 advances the counters
like the collector, preserves the erasure (everything but comparison
operators), and applies the k-th-eligible negation to the flagged
operator list, expression level. -/

mutual

theorem mutExpr_cmp (ctx : MCtx) (k : Nat) (hp : ctx.plan = [(Cat.cmp, [k])]) :
    ∀ (e : Expr) (σ : MState),
      (mutExpr ctx e σ).2.nid = σ.nid + nCmpExpr e ∧
      (mutExpr ctx e σ).2.seen_cmp =
        σ.seen_cmp + countElig (colExpr ctx.cmp_keys e σ.nid).1 ∧
      eraseExpr (mutExpr ctx e σ).1 = eraseExpr e ∧
      nCmpExpr (mutExpr ctx e σ).1 = nCmpExpr e ∧
      (colExpr ctx.cmp_keys (mutExpr ctx e σ).1 σ.nid).1 =
        (if σ.seen_cmp ≤ k then
          applyNeg (colExpr ctx.cmp_keys e σ.nid).1 (k - σ.seen_cmp)
        else (colExpr ctx.cmp_keys e σ.nid).1)
  | .name a s, σ => by
      refine ⟨by simp [mutExpr, nCmpExpr], by simp [mutExpr, colExpr, countElig],
        rfl, rfl, ?_⟩
      by_cases h : σ.seen_cmp ≤ k <;> simp [mutExpr, colExpr, applyNeg, h]
  | .const v, σ => by
      refine ⟨by simp [mutExpr, nCmpExpr], by simp [mutExpr, colExpr, countElig],
        rfl, rfl, ?_⟩
      by_cases h : σ.seen_cmp ≤ k <;> simp [mutExpr, colExpr, applyNeg, h]
  | .binOp l op r, σ => by
      obtain ⟨ln, ls, le, lc, lcol⟩ := mutExpr_cmp ctx k hp l σ
      rcases h1 : mutExpr ctx l σ with ⟨l', σ₁⟩
      rw [h1] at ln ls le lc lcol; dsimp only at ln ls le lc lcol
      obtain ⟨rn, rs, re, rc, rcol⟩ := mutExpr_cmp ctx k hp r σ₁
      rcases h2 : mutExpr ctx r σ₁ with ⟨r', σ₂⟩
      rw [h2] at rn rs re rc rcol; dsimp only at rn rs re rc rcol
      rcases c1 : colExpr ctx.cmp_keys l σ.nid with ⟨a, n₁⟩
      rcases c1' : colExpr ctx.cmp_keys l' σ.nid with ⟨a', m₁⟩
      have hn₁ : n₁ = σ.nid + nCmpExpr l := by
        have h := colExpr_snd ctx.cmp_keys l σ.nid; rw [c1] at h; exact h
      have hm₁ : m₁ = n₁ := by
        have h := colExpr_snd ctx.cmp_keys l' σ.nid; rw [c1'] at h; rw [lc] at h; omega
      rw [hm₁] at c1'
      rw [c1', c1] at lcol
      rw [c1] at ls
      try dsimp only at lcol ls
      have hb : σ₁.nid = n₁ := by omega
      rw [hb] at rs rcol
      rcases c2 : colExpr ctx.cmp_keys r n₁ with ⟨b, n₂⟩
      rcases c2' : colExpr ctx.cmp_keys r' n₁ with ⟨b', m₂⟩
      rw [c2] at rs
      rw [c2', c2] at rcol
      try dsimp only at rs rcol
      rw [ls] at rcol rs
      have hselbin : planSelects ctx.plan .bin σ₂.seen_bin = false := by
        rw [hp]; exact planSelects_cmp_only k .bin σ₂.seen_bin (by decide)
      have hseq := applyNeg_seq a b a' b' σ.seen_cmp k lcol rcol
      cases hbs : BIN_SWAP op with
      | none =>
          simp only [mutExpr, h1, h2, hbs]
          try dsimp only
          refine ⟨by simp only [nCmpExpr]; omega, ?_, by simp [eraseExpr, le, re],
            by simp [nCmpExpr, lc, rc], ?_⟩
          · simp only [colExpr, c1, c2]
            try dsimp only
            rw [countElig_append]
            omega
          · simp only [colExpr, c1, c1', c2, c2']
            try dsimp only
            exact hseq
      | some sw =>
          simp only [mutExpr, h1, h2, hbs, hselbin, Bool.false_eq_true, if_false]
          try dsimp only
          refine ⟨by simp only [nCmpExpr]; omega, ?_, by simp [eraseExpr, le, re],
            by simp [nCmpExpr, lc, rc], ?_⟩
          · simp only [colExpr, c1, c2]
            try dsimp only
            rw [countElig_append]
            omega
          · simp only [colExpr, c1, c1', c2, c2']
            try dsimp only
            exact hseq
  | .compare l pairs, σ => by
      obtain ⟨ln, ls, le, lc, lcol⟩ := mutExpr_cmp ctx k hp l { σ with nid := σ.nid + 1 }
      rcases h1 : mutExpr ctx l { σ with nid := σ.nid + 1 } with ⟨l', σ₁⟩
      rw [h1] at ln ls le lc lcol; dsimp only at ln ls le lc lcol
      obtain ⟨pn, ps, pe, pc, pcol, pflags⟩ := mutCmpComparators_cmp ctx k hp pairs σ₁
      rcases h2 : mutCmpComparators ctx pairs σ₁ with ⟨pairs₁, σ₂⟩
      rw [h2] at pn ps pe pc pcol pflags; dsimp only at pn ps pe pc pcol pflags
      obtain ⟨onn, os, oe, oc, ocol, oflags⟩ := mutCmpOps_cmp ctx k hp σ.nid 0 pairs₁ σ₂
      rcases h3 : mutCmpOps ctx σ.nid 0 pairs₁ σ₂ with ⟨pairs₂, σ₃⟩
      rw [h3] at onn os oe oc ocol oflags; dsimp only at onn os oe oc ocol oflags
      rcases c1 : colExpr ctx.cmp_keys l (σ.nid + 1) with ⟨a, n₁⟩
      rcases c1' : colExpr ctx.cmp_keys l' (σ.nid + 1) with ⟨a', m₁⟩
      have hn₁ : n₁ = σ.nid + 1 + nCmpExpr l := by
        have h := colExpr_snd ctx.cmp_keys l (σ.nid + 1); rw [c1] at h; exact h
      have hm₁ : m₁ = n₁ := by
        have h := colExpr_snd ctx.cmp_keys l' (σ.nid + 1); rw [c1'] at h; rw [lc] at h
        omega
      rw [hm₁] at c1'
      rw [c1', c1] at lcol
      rw [c1] at ls
      try dsimp only at lcol ls
      have hb : σ₁.nid = n₁ := by omega
      rw [hb] at ps pcol
      rcases c2 : colPairs ctx.cmp_keys pairs n₁ with ⟨b, n₂⟩
      rcases c2' : colPairs ctx.cmp_keys pairs₂ n₁ with ⟨b', m₂⟩
      have hc2m : colPairs ctx.cmp_keys pairs₁ n₁ = (b', m₂) := by
        rw [← ocol n₁]; exact c2'
      rw [c2] at ps
      rw [hc2m, c2] at pcol
      try dsimp only at ps pcol
      rw [ls] at pcol ps
      have hflags1 : opsFlags ctx.cmp_keys σ.nid 0 pairs₁ = opsFlags ctx.cmp_keys σ.nid 0 pairs :=
        pflags σ.nid 0
      rw [hflags1] at os oflags
      rw [ps] at os oflags
      have hseq := applyNeg_seq a b a' b' σ.seen_cmp k lcol pcol
      have hseq2 := applyNeg_seq (a ++ b) (opsFlags ctx.cmp_keys σ.nid 0 pairs)
        (a' ++ b') (opsFlags ctx.cmp_keys σ.nid 0 pairs₂) σ.seen_cmp k hseq
        (by rw [countElig_append]; rw [Nat.add_assoc] at oflags; exact oflags)
      refine ⟨?_, ?_, ?_, ?_, ?_⟩
      · simp only [mutExpr, h1, h2, h3]
        try dsimp only
        simp only [nCmpExpr]
        omega
      · simp only [mutExpr, h1, h2, h3]
        try dsimp only
        simp only [colExpr, c1, c2]
        try dsimp only
        rw [countElig_append, countElig_append]
        omega
      · simp only [mutExpr, h1, h2, h3]
        try dsimp only
        simp [eraseExpr, le, oe, pe]
      · simp only [mutExpr, h1, h2, h3]
        try dsimp only
        simp [nCmpExpr, lc, oc, pc]
      · simp only [mutExpr, h1, h2, h3]
        try dsimp only
        simp only [colExpr, c1, c1', c2, c2']
        try dsimp only
        exact hseq2
  | .call f args, σ => by
      obtain ⟨fn, fs, fe, fc, fcol⟩ := mutExpr_cmp ctx k hp f σ
      rcases h1 : mutExpr ctx f σ with ⟨f', σ₁⟩
      rw [h1] at fn fs fe fc fcol; dsimp only at fn fs fe fc fcol
      obtain ⟨an, as2, ae, ac, acol⟩ := mutExprList_cmp ctx k hp args σ₁
      rcases h2 : mutExprList ctx args σ₁ with ⟨args', σ₂⟩
      rw [h2] at an as2 ae ac acol; dsimp only at an as2 ae ac acol
      obtain ⟨hfix1, hfix2, hfix3⟩ := callSwapFix_cmp ctx k hp f' args' σ₂
      rcases h3 : callSwapFix ctx f' args' σ₂ with ⟨res, σ₃⟩
      rw [h3] at hfix1 hfix2 hfix3; dsimp only at hfix1 hfix2 hfix3
      subst hfix1
      rcases c1 : colExpr ctx.cmp_keys f σ.nid with ⟨a, n₁⟩
      rcases c1' : colExpr ctx.cmp_keys f' σ.nid with ⟨a', m₁⟩
      have hn₁ : n₁ = σ.nid + nCmpExpr f := by
        have h := colExpr_snd ctx.cmp_keys f σ.nid; rw [c1] at h; exact h
      have hm₁ : m₁ = n₁ := by
        have h := colExpr_snd ctx.cmp_keys f' σ.nid; rw [c1'] at h; rw [fc] at h; omega
      rw [hm₁] at c1'
      rw [c1', c1] at fcol
      rw [c1] at fs
      try dsimp only at fcol fs
      have hb : σ₁.nid = n₁ := by omega
      rw [hb] at as2 acol
      rcases c2 : colExprList ctx.cmp_keys args n₁ with ⟨b, n₂⟩
      rcases c2' : colExprList ctx.cmp_keys args' n₁ with ⟨b', m₂⟩
      rw [c2] at as2
      rw [c2', c2] at acol
      try dsimp only at as2 acol
      rw [fs] at acol as2
      have hseq := applyNeg_seq a b a' b' σ.seen_cmp k fcol acol
      refine ⟨?_, ?_, ?_, ?_, ?_⟩
      · simp only [mutExpr, h1, h2, h3]
        try dsimp only
        simp only [nCmpExpr]
        omega
      · simp only [mutExpr, h1, h2, h3]
        try dsimp only
        simp only [colExpr, c1, c2]
        try dsimp only
        rw [countElig_append]
        omega
      · simp only [mutExpr, h1, h2, h3]
        try dsimp only
        simp [eraseExpr, fe, ae]
      · simp only [mutExpr, h1, h2, h3]
        try dsimp only
        simp [nCmpExpr, fc, ac]
      · simp only [mutExpr, h1, h2, h3]
        try dsimp only
        simp only [colExpr, c1, c1', c2, c2']
        try dsimp only
        exact hseq
  | .tuple elts store, σ => by
      obtain ⟨en, es, ee, ec, ecol⟩ := mutExprList_cmp ctx k hp elts σ
      rcases h1 : mutExprList ctx elts σ with ⟨elts', σ₁⟩
      rw [h1] at en es ee ec ecol; dsimp only at en es ee ec ecol
      refine ⟨?_, ?_, ?_, ?_, ?_⟩
      · simp only [mutExpr, h1]
        try dsimp only
        simp only [nCmpExpr]
        omega
      · simp only [mutExpr, h1]
        try dsimp only
        simpa [colExpr] using es
      · simp only [mutExpr, h1]
        try dsimp only
        simp [eraseExpr, ee]
      · simp only [mutExpr, h1]
        try dsimp only
        simp [nCmpExpr, ec]
      · simp only [mutExpr, h1]
        try dsimp only
        simpa [colExpr] using ecol

theorem mutCmpComparators_cmp (ctx : MCtx) (k : Nat) (hp : ctx.plan = [(Cat.cmp, [k])]) :
    ∀ (p : CmpPairs) (σ : MState),
      (mutCmpComparators ctx p σ).2.nid = σ.nid + nCmpPairs p ∧
      (mutCmpComparators ctx p σ).2.seen_cmp =
        σ.seen_cmp + countElig (colPairs ctx.cmp_keys p σ.nid).1 ∧
      erasePairs (mutCmpComparators ctx p σ).1 = erasePairs p ∧
      nCmpPairs (mutCmpComparators ctx p σ).1 = nCmpPairs p ∧
      (colPairs ctx.cmp_keys (mutCmpComparators ctx p σ).1 σ.nid).1 =
        (if σ.seen_cmp ≤ k then
          applyNeg (colPairs ctx.cmp_keys p σ.nid).1 (k - σ.seen_cmp)
        else (colPairs ctx.cmp_keys p σ.nid).1) ∧
      (∀ myId i, opsFlags ctx.cmp_keys myId i (mutCmpComparators ctx p σ).1 =
        opsFlags ctx.cmp_keys myId i p)
  | .nil, σ => by
      refine ⟨by simp [mutCmpComparators, nCmpPairs],
        by simp [mutCmpComparators, colPairs, countElig], rfl, rfl, ?_,
        fun myId i => by simp [mutCmpComparators]⟩
      by_cases h : σ.seen_cmp ≤ k <;> simp [mutCmpComparators, colPairs, applyNeg, h]
  | .cons op e rest, σ => by
      obtain ⟨en, es, ee, ec, ecol⟩ := mutExpr_cmp ctx k hp e σ
      rcases h1 : mutExpr ctx e σ with ⟨e', σ₁⟩
      rw [h1] at en es ee ec ecol; dsimp only at en es ee ec ecol
      obtain ⟨rn, rs, re, rc, rcol, rflags⟩ := mutCmpComparators_cmp ctx k hp rest σ₁
      rcases h2 : mutCmpComparators ctx rest σ₁ with ⟨rest', σ₂⟩
      rw [h2] at rn rs re rc rcol rflags; dsimp only at rn rs re rc rcol rflags
      rcases c1 : colExpr ctx.cmp_keys e σ.nid with ⟨a, n₁⟩
      rcases c1' : colExpr ctx.cmp_keys e' σ.nid with ⟨a', m₁⟩
      have hn₁ : n₁ = σ.nid + nCmpExpr e := by
        have h := colExpr_snd ctx.cmp_keys e σ.nid; rw [c1] at h; exact h
      have hm₁ : m₁ = n₁ := by
        have h := colExpr_snd ctx.cmp_keys e' σ.nid; rw [c1'] at h; rw [ec] at h; omega
      rw [hm₁] at c1'
      rw [c1', c1] at ecol
      rw [c1] at es
      try dsimp only at ecol es
      have hb : σ₁.nid = n₁ := by omega
      rw [hb] at rs rcol
      rcases c2 : colPairs ctx.cmp_keys rest n₁ with ⟨b, n₂⟩
      rcases c2' : colPairs ctx.cmp_keys rest' n₁ with ⟨b', m₂⟩
      rw [c2] at rs
      rw [c2', c2] at rcol
      try dsimp only at rs rcol
      rw [es] at rcol rs
      have hseq := applyNeg_seq a b a' b' σ.seen_cmp k ecol rcol
      refine ⟨?_, ?_, ?_, ?_, ?_, ?_⟩
      · simp only [mutCmpComparators, h1, h2]
        try dsimp only
        simp only [nCmpPairs]
        omega
      · simp only [mutCmpComparators, h1, h2]
        try dsimp only
        simp only [colPairs, c1, c2]
        try dsimp only
        rw [countElig_append]
        omega
      · simp only [mutCmpComparators, h1, h2]
        try dsimp only
        simp [erasePairs, ee, re]
      · simp only [mutCmpComparators, h1, h2]
        try dsimp only
        simp [nCmpPairs, ec, rc]
      · simp only [mutCmpComparators, h1, h2]
        try dsimp only
        simp only [colPairs, c1, c1', c2, c2']
        try dsimp only
        exact hseq
      · intro myId i
        simp only [mutCmpComparators, h1, h2]
        try dsimp only
        simp [opsFlags, rflags myId (i + 1)]

theorem mutExprList_cmp (ctx : MCtx) (k : Nat) (hp : ctx.plan = [(Cat.cmp, [k])]) :
    ∀ (l : ExprList) (σ : MState),
      (mutExprList ctx l σ).2.nid = σ.nid + nCmpExprList l ∧
      (mutExprList ctx l σ).2.seen_cmp =
        σ.seen_cmp + countElig (colExprList ctx.cmp_keys l σ.nid).1 ∧
      eraseExprList (mutExprList ctx l σ).1 = eraseExprList l ∧
      nCmpExprList (mutExprList ctx l σ).1 = nCmpExprList l ∧
      (colExprList ctx.cmp_keys (mutExprList ctx l σ).1 σ.nid).1 =
        (if σ.seen_cmp ≤ k then
          applyNeg (colExprList ctx.cmp_keys l σ.nid).1 (k - σ.seen_cmp)
        else (colExprList ctx.cmp_keys l σ.nid).1)
  | .nil, σ => by
      refine ⟨by simp [mutExprList, nCmpExprList],
        by simp [mutExprList, colExprList, countElig], rfl, rfl, ?_⟩
      by_cases h : σ.seen_cmp ≤ k <;> simp [mutExprList, colExprList, applyNeg, h]
  | .cons e rest, σ => by
      obtain ⟨en, es, ee, ec, ecol⟩ := mutExpr_cmp ctx k hp e σ
      rcases h1 : mutExpr ctx e σ with ⟨e', σ₁⟩
      rw [h1] at en es ee ec ecol; dsimp only at en es ee ec ecol
      obtain ⟨rn, rs, re, rc, rcol⟩ := mutExprList_cmp ctx k hp rest σ₁
      rcases h2 : mutExprList ctx rest σ₁ with ⟨rest', σ₂⟩
      rw [h2] at rn rs re rc rcol; dsimp only at rn rs re rc rcol
      rcases c1 : colExpr ctx.cmp_keys e σ.nid with ⟨a, n₁⟩
      rcases c1' : colExpr ctx.cmp_keys e' σ.nid with ⟨a', m₁⟩
      have hn₁ : n₁ = σ.nid + nCmpExpr e := by
        have h := colExpr_snd ctx.cmp_keys e σ.nid; rw [c1] at h; exact h
      have hm₁ : m₁ = n₁ := by
        have h := colExpr_snd ctx.cmp_keys e' σ.nid; rw [c1'] at h; rw [ec] at h; omega
      rw [hm₁] at c1'
      rw [c1', c1] at ecol
      rw [c1] at es
      try dsimp only at ecol es
      have hb : σ₁.nid = n₁ := by omega
      rw [hb] at rs rcol
      rcases c2 : colExprList ctx.cmp_keys rest n₁ with ⟨b, n₂⟩
      rcases c2' : colExprList ctx.cmp_keys rest' n₁ with ⟨b', m₂⟩
      rw [c2] at rs
      rw [c2', c2] at rcol
      try dsimp only at rs rcol
      rw [es] at rcol rs
      have hseq := applyNeg_seq a b a' b' σ.seen_cmp k ecol rcol
      refine ⟨?_, ?_, ?_, ?_, ?_⟩
      · simp only [mutExprList, h1, h2]
        try dsimp only
        simp only [nCmpExprList]
        omega
      · simp only [mutExprList, h1, h2]
        try dsimp only
        simp only [colExprList, c1, c2]
        try dsimp only
        rw [countElig_append]
        omega
      · simp only [mutExprList, h1, h2]
        try dsimp only
        simp [eraseExprList, ee, re]
      · simp only [mutExprList, h1, h2]
        try dsimp only
        simp [nCmpExprList, ec, rc]
      · simp only [mutExprList, h1, h2]
        try dsimp only
        simp only [colExprList, c1, c1', c2, c2']
        try dsimp only
        exact hseq

end

/-! Under a comparison plan with index `k`, pass 2 at statement level. -/

mutual

theorem mutStmt_cmp (ctx : MCtx) (k : Nat) (hp : ctx.plan = [(Cat.cmp, [k])]) :
    ∀ (s : Stmt) (σ : MState),
      (mutStmt ctx s σ).2.nid = σ.nid + nCmpStmt s ∧
      (mutStmt ctx s σ).2.seen_cmp =
        σ.seen_cmp + countElig (colStmt ctx.cmp_keys s σ.nid).1 ∧
      eraseStmt (mutStmt ctx s σ).1 = eraseStmt s ∧
      nCmpStmt (mutStmt ctx s σ).1 = nCmpStmt s ∧
      (colStmt ctx.cmp_keys (mutStmt ctx s σ).1 σ.nid).1 =
        (if σ.seen_cmp ≤ k then
          applyNeg (colStmt ctx.cmp_keys s σ.nid).1 (k - σ.seen_cmp)
        else (colStmt ctx.cmp_keys s σ.nid).1)
  | .assign targets value, σ => by
      obtain ⟨tn, ts, te, tc, tcol⟩ := mutExprList_cmp ctx k hp targets σ
      rcases h1 : mutExprList ctx targets σ with ⟨targets', σ₁⟩
      rw [h1] at tn ts te tc tcol; dsimp only at tn ts te tc tcol
      obtain ⟨vn, vs, ve, vc, vcol⟩ := mutExpr_cmp ctx k hp value σ₁
      rcases h2 : mutExpr ctx value σ₁ with ⟨value', σ₂⟩
      rw [h2] at vn vs ve vc vcol; dsimp only at vn vs ve vc vcol
      rcases c1 : colExprList ctx.cmp_keys targets σ.nid with ⟨a, n₁⟩
      rcases c1' : colExprList ctx.cmp_keys targets' σ.nid with ⟨a', m₁⟩
      have hn₁ : n₁ = σ.nid + nCmpExprList targets := by
        have h := colExprList_snd ctx.cmp_keys targets σ.nid; rw [c1] at h; exact h
      have hm₁ : m₁ = n₁ := by
        have h := colExprList_snd ctx.cmp_keys targets' σ.nid; rw [c1'] at h
        rw [tc] at h; omega
      rw [hm₁] at c1'
      rw [c1', c1] at tcol
      rw [c1] at ts
      try dsimp only at tcol ts
      have hb : σ₁.nid = n₁ := by omega
      rw [hb] at vs vcol
      rcases c2 : colExpr ctx.cmp_keys value n₁ with ⟨b, n₂⟩
      rcases c2' : colExpr ctx.cmp_keys value' n₁ with ⟨b', m₂⟩
      rw [c2] at vs
      rw [c2', c2] at vcol
      try dsimp only at vs vcol
      rw [ts] at vcol vs
      have hseq := applyNeg_seq a b a' b' σ.seen_cmp k tcol vcol
      simp only [mutStmt, h1, h2, maybeDeleteStmt_cmp ctx k hp]
      try dsimp only
      refine ⟨by simp only [nCmpStmt]; omega, ?_, by simp [eraseStmt, te, ve],
        by simp [nCmpStmt, tc, vc], ?_⟩
      · simp only [colStmt, c1, c2]
        try dsimp only
        rw [countElig_append]
        omega
      · simp only [colStmt, c1, c1', c2, c2']
        try dsimp only
        exact hseq
  | .annAssign target ann value, σ => by
      obtain ⟨tn, ts, te, tc, tcol⟩ := mutExpr_cmp ctx k hp target σ
      rcases h1 : mutExpr ctx target σ with ⟨target', σ₁⟩
      rw [h1] at tn ts te tc tcol; dsimp only at tn ts te tc tcol
      obtain ⟨an, as2, ae, ac, acol⟩ := mutExpr_cmp ctx k hp ann σ₁
      rcases h2 : mutExpr ctx ann σ₁ with ⟨ann', σ₂⟩
      rw [h2] at an as2 ae ac acol; dsimp only at an as2 ae ac acol
      rcases c1 : colExpr ctx.cmp_keys target σ.nid with ⟨a, n₁⟩
      rcases c1' : colExpr ctx.cmp_keys target' σ.nid with ⟨a', m₁⟩
      have hn₁ : n₁ = σ.nid + nCmpExpr target := by
        have h := colExpr_snd ctx.cmp_keys target σ.nid; rw [c1] at h; exact h
      have hm₁ : m₁ = n₁ := by
        have h := colExpr_snd ctx.cmp_keys target' σ.nid; rw [c1'] at h
        rw [tc] at h; omega
      rw [hm₁] at c1'
      rw [c1', c1] at tcol
      rw [c1] at ts
      try dsimp only at tcol ts
      have hb : σ₁.nid = n₁ := by omega
      rw [hb] at as2 acol
      rcases c2 : colExpr ctx.cmp_keys ann n₁ with ⟨b, n₂⟩
      rcases c2' : colExpr ctx.cmp_keys ann' n₁ with ⟨b', m₂⟩
      have hn₂ : n₂ = n₁ + nCmpExpr ann := by
        have h := colExpr_snd ctx.cmp_keys ann n₁; rw [c2] at h; exact h
      have hm₂ : m₂ = n₂ := by
        have h := colExpr_snd ctx.cmp_keys ann' n₁; rw [c2'] at h; rw [ac] at h; omega
      rw [hm₂] at c2'
      rw [c2', c2] at acol
      rw [c2] at as2
      try dsimp only at acol as2
      rw [ts] at acol as2
      have hseq := applyNeg_seq a b a' b' σ.seen_cmp k tcol acol
      cases value with
      | some v =>
          obtain ⟨vn, vs, ve, vc, vcol⟩ := mutExpr_cmp ctx k hp v σ₂
          rcases h3 : mutExpr ctx v σ₂ with ⟨v', σ₃⟩
          rw [h3] at vn vs ve vc vcol; dsimp only at vn vs ve vc vcol
          have hb2 : σ₂.nid = n₂ := by omega
          rw [hb2] at vs vcol
          rcases c3 : colExpr ctx.cmp_keys v n₂ with ⟨c, n₃⟩
          rcases c3' : colExpr ctx.cmp_keys v' n₂ with ⟨c', m₃⟩
          rw [c3] at vs
          rw [c3', c3] at vcol
          try dsimp only at vs vcol
          rw [as2] at vcol vs
          have hseq2 := applyNeg_seq (a ++ b) c (a' ++ b') c' σ.seen_cmp k hseq
            (by rw [countElig_append, ← Nat.add_assoc]; exact vcol)
          simp only [mutStmt, h1, h2, h3, maybeDeleteStmt_cmp ctx k hp]
          try dsimp only
          refine ⟨by simp only [nCmpStmt, nCmpOptExpr]; omega, ?_,
            by simp [eraseStmt, eraseOptExpr, te, ae, ve],
            by simp [nCmpStmt, nCmpOptExpr, tc, ac, vc], ?_⟩
          · simp only [colStmt, colOptExpr, c1, c2, c3]
            try dsimp only
            rw [countElig_append, countElig_append]
            omega
          · simp only [colStmt, colOptExpr, c1, c1', c2, c2', c3, c3']
            try dsimp only
            exact hseq2
      | none =>
          simp only [mutStmt, h1, h2, maybeDeleteStmt_cmp ctx k hp]
          try dsimp only
          refine ⟨by simp only [nCmpStmt, nCmpOptExpr]; omega, ?_,
            by simp [eraseStmt, eraseOptExpr, te, ae],
            by simp [nCmpStmt, nCmpOptExpr, tc, ac], ?_⟩
          · simp only [colStmt, colOptExpr, c1, c2]
            try dsimp only
            simp only [List.append_nil]
            rw [countElig_append]
            omega
          · simp only [colStmt, colOptExpr, c1, c1', c2, c2']
            try dsimp only
            simpa using hseq
  | .augAssign target op value, σ => by
      obtain ⟨tn, ts, te, tc, tcol⟩ := mutExpr_cmp ctx k hp target σ
      rcases h1 : mutExpr ctx target σ with ⟨target', σ₁⟩
      rw [h1] at tn ts te tc tcol; dsimp only at tn ts te tc tcol
      obtain ⟨vn, vs, ve, vc, vcol⟩ := mutExpr_cmp ctx k hp value σ₁
      rcases h2 : mutExpr ctx value σ₁ with ⟨value', σ₂⟩
      rw [h2] at vn vs ve vc vcol; dsimp only at vn vs ve vc vcol
      rcases c1 : colExpr ctx.cmp_keys target σ.nid with ⟨a, n₁⟩
      rcases c1' : colExpr ctx.cmp_keys target' σ.nid with ⟨a', m₁⟩
      have hn₁ : n₁ = σ.nid + nCmpExpr target := by
        have h := colExpr_snd ctx.cmp_keys target σ.nid; rw [c1] at h; exact h
      have hm₁ : m₁ = n₁ := by
        have h := colExpr_snd ctx.cmp_keys target' σ.nid; rw [c1'] at h
        rw [tc] at h; omega
      rw [hm₁] at c1'
      rw [c1', c1] at tcol
      rw [c1] at ts
      try dsimp only at tcol ts
      have hb : σ₁.nid = n₁ := by omega
      rw [hb] at vs vcol
      rcases c2 : colExpr ctx.cmp_keys value n₁ with ⟨b, n₂⟩
      rcases c2' : colExpr ctx.cmp_keys value' n₁ with ⟨b', m₂⟩
      rw [c2] at vs
      rw [c2', c2] at vcol
      try dsimp only at vs vcol
      rw [ts] at vcol vs
      have hseq := applyNeg_seq a b a' b' σ.seen_cmp k tcol vcol
      have hselbin : planSelects ctx.plan .bin σ₂.seen_bin = false := by
        rw [hp]; exact planSelects_cmp_only k .bin σ₂.seen_bin (by decide)
      cases hbs : BIN_SWAP op with
      | none =>
          simp only [mutStmt, h1, h2, hbs, maybeDeleteStmt_cmp ctx k hp]
          try dsimp only
          refine ⟨by simp only [nCmpStmt]; omega, ?_, by simp [eraseStmt, te, ve],
            by simp [nCmpStmt, tc, vc], ?_⟩
          · simp only [colStmt, c1, c2]
            try dsimp only
            rw [countElig_append]
            omega
          · simp only [colStmt, c1, c1', c2, c2']
            try dsimp only
            exact hseq
      | some sw =>
          simp only [mutStmt, h1, h2, hbs, hselbin, Bool.false_eq_true, if_false,
            maybeDeleteStmt_cmp ctx k hp]
          try dsimp only
          refine ⟨by simp only [nCmpStmt]; omega, ?_, by simp [eraseStmt, te, ve],
            by simp [nCmpStmt, tc, vc], ?_⟩
          · simp only [colStmt, c1, c2]
            try dsimp only
            rw [countElig_append]
            omega
          · simp only [colStmt, c1, c1', c2, c2']
            try dsimp only
            exact hseq
  | .exprStmt value, σ => by
      obtain ⟨vn, vs, ve, vc, vcol⟩ := mutExpr_cmp ctx k hp value σ
      rcases h1 : mutExpr ctx value σ with ⟨value', σ₁⟩
      rw [h1] at vn vs ve vc vcol; dsimp only at vn vs ve vc vcol
      obtain ⟨hf1, hf2, hf3⟩ := exprStmtFix_cmp ctx k hp value' σ₁
      rcases h2 : exprStmtFix ctx value' σ₁ with ⟨res, σ₂⟩
      rw [h2] at hf1 hf2 hf3; dsimp only at hf1 hf2 hf3
      subst hf1
      refine ⟨?_, ?_, ?_, ?_, ?_⟩
      · simp only [mutStmt, h1, h2]
        try dsimp only
        simp only [nCmpStmt]
        omega
      · simp only [mutStmt, h1, h2]
        try dsimp only
        simp only [colStmt]
        omega
      · simp only [mutStmt, h1, h2]
        try dsimp only
        simp [eraseStmt, ve]
      · simp only [mutStmt, h1, h2]
        try dsimp only
        simp [nCmpStmt, vc]
      · simp only [mutStmt, h1, h2]
        try dsimp only
        simp only [colStmt]
        exact vcol
  | .ifStmt test body orelse, σ => by
      obtain ⟨tn, ts, te, tc, tcol⟩ := mutExpr_cmp ctx k hp test σ
      rcases h1 : mutExpr ctx test σ with ⟨test', σ₁⟩
      rw [h1] at tn ts te tc tcol; dsimp only at tn ts te tc tcol
      obtain ⟨bn, bs, be, bc, bcol⟩ := mutStmtList_cmp ctx k hp body σ₁
      rcases h2 : mutStmtList ctx body σ₁ with ⟨body', σ₂⟩
      rw [h2] at bn bs be bc bcol; dsimp only at bn bs be bc bcol
      obtain ⟨en, es, ee, ec, ecol⟩ := mutStmtList_cmp ctx k hp orelse σ₂
      rcases h3 : mutStmtList ctx orelse σ₂ with ⟨orelse', σ₃⟩
      rw [h3] at en es ee ec ecol; dsimp only at en es ee ec ecol
      obtain ⟨hf1, hf2, hf3⟩ := ifTestFix_cmp ctx k hp test' body' orelse' σ₃
      rcases h4 : ifTestFix ctx test' body' orelse' σ₃ with ⟨res, σ₄⟩
      rw [h4] at hf1 hf2 hf3; dsimp only at hf1 hf2 hf3
      subst hf1
      rcases c1 : colExpr ctx.cmp_keys test σ.nid with ⟨a, n₁⟩
      rcases c1' : colExpr ctx.cmp_keys test' σ.nid with ⟨a', m₁⟩
      have hn₁ : n₁ = σ.nid + nCmpExpr test := by
        have h := colExpr_snd ctx.cmp_keys test σ.nid; rw [c1] at h; exact h
      have hm₁ : m₁ = n₁ := by
        have h := colExpr_snd ctx.cmp_keys test' σ.nid; rw [c1'] at h; rw [tc] at h
        omega
      rw [hm₁] at c1'
      rw [c1', c1] at tcol
      rw [c1] at ts
      try dsimp only at tcol ts
      have hb : σ₁.nid = n₁ := by omega
      rw [hb] at bs bcol
      rcases c2 : colStmtList ctx.cmp_keys body n₁ with ⟨b, n₂⟩
      rcases c2' : colStmtList ctx.cmp_keys body' n₁ with ⟨b', m₂⟩
      have hn₂ : n₂ = n₁ + nCmpStmtList body := by
        have h := colStmtList_snd ctx.cmp_keys body n₁; rw [c2] at h; exact h
      have hm₂ : m₂ = n₂ := by
        have h := colStmtList_snd ctx.cmp_keys body' n₁; rw [c2'] at h; rw [bc] at h
        omega
      rw [hm₂] at c2'
      rw [c2', c2] at bcol
      rw [c2] at bs
      try dsimp only at bcol bs
      rw [ts] at bcol bs
      have hseq := applyNeg_seq a b a' b' σ.seen_cmp k tcol bcol
      have hb2 : σ₂.nid = n₂ := by omega
      rw [hb2] at es ecol
      rcases c3 : colStmtList ctx.cmp_keys orelse n₂ with ⟨c, n₃⟩
      rcases c3' : colStmtList ctx.cmp_keys orelse' n₂ with ⟨c', m₃⟩
      rw [c3] at es
      rw [c3', c3] at ecol
      try dsimp only at es ecol
      rw [bs] at ecol es
      have hseq2 := applyNeg_seq (a ++ b) c (a' ++ b') c' σ.seen_cmp k hseq
        (by rw [countElig_append, ← Nat.add_assoc]; exact ecol)
      refine ⟨?_, ?_, ?_, ?_, ?_⟩
      · simp only [mutStmt, h1, h2, h3, h4]
        try dsimp only
        simp only [nCmpStmt]
        omega
      · simp only [mutStmt, h1, h2, h3, h4]
        try dsimp only
        simp only [colStmt, c1, c2, c3]
        try dsimp only
        rw [countElig_append, countElig_append]
        omega
      · simp only [mutStmt, h1, h2, h3, h4]
        try dsimp only
        simp [eraseStmt, te, be, ee]
      · simp only [mutStmt, h1, h2, h3, h4]
        try dsimp only
        simp [nCmpStmt, tc, bc, ec]
      · simp only [mutStmt, h1, h2, h3, h4]
        try dsimp only
        simp only [colStmt, c1, c1', c2, c2', c3, c3']
        try dsimp only
        exact hseq2
  | .whileStmt test body orelse, σ => by
      obtain ⟨tn, ts, te, tc, tcol⟩ := mutExpr_cmp ctx k hp test σ
      rcases h1 : mutExpr ctx test σ with ⟨test', σ₁⟩
      rw [h1] at tn ts te tc tcol; dsimp only at tn ts te tc tcol
      obtain ⟨bn, bs, be, bc, bcol⟩ := mutStmtList_cmp ctx k hp body σ₁
      rcases h2 : mutStmtList ctx body σ₁ with ⟨body', σ₂⟩
      rw [h2] at bn bs be bc bcol; dsimp only at bn bs be bc bcol
      obtain ⟨en, es, ee, ec, ecol⟩ := mutStmtList_cmp ctx k hp orelse σ₂
      rcases h3 : mutStmtList ctx orelse σ₂ with ⟨orelse', σ₃⟩
      rw [h3] at en es ee ec ecol; dsimp only at en es ee ec ecol
      obtain ⟨hf1, hf2, hf3⟩ := whileTestFix_cmp ctx k hp test' body' orelse' σ₃
      rcases h4 : whileTestFix ctx test' body' orelse' σ₃ with ⟨res, σ₄⟩
      rw [h4] at hf1 hf2 hf3; dsimp only at hf1 hf2 hf3
      subst hf1
      rcases c1 : colExpr ctx.cmp_keys test σ.nid with ⟨a, n₁⟩
      rcases c1' : colExpr ctx.cmp_keys test' σ.nid with ⟨a', m₁⟩
      have hn₁ : n₁ = σ.nid + nCmpExpr test := by
        have h := colExpr_snd ctx.cmp_keys test σ.nid; rw [c1] at h; exact h
      have hm₁ : m₁ = n₁ := by
        have h := colExpr_snd ctx.cmp_keys test' σ.nid; rw [c1'] at h; rw [tc] at h
        omega
      rw [hm₁] at c1'
      rw [c1', c1] at tcol
      rw [c1] at ts
      try dsimp only at tcol ts
      have hb : σ₁.nid = n₁ := by omega
      rw [hb] at bs bcol
      rcases c2 : colStmtList ctx.cmp_keys body n₁ with ⟨b, n₂⟩
      rcases c2' : colStmtList ctx.cmp_keys body' n₁ with ⟨b', m₂⟩
      have hn₂ : n₂ = n₁ + nCmpStmtList body := by
        have h := colStmtList_snd ctx.cmp_keys body n₁; rw [c2] at h; exact h
      have hm₂ : m₂ = n₂ := by
        have h := colStmtList_snd ctx.cmp_keys body' n₁; rw [c2'] at h; rw [bc] at h
        omega
      rw [hm₂] at c2'
      rw [c2', c2] at bcol
      rw [c2] at bs
      try dsimp only at bcol bs
      rw [ts] at bcol bs
      have hseq := applyNeg_seq a b a' b' σ.seen_cmp k tcol bcol
      have hb2 : σ₂.nid = n₂ := by omega
      rw [hb2] at es ecol
      rcases c3 : colStmtList ctx.cmp_keys orelse n₂ with ⟨c, n₃⟩
      rcases c3' : colStmtList ctx.cmp_keys orelse' n₂ with ⟨c', m₃⟩
      rw [c3] at es
      rw [c3', c3] at ecol
      try dsimp only at es ecol
      rw [bs] at ecol es
      have hseq2 := applyNeg_seq (a ++ b) c (a' ++ b') c' σ.seen_cmp k hseq
        (by rw [countElig_append, ← Nat.add_assoc]; exact ecol)
      refine ⟨?_, ?_, ?_, ?_, ?_⟩
      · simp only [mutStmt, h1, h2, h3, h4]
        try dsimp only
        simp only [nCmpStmt]
        omega
      · simp only [mutStmt, h1, h2, h3, h4]
        try dsimp only
        simp only [colStmt, c1, c2, c3]
        try dsimp only
        rw [countElig_append, countElig_append]
        omega
      · simp only [mutStmt, h1, h2, h3, h4]
        try dsimp only
        simp [eraseStmt, te, be, ee]
      · simp only [mutStmt, h1, h2, h3, h4]
        try dsimp only
        simp [nCmpStmt, tc, bc, ec]
      · simp only [mutStmt, h1, h2, h3, h4]
        try dsimp only
        simp only [colStmt, c1, c1', c2, c2', c3, c3']
        try dsimp only
        exact hseq2
  | .forStmt target iter body orelse, σ => by
      obtain ⟨tn, ts, te, tc, tcol⟩ := mutExpr_cmp ctx k hp target σ
      rcases h1 : mutExpr ctx target σ with ⟨target', σ₁⟩
      rw [h1] at tn ts te tc tcol; dsimp only at tn ts te tc tcol
      obtain ⟨jn, js, je, jc, jcol⟩ := mutExpr_cmp ctx k hp iter σ₁
      rcases h2 : mutExpr ctx iter σ₁ with ⟨iter', σ₂⟩
      rw [h2] at jn js je jc jcol; dsimp only at jn js je jc jcol
      obtain ⟨bn, bs, be, bc, bcol⟩ := mutStmtList_cmp ctx k hp body σ₂
      rcases h3 : mutStmtList ctx body σ₂ with ⟨body', σ₃⟩
      rw [h3] at bn bs be bc bcol; dsimp only at bn bs be bc bcol
      obtain ⟨en, es, ee, ec, ecol⟩ := mutStmtList_cmp ctx k hp orelse σ₃
      rcases h4 : mutStmtList ctx orelse σ₃ with ⟨orelse', σ₄⟩
      rw [h4] at en es ee ec ecol; dsimp only at en es ee ec ecol
      rcases c1 : colExpr ctx.cmp_keys target σ.nid with ⟨a, n₁⟩
      rcases c1' : colExpr ctx.cmp_keys target' σ.nid with ⟨a', m₁⟩
      have hn₁ : n₁ = σ.nid + nCmpExpr target := by
        have h := colExpr_snd ctx.cmp_keys target σ.nid; rw [c1] at h; exact h
      have hm₁ : m₁ = n₁ := by
        have h := colExpr_snd ctx.cmp_keys target' σ.nid; rw [c1'] at h; rw [tc] at h
        omega
      rw [hm₁] at c1'
      rw [c1', c1] at tcol
      rw [c1] at ts
      try dsimp only at tcol ts
      have hb : σ₁.nid = n₁ := by omega
      rw [hb] at js jcol
      rcases c2 : colExpr ctx.cmp_keys iter n₁ with ⟨b, n₂⟩
      rcases c2' : colExpr ctx.cmp_keys iter' n₁ with ⟨b', m₂⟩
      have hn₂ : n₂ = n₁ + nCmpExpr iter := by
        have h := colExpr_snd ctx.cmp_keys iter n₁; rw [c2] at h; exact h
      have hm₂ : m₂ = n₂ := by
        have h := colExpr_snd ctx.cmp_keys iter' n₁; rw [c2'] at h; rw [jc] at h; omega
      rw [hm₂] at c2'
      rw [c2', c2] at jcol
      rw [c2] at js
      try dsimp only at jcol js
      rw [ts] at jcol js
      have hseq := applyNeg_seq a b a' b' σ.seen_cmp k tcol jcol
      have hb2 : σ₂.nid = n₂ := by omega
      rw [hb2] at bs bcol
      rcases c3 : colStmtList ctx.cmp_keys body n₂ with ⟨c, n₃⟩
      rcases c3' : colStmtList ctx.cmp_keys body' n₂ with ⟨c', m₃⟩
      have hn₃ : n₃ = n₂ + nCmpStmtList body := by
        have h := colStmtList_snd ctx.cmp_keys body n₂; rw [c3] at h; exact h
      have hm₃ : m₃ = n₃ := by
        have h := colStmtList_snd ctx.cmp_keys body' n₂; rw [c3'] at h; rw [bc] at h
        omega
      rw [hm₃] at c3'
      rw [c3', c3] at bcol
      rw [c3] at bs
      try dsimp only at bcol bs
      rw [js] at bcol bs
      have hseq2 := applyNeg_seq (a ++ b) c (a' ++ b') c' σ.seen_cmp k hseq
        (by rw [countElig_append, ← Nat.add_assoc]; exact bcol)
      have hb3 : σ₃.nid = n₃ := by omega
      rw [hb3] at es ecol
      rcases c4 : colStmtList ctx.cmp_keys orelse n₃ with ⟨d, n₄⟩
      rcases c4' : colStmtList ctx.cmp_keys orelse' n₃ with ⟨d', m₄⟩
      rw [c4] at es
      rw [c4', c4] at ecol
      try dsimp only at es ecol
      rw [bs] at ecol es
      have hseq3 := applyNeg_seq (a ++ b ++ c) d (a' ++ b' ++ c') d' σ.seen_cmp k hseq2
        (by rw [countElig_append, countElig_append, ← Nat.add_assoc, ← Nat.add_assoc]
            exact ecol)
      refine ⟨?_, ?_, ?_, ?_, ?_⟩
      · simp only [mutStmt, h1, h2, h3, h4]
        try dsimp only
        simp only [nCmpStmt]
        omega
      · simp only [mutStmt, h1, h2, h3, h4]
        try dsimp only
        simp only [colStmt, c1, c2, c3, c4]
        try dsimp only
        rw [countElig_append, countElig_append, countElig_append]
        omega
      · simp only [mutStmt, h1, h2, h3, h4]
        try dsimp only
        simp [eraseStmt, te, je, be, ee]
      · simp only [mutStmt, h1, h2, h3, h4]
        try dsimp only
        simp [nCmpStmt, tc, jc, bc, ec]
      · simp only [mutStmt, h1, h2, h3, h4]
        try dsimp only
        simp only [colStmt, c1, c1', c2, c2', c3, c3', c4, c4']
        try dsimp only
        exact hseq3
  | .ret value, σ => by
      cases value with
      | some v =>
          obtain ⟨vn, vs, ve, vc, vcol⟩ := mutExpr_cmp ctx k hp v σ
          rcases h1 : mutExpr ctx v σ with ⟨v', σ₁⟩
          rw [h1] at vn vs ve vc vcol; dsimp only at vn vs ve vc vcol
          refine ⟨?_, ?_, ?_, ?_, ?_⟩
          · simp only [mutStmt, h1]
            try dsimp only
            simp only [nCmpStmt, nCmpOptExpr]
            omega
          · simp only [mutStmt, h1]
            try dsimp only
            simp only [colStmt, colOptExpr]
            omega
          · simp only [mutStmt, h1]
            try dsimp only
            simp [eraseStmt, eraseOptExpr, ve]
          · simp only [mutStmt, h1]
            try dsimp only
            simp [nCmpStmt, nCmpOptExpr, vc]
          · simp only [mutStmt, h1]
            try dsimp only
            simp only [colStmt, colOptExpr]
            exact vcol
      | none =>
          refine ⟨by simp [mutStmt, nCmpStmt, nCmpOptExpr],
            by simp [mutStmt, colStmt, colOptExpr, countElig], by simp [mutStmt],
            by simp [mutStmt], ?_⟩
          by_cases h : σ.seen_cmp ≤ k <;>
            simp [mutStmt, colStmt, colOptExpr, applyNeg, h]
  | .pass, σ => by
      refine ⟨by simp [mutStmt, nCmpStmt], by simp [mutStmt, colStmt, countElig],
        rfl, rfl, ?_⟩
      by_cases h : σ.seen_cmp ≤ k <;> simp [mutStmt, colStmt, applyNeg, h]
  | .funcDef nm args body, σ => by
      obtain ⟨bn, bs, be, bc, bcol⟩ := mutStmtList_cmp ctx k hp body σ
      rcases h1 : mutStmtList ctx body σ with ⟨body', σ₁⟩
      rw [h1] at bn bs be bc bcol; dsimp only at bn bs be bc bcol
      refine ⟨?_, ?_, ?_, ?_, ?_⟩
      · simp only [mutStmt, h1]
        try dsimp only
        simp only [nCmpStmt]
        omega
      · simp only [mutStmt, h1]
        try dsimp only
        simp only [colStmt]
        omega
      · simp only [mutStmt, h1]
        try dsimp only
        simp [eraseStmt, be]
      · simp only [mutStmt, h1]
        try dsimp only
        simp [nCmpStmt, bc]
      · simp only [mutStmt, h1]
        try dsimp only
        simp only [colStmt]
        exact bcol

theorem mutStmtList_cmp (ctx : MCtx) (k : Nat) (hp : ctx.plan = [(Cat.cmp, [k])]) :
    ∀ (l : StmtList) (σ : MState),
      (mutStmtList ctx l σ).2.nid = σ.nid + nCmpStmtList l ∧
      (mutStmtList ctx l σ).2.seen_cmp =
        σ.seen_cmp + countElig (colStmtList ctx.cmp_keys l σ.nid).1 ∧
      eraseStmtList (mutStmtList ctx l σ).1 = eraseStmtList l ∧
      nCmpStmtList (mutStmtList ctx l σ).1 = nCmpStmtList l ∧
      (colStmtList ctx.cmp_keys (mutStmtList ctx l σ).1 σ.nid).1 =
        (if σ.seen_cmp ≤ k then
          applyNeg (colStmtList ctx.cmp_keys l σ.nid).1 (k - σ.seen_cmp)
        else (colStmtList ctx.cmp_keys l σ.nid).1)
  | .nil, σ => by
      refine ⟨by simp [mutStmtList, nCmpStmtList],
        by simp [mutStmtList, colStmtList, countElig], rfl, rfl, ?_⟩
      by_cases h : σ.seen_cmp ≤ k <;> simp [mutStmtList, colStmtList, applyNeg, h]
  | .cons st rest, σ => by
      obtain ⟨sn, ss, se, sc, scol⟩ := mutStmt_cmp ctx k hp st σ
      rcases h1 : mutStmt ctx st σ with ⟨st', σ₁⟩
      rw [h1] at sn ss se sc scol; dsimp only at sn ss se sc scol
      obtain ⟨rn, rs, re, rc, rcol⟩ := mutStmtList_cmp ctx k hp rest σ₁
      rcases h2 : mutStmtList ctx rest σ₁ with ⟨rest', σ₂⟩
      rw [h2] at rn rs re rc rcol; dsimp only at rn rs re rc rcol
      rcases c1 : colStmt ctx.cmp_keys st σ.nid with ⟨a, n₁⟩
      rcases c1' : colStmt ctx.cmp_keys st' σ.nid with ⟨a', m₁⟩
      have hn₁ : n₁ = σ.nid + nCmpStmt st := by
        have h := colStmt_snd ctx.cmp_keys st σ.nid; rw [c1] at h; exact h
      have hm₁ : m₁ = n₁ := by
        have h := colStmt_snd ctx.cmp_keys st' σ.nid; rw [c1'] at h; rw [sc] at h
        omega
      rw [hm₁] at c1'
      rw [c1', c1] at scol
      rw [c1] at ss
      try dsimp only at scol ss
      have hb : σ₁.nid = n₁ := by omega
      rw [hb] at rs rcol
      rcases c2 : colStmtList ctx.cmp_keys rest n₁ with ⟨b, n₂⟩
      rcases c2' : colStmtList ctx.cmp_keys rest' n₁ with ⟨b', m₂⟩
      rw [c2] at rs
      rw [c2', c2] at rcol
      try dsimp only at rs rcol
      rw [ss] at rcol rs
      have hseq := applyNeg_seq a b a' b' σ.seen_cmp k scol rcol
      refine ⟨?_, ?_, ?_, ?_, ?_⟩
      · simp only [mutStmtList, h1, h2]
        try dsimp only
        simp only [nCmpStmtList]
        omega
      · simp only [mutStmtList, h1, h2]
        try dsimp only
        simp only [colStmtList, c1, c2]
        try dsimp only
        rw [countElig_append]
        omega
      · simp only [mutStmtList, h1, h2]
        try dsimp only
        simp [eraseStmtList, se, re]
      · simp only [mutStmtList, h1, h2]
        try dsimp only
        simp [nCmpStmtList, sc, rc]
      · simp only [mutStmtList, h1, h2]
        try dsimp only
        simp only [colStmtList, c1, c1', c2, c2']
        try dsimp only
        exact hseq

end

/-- C3 (amended): when the plan selects comparison index k, the rewriter
negates exactly the k-th eligible comparison operator, counted in its own
traversal order (a node's sub-expressions contribute their operators
before the node's own operator chain; this coincides with pre-order over
operators only when no comparison nests inside another), under the
CMP_NEGATION mapping; only operators whose (identity, index) key is in
the eligibility-key set are counted, ineligible chained operators are
skipped without incrementing the counter, and nothing outside comparison
operators changes (the erasures agree). -/
theorem cmp_plan_negates_kth_eligible (m : StmtList) (k : Nat) :
    colModule (runCounter m).cmp_keys (mutApply m [(Cat.cmp, [k])]) =
      applyNeg (colModule (runCounter m).cmp_keys m) k ∧
    eraseStmtList (mutApply m [(Cat.cmp, [k])]) = eraseStmtList m := by
  obtain ⟨hn, hs, he, hc, hcol⟩ := mutStmtList_cmp
    { plan := [(Cat.cmp, [k])]
      first_def_names := (runCounter m).first_def_names
      cmp_keys := (runCounter m).cmp_keys } k rfl m initMState
  constructor
  · simpa [mutApply, colModule, initMState] using hcol
  · simpa [mutApply] using he

end MutTest
